import Mathlib

/-!
Verification of `src/proptest/src/num/float_samplers.rs`.

The Rust source is a macro `float_sampler!($typ, $int_typ, $wrapper)` instantiated
at (`f32`, `u32`) and (`f64`, `u64`).  We embed it shallowly for a generic binary
IEEE-754 format described by its mantissa-field width and exponent-field width,
and instantiate the two formats used by the source.

A finite float of the format is modelled by its bit pattern, split into a sign
bit and the magnitude bits (exponent field ++ mantissa field), exactly as the
source manipulates it via `to_bits` / `from_bits`.  Every finite value is an
integer multiple of the smallest positive subnormal `2^-D`, so a pattern's value
is represented by the integer `Kz` of those multiples ("K units"); the exact
rational value is `val = Kz / 2^D`.  The float operations the source uses
(`-`, `*`, `/`, `mul_add`, casts, `floor`, `ceil`, comparisons) are defined by
rounding the exact rational result to nearest, ties to even, as IEEE-754 and
Rust prescribe; the rounding itself is computed with integer arithmetic on a
numerator/denominator pair so that everything evaluates by `decide`.
-/

namespace FloatSamplers

/-- A binary floating-point format: `mbits` mantissa-field bits and `ebits`
exponent-field bits (f32: 23/8, f64: 52/11). -/
structure FpFormat where
  mbits : ℕ
  ebits : ℕ
deriving DecidableEq

/-- A floating-point bit pattern: sign bit plus magnitude bits.  The Rust
`to_bits` value is `sign * 2^(intw-1) + mag`. -/
structure Fp where
  sign : Bool
  mag : ℕ
deriving DecidableEq

namespace Fp

/-- Negation: flip the sign bit. -/
def fneg (a : Fp) : Fp := ⟨!a.sign, a.mag⟩

/-- Absolute value: clear the sign bit. -/
def fabs (a : Fp) : Fp := ⟨false, a.mag⟩

end Fp

namespace FpFormat

variable (φ : FpFormat)

/-- `2 ^ mbits`, the weight of the exponent field inside the magnitude bits. -/
def M : ℕ := 2 ^ φ.mbits

/-- Exponent bias (1023 for f64). -/
def bias : ℕ := 2 ^ (φ.ebits - 1) - 1

/-- Exponent-field value reserved for infinities and NaNs (2047 for f64). -/
def emaxf : ℕ := 2 ^ φ.ebits - 1

/-- The smallest positive subnormal is `2^-D` (D = 1074 for f64). -/
def D : ℕ := φ.bias + φ.mbits - 1

/-- The scale `2^D` as a natural number. -/
def KD : ℕ := 2 ^ φ.D

/-- `MANTISSA_DIGITS` of the format (24 for f32, 53 for f64). -/
def prec : ℕ := φ.mbits + 1

/-- Bit width of the matching unsigned integer type (`u32`/`u64`). -/
def intw : ℕ := 1 + φ.ebits + φ.mbits

/-- Sanity conditions satisfied by all IEEE formats (and by f32/f64). -/
def Valid : Prop := 1 ≤ φ.mbits ∧ 3 ≤ φ.ebits ∧ φ.mbits + 3 ≤ φ.bias

instance : DecidablePred FpFormat.Valid := fun φ => by
  unfold FpFormat.Valid; infer_instance

/-- The value of a magnitude bit pattern, measured in units of the smallest
positive subnormal `2^-D`.  The exponent field is `m / M`, the mantissa field
`m % M`; field 0 is subnormal, field `e ≥ 1` has an implicit leading bit. -/
def Km (m : ℕ) : ℕ :=
  if m / φ.M = 0 then m % φ.M else (φ.M + m % φ.M) * 2 ^ (m / φ.M - 1)

/-- Distance, in `2^-D` units, from magnitude `m` to magnitude `m + 1`. -/
def spaceK (m : ℕ) : ℕ := 2 ^ (m / φ.M - 1)

/-- First non-finite magnitude (the `+∞` bit pattern). -/
def infMag : ℕ := φ.emaxf * φ.M

/-- Largest finite magnitude. -/
def maxFinMag : ℕ := φ.emaxf * φ.M - 1

/-- Signed value of a bit pattern in `2^-D` units. -/
def Kz (a : Fp) : ℤ := if a.sign then -(φ.Km a.mag : ℤ) else (φ.Km a.mag : ℤ)

/-- Scale factor `2^D` as a rational. -/
def sc : ℚ := ((2 ^ φ.D : ℕ) : ℚ)

/-- Exact rational value of a magnitude. -/
def valm (m : ℕ) : ℚ := (φ.Km m : ℚ) / φ.sc

/-- Exact rational value of a (finite) bit pattern. -/
def val (a : Fp) : ℚ := (φ.Kz a : ℚ) / φ.sc

/-- The pattern is finite (exponent field below the inf/NaN field). -/
def isFinite (a : Fp) : Prop := a.mag < φ.infMag

instance : DecidablePred φ.isFinite := fun a => by
  unfold FpFormat.isFinite; infer_instance

/-- Fuel-driven base-2 logarithm (structural recursion, kernel-reducible). -/
def lgAux : ℕ → ℕ → ℕ
  | 0, _ => 0
  | fuel + 1, n => if n < 2 then 0 else lgAux fuel (n / 2) + 1

/-- `log2f n` is `⌊log₂ n⌋` for `n ≥ 1`. -/
def log2f (n : ℕ) : ℕ := lgAux n n

/-- Largest magnitude whose `Km` is at most `K`. -/
def magOfK (K : ℕ) : ℕ :=
  if K < φ.M then K
  else (log2f K - φ.mbits + 1) * φ.M + (K / 2 ^ (log2f K - φ.mbits) - φ.M)

/-- Round the nonnegative rational `n / d` to a magnitude: nearest, ties to
even, overflow clamped to the `+∞` pattern.  All decisions are integer
comparisons: the floor magnitude is `magOfK ⌊(n/d)·2^D⌋` and `n/d` is closer
to it than to its successor iff `2·n·2^D < (Km m + Km (m+1))·d`. -/
def roundMagP (n d : ℕ) : ℕ :=
  let m := φ.magOfK (n * φ.KD / d)
  let lhs := 2 * (n * φ.KD)
  let rhs := (φ.Km m + φ.Km (m + 1)) * d
  let r :=
    if lhs < rhs then m
    else if rhs < lhs then m + 1
    else if m % 2 = 0 then m else m + 1
  min r φ.infMag

/-- Round the exact rational `n / d` to a pattern (nearest, ties to even); an
exact zero gets the `+0` pattern, as IEEE round-to-nearest prescribes. -/
def roundP (n : ℤ) (d : ℕ) : Fp :=
  if n < 0 then ⟨true, φ.roundMagP (-n).toNat d⟩ else ⟨false, φ.roundMagP n.toNat d⟩

/-- IEEE addition of finite patterns: round the exact sum `(Kz a + Kz b)/2^D`;
an exact zero from nonzero operands is `+0`, while `-0 + -0 = -0`. -/
def fadd (a b : Fp) : Fp :=
  if φ.Kz a + φ.Kz b = 0 then
    if a.mag = 0 ∧ b.mag = 0 then ⟨a.sign && b.sign, 0⟩ else ⟨false, 0⟩
  else roundP φ (φ.Kz a + φ.Kz b) φ.KD

/-- IEEE subtraction `a - b = a + (-b)`. -/
def fsub (a b : Fp) : Fp := fadd φ a (Fp.fneg b)

/-- IEEE multiplication: round the exact product `(Kz a · Kz b)/2^(2D)`; a
zero result keeps the XOR-ed sign. -/
def fmul (a b : Fp) : Fp :=
  if a.mag = 0 ∨ b.mag = 0 then ⟨xor a.sign b.sign, 0⟩
  else roundP φ (φ.Kz a * φ.Kz b) (φ.KD * φ.KD)

/-- IEEE division: round the exact quotient `Km a.mag / Km b.mag` with the
XOR-ed sign.  (The source only divides by nonzero values.) -/
def fdiv (a b : Fp) : Fp :=
  if a.mag = 0 ∨ b.mag = 0 then ⟨xor a.sign b.sign, 0⟩
  else ⟨xor a.sign b.sign, φ.roundMagP (φ.Km a.mag) (φ.Km b.mag)⟩

/-- IEEE fused multiply-add: a single rounding of the exact
`a*b + c = (Kz a · Kz b + Kz c · 2^D)/2^(2D)`. -/
def fmulAdd (a b c : Fp) : Fp :=
  if φ.Kz a * φ.Kz b + φ.Kz c * (φ.KD : ℤ) = 0 then
    if a.mag = 0 ∨ b.mag = 0 then ⟨(xor a.sign b.sign) && c.sign, 0⟩ else ⟨false, 0⟩
  else roundP φ (φ.Kz a * φ.Kz b + φ.Kz c * (φ.KD : ℤ)) (φ.KD * φ.KD)

/-- `⌊val a⌋` as an integer (`Int.ediv` is floor division for a positive
divisor). -/
def ifloor (a : Fp) : ℤ := (φ.Kz a).ediv (φ.KD : ℤ)

/-- `⌈val a⌉` as an integer. -/
def iceil (a : Fp) : ℤ := -((-(φ.Kz a)).ediv (φ.KD : ℤ))

/-- Rust `f32::floor`/`f64::floor` (always exact; a zero result keeps the
sign bit, e.g. `(-0.0).floor() = -0.0`). -/
def ffloor (a : Fp) : Fp :=
  if φ.ifloor a = 0 then ⟨a.sign, 0⟩ else roundP φ (φ.ifloor a * (φ.KD : ℤ)) φ.KD

/-- Rust `f32::ceil`/`f64::ceil` (always exact; a zero result keeps the sign
bit, e.g. `(-0.5).ceil() = -0.0`). -/
def fceil (a : Fp) : Fp :=
  if φ.iceil a = 0 then ⟨a.sign, 0⟩ else roundP φ (φ.iceil a * (φ.KD : ℤ)) φ.KD

/-- Rust `min` on finite floats (argument order irrelevant here: it is only
applied to two absolute values, which coincide bitwise when equal). -/
def fminF (a b : Fp) : Fp := if φ.Kz b < φ.Kz a then b else a

/-- Rust `max` on finite floats. -/
def fmaxF (a b : Fp) : Fp := if φ.Kz a < φ.Kz b then b else a

/-- Rust `as $int_typ` cast of a float: truncate toward zero, saturating at 0
and at the maximum of the unsigned integer type. -/
def castU (a : Fp) : ℕ := min (φ.ifloor a).toNat (2 ^ φ.intw - 1)

/-- Rust `as $typ` cast of an unsigned integer: round to nearest even. -/
def castF (n : ℕ) : Fp := roundP φ (n : ℤ) 1

/-- Magnitude of the float `1.0` (exponent field = bias). -/
def oneMag : ℕ := φ.bias * φ.M

/-- Rust `signum` on a finite float: `±1.0` according to the sign bit
(`(-0.0).signum() = -1.0`). -/
def fsignum (a : Fp) : Fp := ⟨a.sign, φ.oneMag⟩

/-- The float literal `2.` (exponent field = bias + 1). -/
def lit2 : Fp := ⟨false, (φ.bias + 1) * φ.M⟩

/-- `$typ::MIN`, the most negative finite float. -/
def minFin : Fp := ⟨true, φ.maxFinMag⟩

/-- Magnitude of the larger-magnitude bound (the anchor of the lattice). -/
def mxMag (low high : Fp) : ℕ :=
  if φ.Km low.mag < φ.Km high.mag then high.mag else low.mag

/-- Magnitude of the smaller-magnitude bound. -/
def mnMag (low high : Fp) : ℕ :=
  if φ.Km high.mag < φ.Km low.mag then high.mag else low.mag

end FpFormat

open FpFormat

/-- `next_down` from the source: the previous float value; both zeros map to
the negated smallest positive subnormal; otherwise the bit pattern moves one
step (`to_bits + 1` for negative values, `to_bits - 1` for positive ones). -/
def next_down (φ : FpFormat) (a : Fp) : Fp :=
  if φ.Kz a = 0 then ⟨true, 1⟩
  else if φ.Kz a < 0 then ⟨true, a.mag + 1⟩
  else ⟨false, a.mag - 1⟩

/-- `ulp` from the source: `a.abs() - next_down(a.abs())` (John Harrison's
definition of unit in the last place). -/
def ulp (φ : FpFormat) (a : Fp) : Fp := φ.fsub (Fp.fabs a) (next_down φ (Fp.fabs a))

/-- `MAX_PRECISE_INT = 2^MANTISSA_DIGITS` from the source. -/
def MAX_PRECISE_INT (φ : FpFormat) : ℕ := 2 ^ φ.prec

/-- The `SampleValueCollection` struct of the source; `end` is a Lean keyword
so the field is called `end_`.  `count` is kept as an unrestricted natural;
the source stores it in `$int_typ`, which never wraps for valid inputs (the
bound `count - 1 ≤ 2 * MAX_PRECISE_INT` is proved below). -/
structure SampleValueCollection where
  start : Fp
  end_ : Fp
  step : Fp
  count : ℕ
deriving DecidableEq

namespace SampleValueCollection

/-- `SampleValueCollection::new_inclusive`.  The three `assert!`s become
`none` results (a panic aborts the construction).  Float comparisons are value
comparisons, i.e. comparisons of the signed `Kz` integers. -/
def new_inclusive (φ : FpFormat) (low high : Fp) : Option SampleValueCollection :=
  if ¬ φ.isFinite low then none
  else if ¬ φ.isFinite high then none
  else if ¬ 0 ≤ φ.Kz (φ.fsub high low) then none
  else
    let min_abs := φ.fminF (Fp.fabs low) (Fp.fabs high)
    let max_abs := φ.fmaxF (Fp.fabs low) (Fp.fabs high)
    let gap := ulp φ max_abs
    let sed :=
      if φ.Kz (Fp.fabs low) < φ.Kz (Fp.fabs high) then (high, low, Fp.fneg gap)
      else (low, high, gap)
    let min_gaps := φ.fdiv min_abs gap
    let max_gaps := φ.fdiv max_abs gap
    let count :=
      (if φ.fsignum low = φ.fsignum high then
        φ.castU max_gaps - φ.castU (φ.ffloor min_gaps)
      else
        φ.castU max_gaps + φ.castU (φ.fceil min_gaps)) + 1
    some ⟨sed.1, sed.2.1, sed.2.2, count⟩

/-- `SampleValueCollection::get`.  The bounds `assert!` becomes `none`. -/
def get (φ : FpFormat) (c : SampleValueCollection) (index : ℕ) : Option Fp :=
  if ¬ index < c.count then none
  else if index = c.count - 1 then some c.end_
  else
    some (φ.fmulAdd (φ.castF (index / 2)) (φ.fmul φ.lit2 c.step)
      (φ.fadd (φ.fmul (φ.castF (index % 2)) c.step) c.start))

end SampleValueCollection

/-- `FloatUniform` couples the value collection with a uniform integer
distribution over `[0, count)`; the distribution itself is external (the rand
crate), so only the index range it guarantees is modelled.
`rand::Uniform::new(0, count)` requires a nonempty range (`0 < count`). -/
structure FloatUniform where
  values : SampleValueCollection
deriving DecidableEq

namespace FloatUniform

/-- `FloatUniform::new` (the half-open constructor `construct`): the lattice
covers `[low, next_down(high)]`. -/
def new (φ : FpFormat) (low high : Fp) : Option FloatUniform :=
  match SampleValueCollection.new_inclusive φ low (next_down φ high) with
  | none => none
  | some values => if 0 < values.count then some ⟨values⟩ else none

/-- `FloatUniform::new_inclusive` (`construct_inclusive`). -/
def new_inclusive (φ : FpFormat) (low high : Fp) : Option FloatUniform :=
  match SampleValueCollection.new_inclusive φ low high with
  | none => none
  | some values => if 0 < values.count then some ⟨values⟩ else none

/-- `FloatUniform::sample` with the integer draw `i` supplied externally; the
uniform distribution guarantees `i < count`. -/
def sample (φ : FpFormat) (u : FloatUniform) (i : ℕ) : Option Fp :=
  u.values.get φ i

end FloatUniform

/-- Everything `new_inclusive` guarantees about the collection it builds, in
K units.  `mx`/`mn` are the magnitudes of the larger/smaller-magnitude bound,
`SK = spaceK (mx - 1)` is the lattice gap, `Mg = Km mx / SK` the integral
number of gaps to the anchor, `gm`/`tm`/`xm` the magnitudes of the computed
`gap`, `max_gaps` and `min_gaps` floats. -/
structure LatticeFacts (φ : FpFormat) (low high : Fp) where
  c : SampleValueCollection
  gm : ℕ
  tm : ℕ
  xm : ℕ
  hsome : SampleValueCollection.new_inclusive φ low high = some c
  hstart : c.start = if φ.Km low.mag < φ.Km high.mag then high else low
  hend : c.end_ = if φ.Km low.mag < φ.Km high.mag then low else high
  hstep : c.step = if φ.Km low.mag < φ.Km high.mag then ⟨true, gm⟩ else ⟨false, gm⟩
  hgm : φ.Km gm = φ.spaceK (φ.mxMag low high - 1)
  hgm1 : 1 ≤ gm
  hgmle : gm ≤ φ.maxFinMag
  htm : φ.Km tm = φ.Km (φ.mxMag low high) / φ.spaceK (φ.mxMag low high - 1) * φ.KD
  htmle : tm ≤ φ.maxFinMag
  hmaxdiv : φ.fdiv ⟨false, φ.mxMag low high⟩ ⟨false, gm⟩ = ⟨false, tm⟩
  hxm : xm = φ.roundMagP (φ.Km (φ.mnMag low high)) (φ.spaceK (φ.mxMag low high - 1))
  hmindiv : φ.fdiv ⟨false, φ.mnMag low high⟩ ⟨false, gm⟩ = ⟨false, xm⟩
  hxmle : xm ≤ φ.maxFinMag
  hxmMg : φ.Km xm ≤ φ.Km (φ.mxMag low high) / φ.spaceK (φ.mxMag low high - 1) * φ.KD
  hKmmx : φ.Km (φ.mxMag low high) =
    φ.Km (φ.mxMag low high) / φ.spaceK (φ.mxMag low high - 1) * φ.spaceK (φ.mxMag low high - 1)
  hMgle : φ.Km (φ.mxMag low high) / φ.spaceK (φ.mxMag low high - 1) ≤ 2 * φ.M
  hdichot : φ.Km xm * φ.spaceK (φ.mxMag low high - 1) = φ.Km (φ.mnMag low high) * φ.KD
    ∨ (φ.Km (φ.mnMag low high) * φ.KD ≤ φ.M * φ.spaceK (φ.mxMag low high - 1) ∧ xm ≤ φ.M)
  hcount : c.count = (if low.sign = high.sign
    then φ.Km (φ.mxMag low high) / φ.spaceK (φ.mxMag low high - 1) - φ.Km xm / φ.KD
    else φ.Km (φ.mxMag low high) / φ.spaceK (φ.mxMag low high - 1)
      + (φ.Km xm + φ.KD - 1) / φ.KD) + 1

/-- The f32 instantiation: `float_sampler!(f32, u32, F32U)`. -/
def fmt32 : FpFormat := ⟨23, 8⟩

/-- The f64 instantiation: `float_sampler!(f64, u64, F64U)`. -/
def fmt64 : FpFormat := ⟨52, 11⟩

/-- Order-normalize a pair of floats (sort by numeric value, stable; `Kz`
order coincides with value order). -/
def normPair (φ : FpFormat) (p : Fp × Fp) : Fp × Fp :=
  if φ.Kz p.1 ≤ φ.Kz p.2 then p else (p.2, p.1)

end FloatSamplers

/-! ## Basic arithmetic of the magnitude encoding -/

namespace FloatSamplers

namespace FpFormat

variable (φ : FpFormat)

theorem M_pos : 0 < φ.M := Nat.pos_pow_of_pos _ (by norm_num)

theorem Km_zero : φ.Km 0 = 0 := by
  simp [Km, Nat.zero_div, Nat.zero_mod]

theorem spaceK_pos (m : ℕ) : 0 < φ.spaceK m := Nat.pos_pow_of_pos _ (by norm_num)

theorem ef_div (e f : ℕ) (hf : f < φ.M) : (e * φ.M + f) / φ.M = e := by
  rw [Nat.add_comm, Nat.add_mul_div_right _ _ φ.M_pos, Nat.div_eq_of_lt hf, Nat.zero_add]

theorem ef_mod (e f : ℕ) (hf : f < φ.M) : (e * φ.M + f) % φ.M = f := by
  rw [Nat.add_comm, Nat.add_mul_mod_self_right, Nat.mod_eq_of_lt hf]

theorem Km_ef (e f : ℕ) (hf : f < φ.M) :
    φ.Km (e * φ.M + f) = if e = 0 then f else (φ.M + f) * 2 ^ (e - 1) := by
  unfold Km
  rw [φ.ef_div e f hf, φ.ef_mod e f hf]

theorem spaceK_ef (e f : ℕ) (hf : f < φ.M) :
    φ.spaceK (e * φ.M + f) = 2 ^ (e - 1) := by
  unfold spaceK
  rw [φ.ef_div e f hf]

theorem Km_succ (m : ℕ) : φ.Km (m + 1) = φ.Km m + φ.spaceK m := by
  have hM : 0 < φ.M := φ.M_pos
  obtain ⟨e, f, hf, rfl⟩ : ∃ e f, f < φ.M ∧ e * φ.M + f = m :=
    ⟨m / φ.M, m % φ.M, Nat.mod_lt _ hM, by rw [Nat.mul_comm]; exact Nat.div_add_mod m φ.M⟩
  rw [φ.Km_ef e f hf, φ.spaceK_ef e f hf]
  rcases Nat.lt_or_ge (f + 1) φ.M with hf1 | hf1
  · have h1 : e * φ.M + f + 1 = e * φ.M + (f + 1) := by omega
    rw [h1, φ.Km_ef e (f + 1) hf1]
    rcases Nat.eq_zero_or_pos e with he | he
    · simp [he]
    · have hne : ¬ e = 0 := by omega
      simp only [hne, if_false]
      ring
  · have hfe : f + 1 = φ.M := by omega
    have h1 : e * φ.M + f + 1 = (e + 1) * φ.M + 0 := by
      rw [Nat.add_mul, Nat.one_mul]
      omega
    rw [h1, φ.Km_ef (e + 1) 0 hM]
    have hne : ¬ e + 1 = 0 := by omega
    simp only [hne, if_false, Nat.add_sub_cancel, Nat.add_zero]
    rcases Nat.eq_zero_or_pos e with he | he
    · subst he
      simp only [if_true, eq_self_iff_true, pow_zero, Nat.mul_one]
      simp only [Nat.zero_sub, pow_zero]
      omega
    · obtain ⟨k, rfl⟩ : ∃ k, e = k + 1 := ⟨e - 1, by omega⟩
      have hne2 : ¬ k + 1 = 0 := by omega
      simp only [hne2, if_false, Nat.add_sub_cancel]
      have h2 : φ.M + f + 1 = 2 * φ.M := by omega
      calc φ.M * 2 ^ (k + 1)
          = (φ.M + f + 1) * 2 ^ k := by rw [h2, pow_succ]; ring
        _ = (φ.M + f) * 2 ^ k + 2 ^ k := by ring

theorem Km_strictMono : StrictMono φ.Km :=
  strictMono_nat_of_lt_succ fun n => by
    rw [φ.Km_succ n]; exact Nat.lt_add_of_pos_right (φ.spaceK_pos n)

theorem Km_lt_Km_iff {a b : ℕ} : φ.Km a < φ.Km b ↔ a < b := (φ.Km_strictMono).lt_iff_lt

theorem Km_le_Km_iff {a b : ℕ} : φ.Km a ≤ φ.Km b ↔ a ≤ b := (φ.Km_strictMono).le_iff_le

theorem Km_eq_Km_iff {a b : ℕ} : φ.Km a = φ.Km b ↔ a = b := (φ.Km_strictMono).injective.eq_iff

theorem Km_eq_zero_iff {m : ℕ} : φ.Km m = 0 ↔ m = 0 := by
  constructor
  · intro h
    by_contra hne
    have h1 : 0 < m := Nat.pos_of_ne_zero hne
    have h2 := (φ.Km_lt_Km_iff).2 h1
    rw [φ.Km_zero] at h2
    omega
  · intro h; rw [h, φ.Km_zero]

theorem Km_of_lt_M {m : ℕ} (h : m < φ.M) : φ.Km m = m := by
  unfold Km
  rw [Nat.div_eq_of_lt h, Nat.mod_eq_of_lt h]
  simp

end FpFormat

end FloatSamplers

/-! ## The floor magnitude `magOfK` and integer rounding `roundMagP` -/

namespace FloatSamplers

namespace FpFormat

variable (φ : FpFormat)

theorem lgAux_spec :
    ∀ fuel n, 1 ≤ n → n ≤ fuel → 2 ^ lgAux fuel n ≤ n ∧ n < 2 ^ (lgAux fuel n + 1) := by
  intro fuel
  induction fuel with
  | zero => intro n h1 h2; omega
  | succ fuel ih =>
    intro n h1 h2
    by_cases h : n < 2
    · have hn : n = 1 := by omega
      simp [lgAux, h, hn]
    · have hrec := ih (n / 2) (by omega) (by omega)
      simp only [lgAux, if_neg h]
      constructor
      · calc 2 ^ (lgAux fuel (n / 2) + 1) = 2 ^ lgAux fuel (n / 2) * 2 := by rw [pow_succ]
          _ ≤ n / 2 * 2 := Nat.mul_le_mul_right _ hrec.1
          _ ≤ n := by omega
      · have h2' := hrec.2
        rw [pow_succ, pow_succ]
        omega

theorem log2f_spec (n : ℕ) (h : 1 ≤ n) : 2 ^ log2f n ≤ n ∧ n < 2 ^ (log2f n + 1) :=
  lgAux_spec n n h le_rfl

theorem log2f_unique (n L : ℕ) (h1 : 2 ^ L ≤ n) (h2 : n < 2 ^ (L + 1)) : log2f n = L := by
  have hn : 1 ≤ n := le_trans (Nat.pos_pow_of_pos _ (by norm_num)) h1
  have h := log2f_spec n hn
  by_contra hne
  rcases Nat.lt_or_ge (log2f n) L with hlt | hge
  · have hle : 2 ^ (log2f n + 1) ≤ 2 ^ L := Nat.pow_le_pow_right (by norm_num) (by omega)
    omega
  · have hgt : L < log2f n := by omega
    have hle : 2 ^ (L + 1) ≤ 2 ^ log2f n := Nat.pow_le_pow_right (by norm_num) (by omega)
    omega

theorem magOfK_sandwich (K : ℕ) : φ.Km (φ.magOfK K) ≤ K ∧ K < φ.Km (φ.magOfK K + 1) := by
  unfold magOfK
  by_cases h : K < φ.M
  · rw [if_pos h]
    refine ⟨le_of_eq (φ.Km_of_lt_M h), ?_⟩
    rw [φ.Km_succ, φ.Km_of_lt_M h]
    have := φ.spaceK_pos K
    omega
  · rw [if_neg h]
    have hM : 0 < φ.M := φ.M_pos
    have hK1 : 1 ≤ K := by omega
    obtain ⟨hlo, hhi⟩ := log2f_spec K hK1
    set E := log2f K with hE
    have hmb : φ.mbits ≤ E := by
      by_contra hc
      have h2 : E + 1 ≤ φ.mbits := by omega
      have h3 : 2 ^ (E + 1) ≤ 2 ^ φ.mbits := Nat.pow_le_pow_right (by norm_num) h2
      have hMK : φ.M ≤ K := by omega
      unfold M at hMK
      omega
    set s := E - φ.mbits with hs
    have hEs : E = φ.mbits + s := by omega
    have hsp : 0 < 2 ^ s := Nat.pos_pow_of_pos _ (by norm_num)
    have hq1 : φ.M ≤ K / 2 ^ s := by
      rw [Nat.le_div_iff_mul_le hsp]
      calc φ.M * 2 ^ s = 2 ^ E := by rw [hEs]; unfold M; rw [pow_add]
        _ ≤ K := hlo
    have hq2 : K / 2 ^ s < 2 * φ.M := by
      rw [Nat.div_lt_iff_lt_mul hsp]
      calc K < 2 ^ (E + 1) := hhi
        _ = 2 * φ.M * 2 ^ s := by
            rw [hEs]; unfold M; rw [pow_succ, pow_add]; ring
    have hflt : K / 2 ^ s - φ.M < φ.M := by omega
    have hadd : φ.M + (K / 2 ^ s - φ.M) = K / 2 ^ s := by omega
    have hKm : φ.Km ((s + 1) * φ.M + (K / 2 ^ s - φ.M)) = K / 2 ^ s * 2 ^ s := by
      rw [φ.Km_ef _ _ hflt]
      have hne : ¬ s + 1 = 0 := by omega
      rw [if_neg hne]
      rw [Nat.add_sub_cancel, hadd]
    have hspK : φ.spaceK ((s + 1) * φ.M + (K / 2 ^ s - φ.M)) = 2 ^ s := by
      rw [φ.spaceK_ef _ _ hflt, Nat.add_sub_cancel]
    constructor
    · rw [hKm]
      exact Nat.div_mul_le_self K (2 ^ s)
    · rw [φ.Km_succ, hKm, hspK]
      have hdm := Nat.div_add_mod K (2 ^ s)
      have hmlt : K % 2 ^ s < 2 ^ s := Nat.mod_lt _ hsp
      have hcomm : 2 ^ s * (K / 2 ^ s) = K / 2 ^ s * 2 ^ s := Nat.mul_comm _ _
      omega

theorem Km_magOfK_le (K : ℕ) : φ.Km (φ.magOfK K) ≤ K := (φ.magOfK_sandwich K).1

theorem lt_Km_magOfK_succ (K : ℕ) : K < φ.Km (φ.magOfK K + 1) := (φ.magOfK_sandwich K).2

theorem magOfK_interval {K m : ℕ} (h1 : φ.Km m ≤ K) (h2 : K < φ.Km (m + 1)) :
    φ.magOfK K = m := by
  have s1 := φ.Km_magOfK_le K
  have s2 := φ.lt_Km_magOfK_succ K
  have a1 : φ.magOfK K < m + 1 := by
    rw [← φ.Km_lt_Km_iff]
    omega
  have a2 : m < φ.magOfK K + 1 := by
    rw [← φ.Km_lt_Km_iff]
    omega
  omega

theorem magOfK_Km (m : ℕ) : φ.magOfK (φ.Km m) = m :=
  φ.magOfK_interval le_rfl
    (by rw [φ.Km_succ]; exact Nat.lt_add_of_pos_right (φ.spaceK_pos m))

theorem magOfK_mono {K K' : ℕ} (h : K ≤ K') : φ.magOfK K ≤ φ.magOfK K' := by
  have s1 := φ.Km_magOfK_le K
  have s2 := φ.lt_Km_magOfK_succ K'
  have h3 : φ.Km (φ.magOfK K) < φ.Km (φ.magOfK K' + 1) := by omega
  rw [φ.Km_lt_Km_iff] at h3
  omega

theorem KD_pos : 0 < φ.KD := Nat.pos_pow_of_pos _ (by norm_num)

theorem roundMagP_le_inf (n d : ℕ) : φ.roundMagP n d ≤ φ.infMag := by
  unfold roundMagP
  exact Nat.min_le_right _ _

theorem roundMagP_exact {n d m : ℕ} (hd : 0 < d) (h : n * φ.KD = φ.Km m * d)
    (hm : m ≤ φ.infMag) : φ.roundMagP n d = m := by
  have hq : n * φ.KD / d = φ.Km m := by rw [h, Nat.mul_div_cancel _ hd]
  have hlt : 2 * (n * φ.KD) < (φ.Km (φ.magOfK (n * φ.KD / d)) +
      φ.Km (φ.magOfK (n * φ.KD / d) + 1)) * d := by
    rw [hq, φ.magOfK_Km]
    have h2 : φ.Km m < φ.Km (m + 1) := (φ.Km_lt_Km_iff).2 (by omega)
    calc 2 * (n * φ.KD) = (φ.Km m + φ.Km m) * d := by rw [h]; ring
      _ < (φ.Km m + φ.Km (m + 1)) * d := by
          exact (Nat.mul_lt_mul_right hd).2 (by omega)
  unfold roundMagP
  simp only [if_pos hlt]
  rw [hq, φ.magOfK_Km]
  exact Nat.min_eq_left hm

theorem roundMagP_le_exact {n d m : ℕ} (hd : 0 < d) (h : n * φ.KD ≤ φ.Km m * d) :
    φ.roundMagP n d ≤ m := by
  rcases le_or_lt φ.infMag m with hm | hm
  · exact le_trans (φ.roundMagP_le_inf n d) hm
  rcases Nat.eq_or_lt_of_le h with heq | hlt
  · rw [φ.roundMagP_exact hd heq (by omega)]
  · have hdiv : n * φ.KD / d < φ.Km m := by
      rw [Nat.div_lt_iff_lt_mul hd]
      exact hlt
    have hm0 : φ.magOfK (n * φ.KD / d) < m := by
      have s1 := φ.Km_magOfK_le (n * φ.KD / d)
      rw [← φ.Km_lt_Km_iff]
      omega
    unfold roundMagP
    have hr : (if 2 * (n * φ.KD) < (φ.Km (φ.magOfK (n * φ.KD / d)) +
        φ.Km (φ.magOfK (n * φ.KD / d) + 1)) * d then φ.magOfK (n * φ.KD / d)
        else if (φ.Km (φ.magOfK (n * φ.KD / d)) +
        φ.Km (φ.magOfK (n * φ.KD / d) + 1)) * d < 2 * (n * φ.KD) then
        φ.magOfK (n * φ.KD / d) + 1
        else if φ.magOfK (n * φ.KD / d) % 2 = 0 then φ.magOfK (n * φ.KD / d)
        else φ.magOfK (n * φ.KD / d) + 1) ≤ m := by
      split
      · omega
      · split
        · omega
        · split
          · omega
          · omega
    exact le_trans (Nat.min_le_left _ _) hr

theorem le_roundMagP_exact {n d m : ℕ} (hd : 0 < d) (h : φ.Km m * d ≤ n * φ.KD)
    (hm : m ≤ φ.infMag) : m ≤ φ.roundMagP n d := by
  have hdiv : φ.Km m ≤ n * φ.KD / d := by
    rw [Nat.le_div_iff_mul_le hd]
    exact h
  have hm0 : m ≤ φ.magOfK (n * φ.KD / d) := by
    calc m = φ.magOfK (φ.Km m) := (φ.magOfK_Km m).symm
      _ ≤ φ.magOfK (n * φ.KD / d) := φ.magOfK_mono hdiv
  unfold roundMagP
  have hr : m ≤ (if 2 * (n * φ.KD) < (φ.Km (φ.magOfK (n * φ.KD / d)) +
      φ.Km (φ.magOfK (n * φ.KD / d) + 1)) * d then φ.magOfK (n * φ.KD / d)
      else if (φ.Km (φ.magOfK (n * φ.KD / d)) +
      φ.Km (φ.magOfK (n * φ.KD / d) + 1)) * d < 2 * (n * φ.KD) then
      φ.magOfK (n * φ.KD / d) + 1
      else if φ.magOfK (n * φ.KD / d) % 2 = 0 then φ.magOfK (n * φ.KD / d)
      else φ.magOfK (n * φ.KD / d) + 1) := by
    split
    · omega
    · split
      · omega
      · split
        · omega
        · omega
  exact le_min hr hm

end FpFormat

end FloatSamplers

/-! ## Rounding of values near a representable point (half-ulp arguments) -/

namespace FloatSamplers

namespace FpFormat

variable (φ : FpFormat)

theorem Km_one (hM : 2 ≤ φ.M) : φ.Km 1 = 1 := φ.Km_of_lt_M (by omega)

theorem roundMagP_eq_of_lt_half_up {n d g : ℕ} (hd : 0 < d) (hg : g ≤ φ.infMag)
    (hlo : φ.Km g * d ≤ n * φ.KD)
    (hhi : 2 * (n * φ.KD) < (2 * φ.Km g + φ.spaceK g) * d) :
    φ.roundMagP n d = g := by
  have hKm1 : φ.Km (g + 1) = φ.Km g + φ.spaceK g := φ.Km_succ g
  have hhi2 : 2 * (n * φ.KD) < 2 * (φ.Km g * d) + φ.spaceK g * d := by
    calc 2 * (n * φ.KD) < (2 * φ.Km g + φ.spaceK g) * d := hhi
      _ = 2 * (φ.Km g * d) + φ.spaceK g * d := by ring
  have hup : n * φ.KD < φ.Km (g + 1) * d := by
    rw [hKm1]
    have hs : 0 < φ.spaceK g * d := Nat.mul_pos (φ.spaceK_pos g) hd
    have hexp : (φ.Km g + φ.spaceK g) * d = φ.Km g * d + φ.spaceK g * d := by ring
    omega
  have hdiv1 : φ.Km g ≤ n * φ.KD / d := by
    rw [Nat.le_div_iff_mul_le hd]; exact hlo
  have hdiv2 : n * φ.KD / d < φ.Km (g + 1) := by
    rw [Nat.div_lt_iff_lt_mul hd]; exact hup
  have hm0 : φ.magOfK (n * φ.KD / d) = g :=
    φ.magOfK_interval ((Nat.le_div_iff_mul_le hd).2 hlo) ((Nat.div_lt_iff_lt_mul hd).2 hup)
  have hlt : 2 * (n * φ.KD) < (φ.Km (φ.magOfK (n * φ.KD / d)) +
      φ.Km (φ.magOfK (n * φ.KD / d) + 1)) * d := by
    rw [hm0, hKm1]
    calc 2 * (n * φ.KD) < (2 * φ.Km g + φ.spaceK g) * d := hhi
      _ = (φ.Km g + (φ.Km g + φ.spaceK g)) * d := by ring
  unfold roundMagP
  simp only [if_pos hlt]
  rw [hm0]
  exact Nat.min_eq_left hg

theorem roundMagP_eq_of_gt_half_down {n d g : ℕ} (hd : 0 < d) (hg : g ≤ φ.infMag)
    (hg1 : 1 ≤ g)
    (hlo : (φ.Km (g - 1) + φ.Km g) * d < 2 * (n * φ.KD))
    (hhi : n * φ.KD ≤ φ.Km g * d) :
    φ.roundMagP n d = g := by
  rcases Nat.eq_or_lt_of_le hhi with heq | hlt
  · exact φ.roundMagP_exact hd heq hg
  · have hmono : φ.Km (g - 1) ≤ φ.Km g := (φ.Km_le_Km_iff).2 (by omega)
    have hlow : φ.Km (g - 1) * d < n * φ.KD := by
      have hexp : (φ.Km (g - 1) + φ.Km g) * d = φ.Km (g - 1) * d + φ.Km g * d := by ring
      have hmond : φ.Km (g - 1) * d ≤ φ.Km g * d := Nat.mul_le_mul_right _ hmono
      omega
    have hsucc : g - 1 + 1 = g := by omega
    have hm0 : φ.magOfK (n * φ.KD / d) = g - 1 := by
      apply φ.magOfK_interval
      · rw [Nat.le_div_iff_mul_le hd]; omega
      · rw [Nat.div_lt_iff_lt_mul hd, hsucc]; exact hlt
    have hrhs : (φ.Km (φ.magOfK (n * φ.KD / d)) +
        φ.Km (φ.magOfK (n * φ.KD / d) + 1)) * d < 2 * (n * φ.KD) := by
      rw [hm0, hsucc]; exact hlo
    simp only [roundMagP]
    rw [if_neg (by omega), if_pos hrhs, hm0, hsucc]
    exact Nat.min_eq_left hg

theorem roundMagP_zero {n d : ℕ} (hM : 2 ≤ φ.M) (hd : 0 < d) (h : 2 * (n * φ.KD) ≤ d) :
    φ.roundMagP n d = 0 := by
  have hup : n * φ.KD < φ.Km 1 * d := by
    rw [φ.Km_one hM]
    omega
  have hm0 : φ.magOfK (n * φ.KD / d) = 0 := by
    apply φ.magOfK_interval
    · rw [φ.Km_zero]
      exact Nat.zero_le _
    · rw [Nat.div_lt_iff_lt_mul hd]
      simpa using hup
  have hrhs : (φ.Km (φ.magOfK (n * φ.KD / d)) +
      φ.Km (φ.magOfK (n * φ.KD / d) + 1)) * d = d := by
    rw [hm0, φ.Km_zero, φ.Km_one hM]
    ring
  simp only [roundMagP]
  rw [hrhs]
  rcases Nat.lt_or_ge (2 * (n * φ.KD)) d with hc | hc
  · rw [if_pos hc, hm0]
    simp
  · have heq : 2 * (n * φ.KD) = d := by omega
    rw [if_neg (by omega), if_neg (by omega), hm0]
    simp

theorem one_le_roundMagP {n d : ℕ} (hM : 2 ≤ φ.M) (hinf : 1 ≤ φ.infMag)
    (h : d < 2 * (n * φ.KD)) : 1 ≤ φ.roundMagP n d := by
  unfold roundMagP
  refine le_min ?_ hinf
  rcases Nat.eq_zero_or_pos (φ.magOfK (n * φ.KD / d)) with hm0 | hm0
  · rw [hm0, φ.Km_zero, φ.Km_one hM]
    have hrhs : (0 + 1) * d = d := by ring
    rw [hrhs]
    rw [if_neg (by omega), if_pos (by omega)]
  · split
    · omega
    · split
      · omega
      · split
        · omega
        · omega

end FpFormat

end FloatSamplers

/-! ## Representable values: factorization and construction of magnitudes -/

namespace FloatSamplers

namespace FpFormat

variable (φ : FpFormat)

theorem div_le_div_of_le (c : ℕ) {a b : ℕ} (h : a ≤ b) : a / c ≤ b / c :=
  Nat.div_le_div_right h

theorem spaceK_mono {m m' : ℕ} (h : m ≤ m') : φ.spaceK m ≤ φ.spaceK m' :=
  Nat.pow_le_pow_right (by norm_num) (by
    have := div_le_div_of_le φ.M h
    omega)

theorem spaceK_dvd {m m' : ℕ} (h : m ≤ m') : φ.spaceK m ∣ φ.spaceK m' :=
  pow_dvd_pow 2 (by
    have := div_le_div_of_le φ.M h
    omega)

/-- Every nonzero magnitude's `Km` is a mantissa (between 1 and `2M`) times
the spacing just below it. -/
theorem Km_factor {m : ℕ} (hm : 1 ≤ m) :
    ∃ Mg, 1 ≤ Mg ∧ Mg ≤ 2 * φ.M ∧ φ.Km m = Mg * φ.spaceK (m - 1) := by
  have hM : 0 < φ.M := φ.M_pos
  obtain ⟨e, f, hf, rfl⟩ : ∃ e f, f < φ.M ∧ e * φ.M + f = m :=
    ⟨m / φ.M, m % φ.M, Nat.mod_lt _ hM, by rw [Nat.mul_comm]; exact Nat.div_add_mod m φ.M⟩
  rcases Nat.eq_zero_or_pos e with he | he
  · -- subnormal: spacing 1, mantissa is the field itself
    subst he
    refine ⟨f, by omega, by omega, ?_⟩
    rw [φ.Km_ef 0 f hf]
    have hm1 : 0 * φ.M + f - 1 = 0 * φ.M + (f - 1) := by omega
    rw [hm1, φ.spaceK_ef 0 (f - 1) (by omega)]
    simp
  · rcases Nat.eq_zero_or_pos f with hf0 | hf0
    · -- power-of-two boundary: the spacing below is half the spacing above
      subst hf0
      have hm1 : e * φ.M + 0 - 1 = (e - 1) * φ.M + (φ.M - 1) := by
        have : e = (e - 1) + 1 := by omega
        rw [Nat.add_zero]
        conv_lhs => rw [this]
        rw [Nat.succ_mul]
        omega
      rw [φ.Km_ef e 0 hM, if_neg (by omega), hm1,
        φ.spaceK_ef (e - 1) (φ.M - 1) (by omega)]
      rcases Nat.eq_or_lt_of_le he with he1 | he2
      · -- e = 1: subnormal spacing below M
        refine ⟨φ.M, hM, by omega, ?_⟩
        rw [← he1]
        simp
      · -- e ≥ 2
        refine ⟨2 * φ.M, by omega, le_rfl, ?_⟩
        have hexp : e - 1 = (e - 1 - 1) + 1 := by omega
        conv_lhs => rw [hexp, pow_succ]
        ring
    · -- f ≥ 1 inside a binade
      refine ⟨φ.M + f, by omega, by omega, ?_⟩
      rw [φ.Km_ef e f hf, if_neg (by omega)]
      have hm1 : e * φ.M + f - 1 = e * φ.M + (f - 1) := by omega
      rw [hm1, φ.spaceK_ef e (f - 1) (by omega)]

/-- Any value `k · 2^s` with a mantissa of at most `prec` bits and within the
finite range is the `Km` of some finite magnitude. -/
theorem exists_mag_of_K {k s : ℕ} (hk : k ≤ 2 * φ.M)
    (hbound : k * 2 ^ s ≤ φ.Km φ.maxFinMag) :
    ∃ m, m ≤ φ.maxFinMag ∧ φ.Km m = k * 2 ^ s := by
  have hM : 0 < φ.M := φ.M_pos
  rcases Nat.eq_zero_or_pos k with hk0 | hk0
  · exact ⟨0, Nat.zero_le _, by rw [φ.Km_zero, hk0, Nat.zero_mul]⟩
  obtain ⟨k', s', hks, hk'1, hk'lt⟩ :
      ∃ k' s', k' * 2 ^ s' = k * 2 ^ s ∧ 1 ≤ k' ∧ k' < 2 * φ.M := by
    rcases Nat.lt_or_ge k (2 * φ.M) with h | h
    · exact ⟨k, s, rfl, hk0, h⟩
    · have hkeq : k = 2 * φ.M := by omega
      refine ⟨φ.M, s + 1, ?_, hM, by omega⟩
      rw [hkeq, pow_succ]
      ring
  rw [← hks] at hbound
  suffices h : ∃ m, m ≤ φ.maxFinMag ∧ φ.Km m = k' * 2 ^ s' by
    obtain ⟨m, h1, h2⟩ := h
    exact ⟨m, h1, by rw [h2, hks]⟩
  rcases Nat.lt_or_ge (k' * 2 ^ s') φ.M with hKM | hKM
  · refine ⟨k' * 2 ^ s', ?_, φ.Km_of_lt_M hKM⟩
    rw [← φ.Km_le_Km_iff, φ.Km_of_lt_M hKM]
    exact hbound
  · obtain ⟨hLlo, hLhi⟩ := log2f_spec k' hk'1
    set L := log2f k' with hL
    have hLm : L ≤ φ.mbits := by
      by_contra hc
      have h2 : φ.mbits + 1 ≤ L := by omega
      have h3 : 2 ^ (φ.mbits + 1) ≤ 2 ^ L := Nat.pow_le_pow_right (by norm_num) h2
      have h4 : 2 * φ.M = 2 ^ (φ.mbits + 1) := by unfold M; rw [pow_succ]; ring
      omega
    have hLs : φ.mbits ≤ L + s' := by
      by_contra hc
      have h2 : L + s' + 1 ≤ φ.mbits := by omega
      have h3 : k' * 2 ^ s' < 2 ^ (L + 1) * 2 ^ s' :=
        (Nat.mul_lt_mul_right (Nat.pos_pow_of_pos _ (by norm_num))).2 hLhi
      have h4 : 2 ^ (L + 1) * 2 ^ s' = 2 ^ (L + 1 + s') := by rw [← pow_add]
      have h5 : 2 ^ (L + 1 + s') ≤ 2 ^ φ.mbits := Nat.pow_le_pow_right (by norm_num) (by omega)
      unfold M at hKM
      omega
    have hMle : φ.M ≤ k' * 2 ^ (φ.mbits - L) := by
      calc φ.M = 2 ^ L * 2 ^ (φ.mbits - L) := by
            rw [← pow_add]
            unfold M
            congr 1
            omega
        _ ≤ k' * 2 ^ (φ.mbits - L) := Nat.mul_le_mul_right _ hLlo
    have hMlt : k' * 2 ^ (φ.mbits - L) < 2 * φ.M := by
      calc k' * 2 ^ (φ.mbits - L) < 2 ^ (L + 1) * 2 ^ (φ.mbits - L) :=
            (Nat.mul_lt_mul_right (Nat.pos_pow_of_pos _ (by norm_num))).2 hLhi
        _ = 2 * φ.M := by
            rw [← pow_add]
            unfold M
            rw [← pow_succ']
            congr 1
            omega
    set e := L + s' + 1 - φ.mbits with hes
    set f := k' * 2 ^ (φ.mbits - L) - φ.M with hfs
    have hflt : f < φ.M := by omega
    have hKmv : φ.Km (e * φ.M + f) = k' * 2 ^ s' := by
      rw [φ.Km_ef e f hflt, if_neg (by omega)]
      have h1 : φ.M + f = k' * 2 ^ (φ.mbits - L) := by omega
      rw [h1]
      have h2 : e - 1 = L + s' - φ.mbits := by omega
      have h3 : φ.mbits - L + (L + s' - φ.mbits) = s' := by omega
      rw [h2, Nat.mul_assoc, ← pow_add, h3]
    refine ⟨e * φ.M + f, ?_, hKmv⟩
    rw [← φ.Km_le_Km_iff, hKmv]
    exact hbound

theorem exists_mag_of_K2 (k s : ℕ) (hk : k ≤ 2 * φ.M)
    (hbound : k * 2 ^ s ≤ φ.Km φ.maxFinMag) :
    ∃ m, m ≤ φ.maxFinMag ∧ φ.Km m = k * 2 ^ s :=
  φ.exists_mag_of_K hk hbound

end FpFormat

end FloatSamplers

/-! ## Consequences of format validity -/

namespace FloatSamplers

namespace FpFormat

variable (φ : FpFormat)

theorem valid_two_le_M (hv : φ.Valid) : 2 ≤ φ.M := by
  have h1 : 1 ≤ φ.mbits := hv.1
  have h2 : (2 : ℕ) ^ 1 ≤ 2 ^ φ.mbits := Nat.pow_le_pow_right (by norm_num) h1
  unfold M
  omega

theorem valid_bias (hv : φ.Valid) : φ.mbits + 3 ≤ φ.bias := hv.2.2

theorem valid_emaxf_eq (hv : φ.Valid) : φ.emaxf = 2 * φ.bias + 1 := by
  have h3 : 3 ≤ φ.ebits := hv.2.1
  unfold emaxf bias
  have h1 : φ.ebits = (φ.ebits - 1) + 1 := by omega
  have h2 : (2 : ℕ) ^ φ.ebits = 2 * 2 ^ (φ.ebits - 1) := by
    conv_lhs => rw [h1, pow_succ]
    ring
  have h4 : (1 : ℕ) ≤ 2 ^ (φ.ebits - 1) := Nat.pos_pow_of_pos _ (by norm_num)
  omega

theorem valid_emaxf_ge (hv : φ.Valid) : 7 ≤ φ.emaxf := by
  have h1 := φ.valid_emaxf_eq hv
  have h2 := φ.valid_bias hv
  have h3 := hv.1
  omega

theorem valid_D_ge (hv : φ.Valid) : 2 * φ.mbits + 2 ≤ φ.D := by
  have h1 := φ.valid_bias hv
  unfold D
  omega

theorem valid_mbits_lt_D (hv : φ.Valid) : φ.mbits < φ.D := by
  have := φ.valid_D_ge hv
  omega

theorem valid_infMag_eq (hv : φ.Valid) : φ.infMag = φ.maxFinMag + 1 := by
  have h1 := φ.valid_emaxf_ge hv
  have h2 := φ.M_pos
  unfold infMag maxFinMag
  have h3 : 1 ≤ φ.emaxf * φ.M := Nat.mul_pos (by omega) h2
  omega

theorem maxFinMag_le_infMag : φ.maxFinMag ≤ φ.infMag := by
  unfold maxFinMag infMag
  omega

/-- The largest finite magnitude decomposed into exponent/mantissa fields. -/
theorem maxFinMag_ef (hv : φ.Valid) :
    φ.maxFinMag = (φ.emaxf - 1) * φ.M + (φ.M - 1) := by
  have h1 := φ.valid_emaxf_ge hv
  have h2 := φ.M_pos
  unfold maxFinMag
  have h3 : φ.emaxf * φ.M = (φ.emaxf - 1) * φ.M + φ.M := by
    have h4 : φ.emaxf = (φ.emaxf - 1) + 1 := by omega
    conv_lhs => rw [h4, Nat.succ_mul]
  omega

theorem Km_maxFinMag (hv : φ.Valid) :
    φ.Km φ.maxFinMag = (2 * φ.M - 1) * 2 ^ (φ.emaxf - 2) := by
  have h1 := φ.valid_emaxf_ge hv
  have h2 := φ.M_pos
  rw [φ.maxFinMag_ef hv, φ.Km_ef _ _ (by omega), if_neg (by omega)]
  have h3 : φ.M + (φ.M - 1) = 2 * φ.M - 1 := by omega
  have h4 : φ.emaxf - 1 - 1 = φ.emaxf - 2 := by omega
  rw [h3, h4]

theorem valid_KD_le_KmMax (hv : φ.Valid) : 2 * φ.M * φ.KD ≤ φ.Km φ.maxFinMag := by
  have h1 := φ.valid_emaxf_ge hv
  have h2 := φ.valid_two_le_M hv
  have h3 := φ.valid_bias hv
  rw [φ.Km_maxFinMag hv]
  have h4 : 2 * φ.M * φ.KD = 2 ^ (φ.mbits + 1 + φ.D) := by
    unfold M KD
    rw [pow_add, pow_add]
    ring
  have h5 : φ.mbits + 1 + φ.D ≤ φ.mbits + (φ.emaxf - 2) := by
    rw [φ.valid_emaxf_eq hv]
    unfold D
    omega
  calc 2 * φ.M * φ.KD = 2 ^ (φ.mbits + 1 + φ.D) := h4
    _ ≤ 2 ^ (φ.mbits + (φ.emaxf - 2)) := Nat.pow_le_pow_right (by norm_num) h5
    _ = φ.M * 2 ^ (φ.emaxf - 2) := by rw [pow_add]; rfl
    _ ≤ (2 * φ.M - 1) * 2 ^ (φ.emaxf - 2) := Nat.mul_le_mul_right _ (by omega)

theorem spaceK_le_of_finite (hv : φ.Valid) {m : ℕ} (hm : m ≤ φ.maxFinMag) :
    φ.spaceK m ≤ 2 ^ (φ.emaxf - 2) := by
  have h2 := φ.M_pos
  have h0 : 1 ≤ φ.emaxf * φ.M := Nat.mul_pos (by have := φ.valid_emaxf_ge hv; omega) h2
  have h1 : m < φ.emaxf * φ.M := by
    unfold maxFinMag at hm
    omega
  have h3 : m / φ.M < φ.emaxf := by
    rw [Nat.div_lt_iff_lt_mul h2]
    calc m < φ.emaxf * φ.M := h1
      _ = φ.emaxf * φ.M := rfl
  unfold spaceK
  exact Nat.pow_le_pow_right (by norm_num) (by omega)

theorem two_spaceK_le_KmMax (hv : φ.Valid) {m : ℕ} (hm : m ≤ φ.maxFinMag) :
    2 * φ.spaceK m ≤ φ.Km φ.maxFinMag := by
  have h1 := φ.spaceK_le_of_finite hv hm
  have h2 := φ.valid_two_le_M hv
  rw [φ.Km_maxFinMag hv]
  calc 2 * φ.spaceK m ≤ 2 * 2 ^ (φ.emaxf - 2) := by omega
    _ ≤ (2 * φ.M - 1) * 2 ^ (φ.emaxf - 2) := Nat.mul_le_mul_right _ (by omega)

theorem two_spaceK_le_KmMax2 (hv : φ.Valid) (m : ℕ) (hm : m ≤ φ.maxFinMag) :
    2 * φ.spaceK m ≤ φ.Km φ.maxFinMag :=
  φ.two_spaceK_le_KmMax hv hm

theorem Km_M_self : φ.Km φ.M = φ.M := by
  have h := φ.M_pos
  have h1 : φ.M = 1 * φ.M + 0 := by omega
  conv_lhs => rw [h1]
  rw [φ.Km_ef 1 0 h, if_neg (by omega)]
  simp

theorem efM_le_maxFin (hv : φ.Valid) {e f : ℕ} (he : e ≤ φ.emaxf - 1) (hf : f < φ.M) :
    e * φ.M + f ≤ φ.maxFinMag := by
  rw [φ.maxFinMag_ef hv]
  have h1 : e * φ.M ≤ (φ.emaxf - 1) * φ.M := Nat.mul_le_mul_right _ he
  omega

theorem Km_oneMag (hv : φ.Valid) : φ.Km φ.oneMag = φ.KD := by
  have hb := φ.valid_bias hv
  unfold oneMag
  have h1 : φ.bias * φ.M = φ.bias * φ.M + 0 := by omega
  conv_lhs => rw [h1]
  rw [φ.Km_ef _ _ φ.M_pos, if_neg (by omega)]
  unfold KD M D
  rw [Nat.add_zero, ← pow_add]
  congr 1
  omega

theorem oneMag_le_maxFin (hv : φ.Valid) : φ.oneMag ≤ φ.maxFinMag := by
  have hb := φ.valid_bias hv
  have he := φ.valid_emaxf_eq hv
  unfold oneMag
  have h1 : φ.bias * φ.M = φ.bias * φ.M + 0 := by omega
  rw [h1]
  exact φ.efM_le_maxFin hv (by omega) φ.M_pos

theorem Km_lit2Mag (hv : φ.Valid) : φ.Km ((φ.bias + 1) * φ.M) = 2 * φ.KD := by
  have hb := φ.valid_bias hv
  have h1 : (φ.bias + 1) * φ.M = (φ.bias + 1) * φ.M + 0 := by omega
  conv_lhs => rw [h1]
  rw [φ.Km_ef _ _ φ.M_pos, if_neg (by omega)]
  unfold KD M D
  rw [Nat.add_zero, ← pow_succ', ← pow_add]
  congr 1
  omega

theorem lit2Mag_le_maxFin (hv : φ.Valid) : (φ.bias + 1) * φ.M ≤ φ.maxFinMag := by
  have hb := φ.valid_bias hv
  have he := φ.valid_emaxf_eq hv
  have h1 : (φ.bias + 1) * φ.M = (φ.bias + 1) * φ.M + 0 := by omega
  rw [h1]
  exact φ.efM_le_maxFin hv (by omega) φ.M_pos

theorem M_le_maxFin (hv : φ.Valid) : φ.M ≤ φ.maxFinMag := by
  have he := φ.valid_emaxf_ge hv
  have h1 : φ.M = 1 * φ.M + 0 := by omega
  rw [h1]
  exact φ.efM_le_maxFin hv (by omega) φ.M_pos

theorem valid_M_lt_KD (hv : φ.Valid) : φ.M < φ.KD := by
  have h1 := φ.valid_mbits_lt_D hv
  unfold M KD
  exact Nat.pow_lt_pow_right (by norm_num) h1

end FpFormat

end FloatSamplers

/-! ## Signed values, and exactness of the float operations -/

namespace FloatSamplers

namespace FpFormat

variable (φ : FpFormat)

theorem Kz_mk_false (m : ℕ) : φ.Kz ⟨false, m⟩ = (φ.Km m : ℤ) := rfl

theorem Kz_mk_true (m : ℕ) : φ.Kz ⟨true, m⟩ = -(φ.Km m : ℤ) := rfl

theorem Kz_fneg (a : Fp) : φ.Kz (Fp.fneg a) = -(φ.Kz a) := by
  unfold Kz Fp.fneg
  cases a.sign <;> simp

theorem Kz_fabs (a : Fp) : φ.Kz (Fp.fabs a) = (φ.Km a.mag : ℤ) := rfl

theorem Kz_eq_zero_iff (a : Fp) : φ.Kz a = 0 ↔ a.mag = 0 := by
  unfold Kz
  cases a.sign <;> simp [φ.Km_eq_zero_iff]

theorem Kz_natAbs (a : Fp) : (φ.Kz a).natAbs = φ.Km a.mag := by
  unfold Kz
  cases a.sign <;> simp

theorem Kz_nonneg_of_false {a : Fp} (h : a.sign = false) : 0 ≤ φ.Kz a := by
  unfold Kz
  rw [h]
  simp

/-- Two patterns with the same nonzero value are bit-identical. -/
theorem Fp_eq_of_Kz {a b : Fp} (h : φ.Kz a = φ.Kz b) (hne : φ.Kz a ≠ 0) : a = b := by
  have hm : φ.Km a.mag = φ.Km b.mag := by
    have h2 := congrArg Int.natAbs h
    rwa [φ.Kz_natAbs, φ.Kz_natAbs] at h2
  have hmag : a.mag = b.mag := (φ.Km_eq_Km_iff).1 hm
  have hKm0 : (0 : ℤ) < (φ.Km a.mag : ℤ) := by
    have h3 : φ.Km a.mag ≠ 0 := by
      intro h0
      apply hne
      unfold Kz
      cases a.sign <;> simp [h0]
    omega
  have hsign : a.sign = b.sign := by
    cases ha : a.sign <;> cases hb : b.sign
    · rfl
    · exfalso
      have h1 : φ.Kz a = (φ.Km a.mag : ℤ) := by unfold Kz; rw [ha]; simp
      have h2 : φ.Kz b = -(φ.Km b.mag : ℤ) := by unfold Kz; rw [hb]; simp
      rw [h1, h2, ← hmag] at h
      omega
    · exfalso
      have h1 : φ.Kz a = -(φ.Km a.mag : ℤ) := by unfold Kz; rw [ha]; simp
      have h2 : φ.Kz b = (φ.Km b.mag : ℤ) := by unfold Kz; rw [hb]; simp
      rw [h1, h2, ← hmag] at h
      omega
    · rfl
  cases a
  cases b
  simp_all

theorem roundP_neg_shape {z : ℤ} {d : ℕ} (hz : z < 0) :
    φ.roundP z d = ⟨true, φ.roundMagP (-z).toNat d⟩ := by
  unfold roundP
  rw [if_pos hz]

theorem roundP_nonneg_shape {z : ℤ} {d : ℕ} (hz : 0 ≤ z) :
    φ.roundP z d = ⟨false, φ.roundMagP z.toNat d⟩ := by
  unfold roundP
  rw [if_neg (by omega)]

/-- If the exact rational `(z / d) · 2^-D` is the value of the pattern `b`
(and `b` is not `-0`), rounding returns `b` bit-exactly. -/
theorem roundP_exact {z : ℤ} {d : ℕ} {b : Fp} (hd : 0 < d) (hfin : b.mag ≤ φ.infMag)
    (hb : b.mag = 0 → b.sign = false)
    (h : z * (φ.KD : ℤ) = φ.Kz b * d) :
    φ.roundP z d = b := by
  have hKD := φ.KD_pos
  obtain ⟨bs, bm⟩ := b
  cases bs
  · -- nonnegative target
    have hKz : φ.Kz ⟨false, bm⟩ = (φ.Km bm : ℤ) := φ.Kz_mk_false bm
    have hz : 0 ≤ z := by
      by_contra hneg
      push_neg at hneg
      have h1 : z * (φ.KD : ℤ) < 0 :=
        mul_neg_of_neg_of_pos hneg (by exact_mod_cast hKD)
      rw [h, hKz] at h1
      have h2 : (0 : ℤ) ≤ (φ.Km bm : ℤ) * d := by positivity
      omega
    rw [φ.roundP_nonneg_shape hz]
    have hnat : z.toNat * φ.KD = φ.Km bm * d := by
      have h1 : (z.toNat : ℤ) * (φ.KD : ℤ) = (φ.Km bm : ℤ) * (d : ℤ) := by
        rw [Int.toNat_of_nonneg hz, h, hKz]
      exact_mod_cast h1
    rw [φ.roundMagP_exact hd hnat hfin]
  · -- negative target
    have hm0 : bm ≠ 0 := by
      intro h0
      exact Bool.noConfusion (hb h0)
    have hKz : φ.Kz ⟨true, bm⟩ = -(φ.Km bm : ℤ) := φ.Kz_mk_true bm
    have hKmpos : 0 < φ.Km bm := by
      rcases Nat.eq_zero_or_pos (φ.Km bm) with h0 | h0
      · exact absurd ((φ.Km_eq_zero_iff).1 h0) hm0
      · exact h0
    have hz : z < 0 := by
      by_contra hpos
      push_neg at hpos
      have h1 : 0 ≤ z * (φ.KD : ℤ) := mul_nonneg hpos (by positivity)
      rw [h, hKz, neg_mul] at h1
      have h2 : (0 : ℤ) < (φ.Km bm : ℤ) * d := by
        apply mul_pos
        · exact_mod_cast hKmpos
        · exact_mod_cast hd
      omega
    rw [φ.roundP_neg_shape hz]
    have hnat : (-z).toNat * φ.KD = φ.Km bm * d := by
      have h1 : ((-z).toNat : ℤ) * (φ.KD : ℤ) = (φ.Km bm : ℤ) * (d : ℤ) := by
        rw [Int.toNat_of_nonneg (by omega : (0:ℤ) ≤ -z), neg_mul, h, hKz]
        ring
      exact_mod_cast h1
    rw [φ.roundMagP_exact hd hnat hfin]

theorem fsub_of_ne {a b : Fp} (h : φ.Kz a - φ.Kz b ≠ 0) :
    φ.fsub a b = φ.roundP (φ.Kz a - φ.Kz b) φ.KD := by
  unfold fsub fadd
  rw [φ.Kz_fneg]
  rw [if_neg (by omega)]
  rw [show φ.Kz a + -φ.Kz b = φ.Kz a - φ.Kz b by ring]

theorem fadd_of_ne {a b : Fp} (h : φ.Kz a + φ.Kz b ≠ 0) :
    φ.fadd a b = φ.roundP (φ.Kz a + φ.Kz b) φ.KD := by
  unfold fadd
  rw [if_neg h]

end FpFormat

end FloatSamplers

/-! ## `next_down`, `ulp`, and the range guard -/

namespace FloatSamplers

open FpFormat

section ProgramLemmas

variable (φ : FpFormat)

theorem infMag_pos (hv : φ.Valid) : 1 ≤ φ.infMag :=
  Nat.mul_pos (by have := φ.valid_emaxf_ge hv; omega) φ.M_pos

theorem next_down_of_zero {a : Fp} (h : a.mag = 0) : next_down φ a = ⟨true, 1⟩ := by
  unfold next_down
  rw [if_pos ((φ.Kz_eq_zero_iff a).2 h)]

theorem next_down_of_neg {a : Fp} (h : φ.Kz a < 0) : next_down φ a = ⟨true, a.mag + 1⟩ := by
  unfold next_down
  rw [if_neg (by omega), if_pos h]

theorem next_down_of_pos {a : Fp} (h : 0 < φ.Kz a) : next_down φ a = ⟨false, a.mag - 1⟩ := by
  unfold next_down
  rw [if_neg (by omega), if_neg (by omega)]

/-- `ulp` of a finite float is the positive power of two `spaceK (mag - 1)`
(in K units), the distance from `|a|` down to the previous representable
value; the subtraction in the source computes it exactly. -/
theorem ulp_spec (hv : φ.Valid) {a : Fp} (hfin : a.mag ≤ φ.maxFinMag) :
    ∃ gm, ulp φ a = ⟨false, gm⟩ ∧ φ.Km gm = φ.spaceK (a.mag - 1) ∧
      1 ≤ gm ∧ gm ≤ φ.maxFinMag := by
  have hM := φ.valid_two_le_M hv
  have hKD := φ.KD_pos
  have hMmax := φ.M_le_maxFin hv
  rcases Nat.eq_zero_or_pos a.mag with hm | hm
  · -- ulp at zero: 0 - (-minSub) = minSub
    have habs : (Fp.fabs a).mag = 0 := hm
    have hnd : next_down φ (Fp.fabs a) = ⟨true, 1⟩ := next_down_of_zero φ habs
    have hz : φ.Kz (Fp.fabs a) - φ.Kz ⟨true, 1⟩ = 1 := by
      rw [φ.Kz_fabs, φ.Kz_mk_true, hm, φ.Km_zero, φ.Km_one hM]
      ring
    have hsp : φ.spaceK (a.mag - 1) = 1 := by
      unfold spaceK
      rw [hm]
      simp
    refine ⟨1, ?_, by rw [φ.Km_one hM, hsp], le_rfl, by omega⟩
    unfold ulp
    rw [hnd, φ.fsub_of_ne (by rw [hz]; omega), hz]
    apply φ.roundP_exact φ.KD_pos
    · show (1 : ℕ) ≤ φ.infMag
      exact infMag_pos φ hv
    · intro h0
      rfl
    · rw [φ.Kz_mk_false, φ.Km_one hM]
      norm_num
  · -- ulp of a nonzero float
    have habs : 0 < φ.Kz (Fp.fabs a) := by
      rw [φ.Kz_fabs]
      have hne : φ.Km a.mag ≠ 0 := fun h0 => by
        have := (φ.Km_eq_zero_iff).1 h0
        omega
      omega
    have hnd : next_down φ (Fp.fabs a) = ⟨false, a.mag - 1⟩ := next_down_of_pos φ habs
    have hKmsucc : φ.Km a.mag = φ.Km (a.mag - 1) + φ.spaceK (a.mag - 1) := by
      have h1 : a.mag = (a.mag - 1) + 1 := by omega
      conv_lhs => rw [h1, φ.Km_succ]
    have hz : φ.Kz (Fp.fabs a) - φ.Kz ⟨false, a.mag - 1⟩ = (φ.spaceK (a.mag - 1) : ℤ) := by
      rw [φ.Kz_fabs, φ.Kz_mk_false, hKmsucc]
      push_cast
      ring
    obtain ⟨gm, hgmle, hgmKm⟩ : ∃ gm, gm ≤ φ.maxFinMag ∧ φ.Km gm = φ.spaceK (a.mag - 1) := by
      have hble : 1 * φ.spaceK (a.mag - 1) ≤ φ.Km φ.maxFinMag := by
        have := φ.two_spaceK_le_KmMax2 hv (a.mag - 1) (by omega)
        omega
      obtain ⟨gm, h1, h2⟩ := φ.exists_mag_of_K2 1 ((a.mag - 1) / φ.M - 1)
        (by omega) (by unfold spaceK at hble; omega)
      refine ⟨gm, h1, ?_⟩
      rw [h2]
      unfold spaceK
      omega
    have hgm1 : 1 ≤ gm := by
      by_contra hc
      have h0 : gm = 0 := by omega
      rw [h0, φ.Km_zero] at hgmKm
      have := φ.spaceK_pos (a.mag - 1)
      omega
    refine ⟨gm, ?_, hgmKm, hgm1, hgmle⟩
    unfold ulp
    rw [hnd, φ.fsub_of_ne (by rw [hz]; have := φ.spaceK_pos (a.mag - 1); omega), hz]
    apply φ.roundP_exact φ.KD_pos
    · exact le_trans hgmle φ.maxFinMag_le_infMag
    · intro h0
      rfl
    · rw [φ.Kz_mk_false, hgmKm]

/-- The source's range check `high - low >= 0.` passes exactly when
`low ≤ high` as values. -/
theorem ulp_spec2 (hv : φ.Valid) (a : Fp) (hfin : a.mag ≤ φ.maxFinMag) :
    ∃ gm, ulp φ a = ⟨false, gm⟩ ∧ φ.Km gm = φ.spaceK (a.mag - 1) ∧
      1 ≤ gm ∧ gm ≤ φ.maxFinMag :=
  ulp_spec φ hv hfin

theorem guard_iff (hv : φ.Valid) (low high : Fp) :
    (0 ≤ φ.Kz (φ.fsub high low)) ↔ φ.Kz low ≤ φ.Kz high := by
  have hM := φ.valid_two_le_M hv
  have hKD := φ.KD_pos
  set z := φ.Kz high - φ.Kz low with hzdef
  rcases eq_or_ne z 0 with hz | hz
  · have hres : φ.Kz (φ.fsub high low) = 0 := by
      unfold fsub fadd
      rw [φ.Kz_fneg, if_pos (by omega)]
      split
      · exact (φ.Kz_eq_zero_iff _).2 rfl
      · exact (φ.Kz_eq_zero_iff _).2 rfl
    rw [hres]
    constructor
    · intro _; omega
    · intro _; exact le_refl 0
  · rw [φ.fsub_of_ne (by omega)]
    rcases lt_or_gt_of_ne hz with hneg | hpos
    · rw [φ.roundP_neg_shape hneg, φ.Kz_mk_true]
      have hmag : 1 ≤ φ.roundMagP (-z).toNat φ.KD := by
        apply φ.one_le_roundMagP hM (infMag_pos φ hv)
        have h1 : 1 ≤ (-z).toNat := by omega
        have h2 : φ.KD ≤ (-z).toNat * φ.KD := Nat.le_mul_of_pos_left _ (by omega)
        omega
      have hKmpos : 1 ≤ φ.Km (φ.roundMagP (-z).toNat φ.KD) := by
        rcases Nat.eq_zero_or_pos (φ.Km (φ.roundMagP (-z).toNat φ.KD)) with h0 | h0
        · have := (φ.Km_eq_zero_iff).1 h0
          omega
        · exact h0
      constructor
      · intro hcon
        exfalso
        omega
      · intro hcon
        omega
    · rw [φ.roundP_nonneg_shape (by omega), φ.Kz_mk_false]
      constructor
      · intro _; omega
      · intro _; positivity

end ProgramLemmas

end FloatSamplers

/-! ## Floor, ceil and integer casts -/

namespace FloatSamplers

namespace FpFormat

variable (φ : FpFormat)

theorem twoM_le_cap (hv : φ.Valid) : 2 * φ.M ≤ 2 ^ φ.intw - 1 := by
  have h1 : 2 * φ.M = 2 ^ (φ.mbits + 1) := by
    unfold M
    rw [pow_succ]
    ring
  have h2 : φ.mbits + 1 < φ.intw := by
    have h4 := hv.2.1
    unfold intw
    omega
  have h3 : 2 ^ (φ.mbits + 1) < 2 ^ φ.intw := Nat.pow_lt_pow_right (by norm_num) h2
  omega

theorem ifloor_mk_false (m : ℕ) : φ.ifloor ⟨false, m⟩ = ((φ.Km m / φ.KD : ℕ) : ℤ) := by
  unfold ifloor
  rw [φ.Kz_mk_false]
  exact (Int.ofNat_ediv _ _).symm

theorem iceil_mk_false (m : ℕ) :
    φ.iceil ⟨false, m⟩ = (((φ.Km m + φ.KD - 1) / φ.KD : ℕ) : ℤ) := by
  have hKD := φ.KD_pos
  unfold iceil
  rw [φ.Kz_mk_false]
  set a := φ.Km m with ha
  set b := φ.KD with hb
  have hdm := Nat.div_add_mod (a + b - 1) b
  have hmod : (a + b - 1) % b < b := Nat.mod_lt _ hKD
  set c := (a + b - 1) / b with hc
  have hc1 : b * c ≤ a + b - 1 := by omega
  have hc2 : a ≤ b * c := by omega
  have h30 : ((b * c - a : ℕ) : ℤ) + (b : ℤ) * (-(c : ℤ)) = -(a : ℤ) := by
    push_cast [hc2]
    ring
  have h31 : (0 : ℤ) ≤ ((b * c - a : ℕ) : ℤ) := by positivity
  have h32 : ((b * c - a : ℕ) : ℤ) < (b : ℤ) := by
    have h3 : b * c - a < b := by omega
    exact_mod_cast h3
  have hpair : (-(a : ℤ)) / (b : ℤ) = -(c : ℤ) ∧
      (-(a : ℤ)) % (b : ℤ) = ((b * c - a : ℕ) : ℤ) :=
    (Int.ediv_emod_unique (by exact_mod_cast hKD)).2 ⟨h30, h31, h32⟩
  have heq : (-(a : ℤ)) / (b : ℤ) = -(c : ℤ) := hpair.1
  show -((-(a : ℤ)) / (b : ℤ)) = _
  rw [heq]
  simp

theorem castU_of_false (hv : φ.Valid) {m : ℕ} (hb : φ.Km m / φ.KD ≤ 2 * φ.M) :
    φ.castU ⟨false, m⟩ = φ.Km m / φ.KD := by
  unfold castU
  rw [φ.ifloor_mk_false]
  rw [Int.toNat_natCast]
  exact Nat.min_eq_left (le_trans hb (φ.twoM_le_cap hv))

theorem castU_ffloor (hv : φ.Valid) {m : ℕ} (hb : φ.Km m ≤ 2 * φ.M * φ.KD) :
    φ.castU (φ.ffloor ⟨false, m⟩) = φ.Km m / φ.KD := by
  have hKD := φ.KD_pos
  have hF : φ.Km m / φ.KD ≤ 2 * φ.M := by
    rw [Nat.div_le_iff_le_mul_add_pred hKD]
    have h1 : 2 * φ.M * φ.KD = φ.KD * (2 * φ.M) := by ring
    omega
  rcases Nat.eq_zero_or_pos (φ.Km m / φ.KD) with hF0 | hF0
  · unfold ffloor
    rw [if_pos (by rw [φ.ifloor_mk_false, hF0]; rfl)]
    have h0 : φ.castU ⟨false, 0⟩ = φ.Km 0 / φ.KD := φ.castU_of_false hv (by rw [φ.Km_zero]; simp)
    rw [h0, φ.Km_zero, hF0]
    simp
  · obtain ⟨mF, hmFle, hmFKm⟩ : ∃ mF, mF ≤ φ.maxFinMag ∧ φ.Km mF = (φ.Km m / φ.KD) * φ.KD := by
      obtain ⟨mF, h1, h2⟩ := φ.exists_mag_of_K2 (φ.Km m / φ.KD) φ.D hF
        (by
          have h3 : φ.Km m / φ.KD * 2 ^ φ.D ≤ 2 * φ.M * φ.KD := by
            unfold KD
            calc φ.Km m / φ.KD * 2 ^ φ.D ≤ 2 * φ.M * 2 ^ φ.D :=
                Nat.mul_le_mul_right _ hF
              _ = 2 * φ.M * φ.KD := rfl
          exact le_trans h3 (φ.valid_KD_le_KmMax hv))
      exact ⟨mF, h1, by rw [h2]; rfl⟩
    unfold ffloor
    rw [if_neg (by rw [φ.ifloor_mk_false]; omega)]
    rw [φ.ifloor_mk_false]
    have hround : φ.roundP (((φ.Km m / φ.KD : ℕ) : ℤ) * (φ.KD : ℤ)) φ.KD = ⟨false, mF⟩ := by
      apply φ.roundP_exact φ.KD_pos (le_trans hmFle φ.maxFinMag_le_infMag)
      · intro h0
        rfl
      · rw [φ.Kz_mk_false, hmFKm]
        push_cast
        ring
    rw [hround]
    rw [φ.castU_of_false hv (by rw [hmFKm, Nat.mul_div_cancel _ hKD]; exact hF),
      hmFKm, Nat.mul_div_cancel _ hKD]

theorem castU_fceil (hv : φ.Valid) {m : ℕ} (hb : φ.Km m ≤ 2 * φ.M * φ.KD) :
    φ.castU (φ.fceil ⟨false, m⟩) = (φ.Km m + φ.KD - 1) / φ.KD := by
  have hKD := φ.KD_pos
  have hC : (φ.Km m + φ.KD - 1) / φ.KD ≤ 2 * φ.M := by
    rw [Nat.div_le_iff_le_mul_add_pred hKD]
    have h1 : 2 * φ.M * φ.KD = φ.KD * (2 * φ.M) := by ring
    omega
  rcases Nat.eq_zero_or_pos ((φ.Km m + φ.KD - 1) / φ.KD) with hC0 | hC0
  · unfold fceil
    rw [if_pos (by rw [φ.iceil_mk_false, hC0]; rfl)]
    have h0 : φ.castU ⟨false, 0⟩ = φ.Km 0 / φ.KD := φ.castU_of_false hv (by rw [φ.Km_zero]; simp)
    rw [h0, φ.Km_zero, hC0]
    simp
  · obtain ⟨mC, hmCle, hmCKm⟩ :
        ∃ mC, mC ≤ φ.maxFinMag ∧ φ.Km mC = ((φ.Km m + φ.KD - 1) / φ.KD) * φ.KD := by
      obtain ⟨mC, h1, h2⟩ := φ.exists_mag_of_K2 ((φ.Km m + φ.KD - 1) / φ.KD) φ.D hC
        (by
          have h3 : (φ.Km m + φ.KD - 1) / φ.KD * 2 ^ φ.D ≤ 2 * φ.M * φ.KD := by
            calc (φ.Km m + φ.KD - 1) / φ.KD * 2 ^ φ.D ≤ 2 * φ.M * 2 ^ φ.D :=
                Nat.mul_le_mul_right _ hC
              _ = 2 * φ.M * φ.KD := rfl
          exact le_trans h3 (φ.valid_KD_le_KmMax hv))
      exact ⟨mC, h1, by rw [h2]; rfl⟩
    unfold fceil
    rw [if_neg (by rw [φ.iceil_mk_false]; omega)]
    rw [φ.iceil_mk_false]
    have hround : φ.roundP ((((φ.Km m + φ.KD - 1) / φ.KD : ℕ) : ℤ) * (φ.KD : ℤ)) φ.KD =
        ⟨false, mC⟩ := by
      apply φ.roundP_exact φ.KD_pos (le_trans hmCle φ.maxFinMag_le_infMag)
      · intro h0
        rfl
      · rw [φ.Kz_mk_false, hmCKm]
        push_cast
        ring
    rw [hround]
    rw [φ.castU_of_false hv (by rw [hmCKm, Nat.mul_div_cancel _ hKD]; exact hC),
      hmCKm, Nat.mul_div_cancel _ hKD]

end FpFormat

end FloatSamplers

/-! ## The `min_gaps` quotient: exact unless it underflows below the normal range -/

namespace FloatSamplers

namespace FpFormat

variable (φ : FpFormat)

theorem min_gaps_facts (hv : φ.Valid) {mn mx : ℕ} (hmn : mn ≤ φ.maxFinMag)
    (hmx : mx ≤ φ.maxFinMag) (hKmle : φ.Km mn ≤ φ.Km mx)
    (hfac : φ.Km mx = φ.Km mx / φ.spaceK (mx - 1) * φ.spaceK (mx - 1))
    (hMgle : φ.Km mx / φ.spaceK (mx - 1) ≤ 2 * φ.M) :
    φ.roundMagP (φ.Km mn) (φ.spaceK (mx - 1)) ≤ φ.maxFinMag ∧
    φ.Km (φ.roundMagP (φ.Km mn) (φ.spaceK (mx - 1))) ≤
      φ.Km mx / φ.spaceK (mx - 1) * φ.KD ∧
    (φ.Km (φ.roundMagP (φ.Km mn) (φ.spaceK (mx - 1))) * φ.spaceK (mx - 1) =
        φ.Km mn * φ.KD ∨
      (φ.Km mn * φ.KD ≤ φ.M * φ.spaceK (mx - 1) ∧
        φ.roundMagP (φ.Km mn) (φ.spaceK (mx - 1)) ≤ φ.M)) := by
  have hKD := φ.KD_pos
  have hSK := φ.spaceK_pos (mx - 1)
  have hM := φ.valid_two_le_M hv
  set SK := φ.spaceK (mx - 1) with hSKdef
  set Mg := φ.Km mx / SK with hMgdef
  obtain ⟨tmx, htmxle, htmxKm⟩ : ∃ tmx, tmx ≤ φ.maxFinMag ∧ φ.Km tmx = Mg * φ.KD := by
    obtain ⟨t1, h1, h2⟩ := φ.exists_mag_of_K2 Mg φ.D hMgle
      (le_trans (Nat.mul_le_mul_right _ hMgle) (φ.valid_KD_le_KmMax hv))
    exact ⟨t1, h1, by rw [h2]; rfl⟩
  have hupper : φ.roundMagP (φ.Km mn) SK ≤ tmx := by
    apply φ.roundMagP_le_exact hSK
    rw [htmxKm]
    calc φ.Km mn * φ.KD ≤ φ.Km mx * φ.KD := Nat.mul_le_mul_right _ hKmle
      _ = Mg * SK * φ.KD := by rw [← hfac]
      _ = Mg * φ.KD * SK := by ring
  refine ⟨le_trans hupper htmxle, ?_, ?_⟩
  · calc φ.Km (φ.roundMagP (φ.Km mn) SK) ≤ φ.Km tmx := (φ.Km_le_Km_iff).2 hupper
      _ = Mg * φ.KD := htmxKm
  · rcases Nat.lt_or_ge (φ.M * SK) (φ.Km mn * φ.KD) with hbig | hsmall
    · -- the quotient is at least the smallest normal value: division is exact
      left
      have hmn0 : 1 ≤ mn := by
        by_contra hc
        have h0 : mn = 0 := by omega
        rw [h0, φ.Km_zero] at hbig
        have h00 : 0 < φ.M * SK := Nat.mul_pos φ.M_pos hSK
        omega
      obtain ⟨Mn, hMn1, hMnle, hMnKm⟩ := φ.Km_factor hmn0
      have hmnmx : mn ≤ mx := (φ.Km_le_Km_iff).1 hKmle
      set u := (mn - 1) / φ.M - 1 with hu
      set v := (mx - 1) / φ.M - 1 with hvv
      have huv : u ≤ v := by
        have := div_le_div_of_le φ.M (by omega : mn - 1 ≤ mx - 1)
        omega
      have hSKv : SK = 2 ^ v := rfl
      have hspu : φ.spaceK (mn - 1) = 2 ^ u := rfl
      have htD : v ≤ u + φ.D := by
        by_contra hc
        push_neg at hc
        have h1 : φ.M * SK = 2 ^ (φ.mbits + v) := by
          rw [hSKv]
          unfold M
          rw [← pow_add]
        have h2 : φ.Km mn * φ.KD ≤ 2 ^ (φ.mbits + 1 + u + φ.D) := by
          rw [hMnKm, hspu]
          have h3 : Mn * 2 ^ u ≤ 2 * φ.M * 2 ^ u := Nat.mul_le_mul_right _ hMnle
          have h4 : 2 * φ.M * 2 ^ u = 2 ^ (φ.mbits + 1 + u) := by
            unfold M
            rw [pow_add, pow_add, pow_one]
            ring
          calc Mn * 2 ^ u * φ.KD ≤ 2 ^ (φ.mbits + 1 + u) * φ.KD := by
                rw [← h4]
                exact Nat.mul_le_mul_right _ h3
            _ = 2 ^ (φ.mbits + 1 + u + φ.D) := by
                unfold KD
                rw [← pow_add]
        have h5 : 2 ^ (φ.mbits + v) < 2 ^ (φ.mbits + 1 + u + φ.D) := by omega
        have h6 : φ.mbits + v < φ.mbits + 1 + u + φ.D :=
          (Nat.pow_lt_pow_iff_right (by norm_num)).1 h5
        omega
      obtain ⟨xt, hxtle, hxtKm⟩ :
          ∃ xt, xt ≤ φ.maxFinMag ∧ φ.Km xt = Mn * 2 ^ (u + φ.D - v) := by
        apply φ.exists_mag_of_K hMnle
        calc Mn * 2 ^ (u + φ.D - v) ≤ 2 * φ.M * 2 ^ φ.D := by
              apply Nat.mul_le_mul hMnle
              exact Nat.pow_le_pow_right (by norm_num) (by omega)
          _ = 2 * φ.M * φ.KD := rfl
          _ ≤ φ.Km φ.maxFinMag := φ.valid_KD_le_KmMax hv
      have hKDe : φ.KD = 2 ^ φ.D := rfl
      have key : Mn * 2 ^ u * 2 ^ φ.D = Mn * 2 ^ (u + φ.D - v) * 2 ^ v := by
        calc Mn * 2 ^ u * 2 ^ φ.D = Mn * 2 ^ (u + φ.D) := by
              rw [Nat.mul_assoc, ← pow_add]
          _ = Mn * (2 ^ (u + φ.D - v) * 2 ^ v) := by
              rw [← pow_add]
              congr 2
              omega
          _ = Mn * 2 ^ (u + φ.D - v) * 2 ^ v := by ring
      have hexact : φ.roundMagP (φ.Km mn) SK = xt := by
        apply φ.roundMagP_exact hSK
        · rw [hxtKm, hSKv, hMnKm, hspu, hKDe]
          exact key
        · exact le_trans hxtle φ.maxFinMag_le_infMag
      rw [hexact, hxtKm, hSKv, hMnKm, hspu, hKDe]
      exact key.symm
    · right
      refine ⟨by omega, ?_⟩
      apply φ.roundMagP_le_exact hSK
      rw [φ.Km_M_self]
      omega

end FpFormat

end FloatSamplers

/-! ## The master characterization of `new_inclusive` -/

namespace FloatSamplers

open FpFormat

theorem latticeFacts (φ : FpFormat) (hv : φ.Valid) {low high : Fp} (hl : φ.isFinite low)
    (hh : φ.isFinite high) (hle : φ.Kz low ≤ φ.Kz high) :
    Nonempty (LatticeFacts φ low high) := by
  have hKD := φ.KD_pos
  have hM := φ.valid_two_le_M hv
  have hinf := φ.valid_infMag_eq hv
  have hlmag : low.mag ≤ φ.maxFinMag := by unfold FpFormat.isFinite at hl; omega
  have hhmag : high.mag ≤ φ.maxFinMag := by unfold FpFormat.isFinite at hh; omega
  set mx := φ.mxMag low high with hmxd
  set mn := φ.mnMag low high with hmnd
  have hmxle : mx ≤ φ.maxFinMag := by
    rw [hmxd]; unfold FpFormat.mxMag; split
    · exact hhmag
    · exact hlmag
  have hmnle : mn ≤ φ.maxFinMag := by
    rw [hmnd]; unfold FpFormat.mnMag; split
    · exact hhmag
    · exact hlmag
  have hKmle : φ.Km mn ≤ φ.Km mx := by
    rw [hmnd, hmxd]; unfold FpFormat.mnMag FpFormat.mxMag
    by_cases h1 : φ.Km high.mag < φ.Km low.mag
    · rw [if_pos h1, if_neg (by omega)]
      omega
    · rw [if_neg h1]
      split <;> omega
  have hSK := φ.spaceK_pos (mx - 1)
  obtain ⟨hfac, hMgle⟩ : φ.Km mx = φ.Km mx / φ.spaceK (mx - 1) * φ.spaceK (mx - 1) ∧
      φ.Km mx / φ.spaceK (mx - 1) ≤ 2 * φ.M := by
    rcases Nat.eq_zero_or_pos mx with h0 | h0
    · rw [h0, φ.Km_zero]
      constructor
      · simp
      · simp
    · obtain ⟨Mg', h1, h2, h3⟩ := φ.Km_factor h0
      have hq : φ.Km mx / φ.spaceK (mx - 1) = Mg' := by
        rw [h3, Nat.mul_div_cancel _ (φ.spaceK_pos _)]
      rw [hq]
      exact ⟨h3, h2⟩
  -- shapes of abs/min/max
  have hmaxsh : φ.fmaxF (Fp.fabs low) (Fp.fabs high) = ⟨false, mx⟩ := by
    unfold FpFormat.fmaxF
    rw [φ.Kz_fabs, φ.Kz_fabs, hmxd]
    unfold FpFormat.mxMag
    by_cases hc : φ.Km low.mag < φ.Km high.mag
    · rw [if_pos (by exact_mod_cast hc), if_pos hc]
      rfl
    · rw [if_neg (by exact_mod_cast hc), if_neg hc]
      rfl
  have hminsh : φ.fminF (Fp.fabs low) (Fp.fabs high) = ⟨false, mn⟩ := by
    unfold FpFormat.fminF
    rw [φ.Kz_fabs, φ.Kz_fabs, hmnd]
    unfold FpFormat.mnMag
    by_cases hc : φ.Km high.mag < φ.Km low.mag
    · rw [if_pos (by exact_mod_cast hc), if_pos hc]
      rfl
    · rw [if_neg (by exact_mod_cast hc), if_neg hc]
      rfl
  -- the gap float
  obtain ⟨gm, hulp, hgmKm0, hgm1, hgmle⟩ := ulp_spec2 φ hv ⟨false, mx⟩ hmxle
  have hgmKm : φ.Km gm = φ.spaceK (mx - 1) := hgmKm0
  -- the max_gaps float
  obtain ⟨tm, htmle, htmKm⟩ :
      ∃ tm, tm ≤ φ.maxFinMag ∧ φ.Km tm = φ.Km mx / φ.spaceK (mx - 1) * φ.KD := by
    obtain ⟨t1, h1, h2⟩ := φ.exists_mag_of_K2 (φ.Km mx / φ.spaceK (mx - 1)) φ.D
      hMgle (le_trans (Nat.mul_le_mul_right _ hMgle) (φ.valid_KD_le_KmMax hv))
    exact ⟨t1, h1, by rw [h2]; rfl⟩
  have hmaxdiv : φ.fdiv ⟨false, mx⟩ ⟨false, gm⟩ = ⟨false, tm⟩ := by
    rcases Nat.eq_zero_or_pos mx with h0 | h0
    · have hMg0 : φ.Km mx / φ.spaceK (mx - 1) = 0 := by
        rw [h0, φ.Km_zero, Nat.zero_div]
      have htm0 : tm = 0 := (φ.Km_eq_zero_iff).1 (by rw [htmKm, hMg0, Nat.zero_mul])
      unfold FpFormat.fdiv
      rw [if_pos (Or.inl h0), htm0]
      rfl
    · unfold FpFormat.fdiv
      rw [if_neg (by show ¬ (mx = 0 ∨ gm = 0); omega)]
      have hr : φ.roundMagP (φ.Km mx) (φ.Km gm) = tm := by
        apply φ.roundMagP_exact (by rw [hgmKm]; exact φ.spaceK_pos _)
        · rw [htmKm, hgmKm]
          calc φ.Km mx * φ.KD
              = φ.Km mx / φ.spaceK (mx - 1) * φ.spaceK (mx - 1) * φ.KD := by rw [← hfac]
            _ = φ.Km mx / φ.spaceK (mx - 1) * φ.KD * φ.spaceK (mx - 1) := by ring
        · omega
      show (⟨xor false false, φ.roundMagP (φ.Km mx) (φ.Km gm)⟩ : Fp) = ⟨false, tm⟩
      rw [hr]
      rfl
  -- the min_gaps float
  obtain ⟨hxmle, hxmMg, hdichot⟩ := φ.min_gaps_facts hv hmnle hmxle hKmle hfac hMgle
  set xm := φ.roundMagP (φ.Km mn) (φ.spaceK (mx - 1)) with hxmdef
  have hmindiv : φ.fdiv ⟨false, mn⟩ ⟨false, gm⟩ = ⟨false, xm⟩ := by
    rcases Nat.eq_zero_or_pos mn with h0 | h0
    · have hxm0 : xm = 0 := by
        rw [hxmdef, h0, φ.Km_zero]
        exact φ.roundMagP_exact (φ.spaceK_pos _) (by rw [φ.Km_zero]; ring) (Nat.zero_le _)
      unfold FpFormat.fdiv
      rw [if_pos (Or.inl h0), hxm0]
      rfl
    · unfold FpFormat.fdiv
      rw [if_neg (by show ¬ (mn = 0 ∨ gm = 0); omega)]
      show (⟨xor false false, φ.roundMagP (φ.Km mn) (φ.Km gm)⟩ : Fp) = ⟨false, xm⟩
      rw [show φ.Km gm = φ.spaceK (mx - 1) from hgmKm]
      rfl
  -- cast characterizations
  have hcast1 : φ.castU ⟨false, tm⟩ = φ.Km mx / φ.spaceK (mx - 1) := by
    rw [φ.castU_of_false hv (by rw [htmKm, Nat.mul_div_cancel _ hKD]; exact hMgle),
      htmKm, Nat.mul_div_cancel _ hKD]
  have hxmb : φ.Km xm ≤ 2 * φ.M * φ.KD :=
    le_trans hxmMg (Nat.mul_le_mul_right _ hMgle)
  have hcast2 : φ.castU (φ.ffloor ⟨false, xm⟩) = φ.Km xm / φ.KD := φ.castU_ffloor hv hxmb
  have hcast3 : φ.castU (φ.fceil ⟨false, xm⟩) = (φ.Km xm + φ.KD - 1) / φ.KD :=
    φ.castU_fceil hv hxmb
  have hcond : (φ.Kz (Fp.fabs low) < φ.Kz (Fp.fabs high)) = (φ.Km low.mag < φ.Km high.mag) := by
    rw [φ.Kz_fabs, φ.Kz_fabs]
    apply propext
    exact_mod_cast Iff.rfl
  have hsigeq : (φ.fsignum low = φ.fsignum high) = (low.sign = high.sign) := by
    apply propext
    constructor
    · intro h
      have h2 := congrArg Fp.sign h
      exact h2
    · intro h
      unfold FpFormat.fsignum
      rw [h]
  refine ⟨⟨⟨if φ.Km low.mag < φ.Km high.mag then high else low,
      if φ.Km low.mag < φ.Km high.mag then low else high,
      if φ.Km low.mag < φ.Km high.mag then ⟨true, gm⟩ else ⟨false, gm⟩,
      (if low.sign = high.sign
        then φ.Km mx / φ.spaceK (mx - 1) - φ.Km xm / φ.KD
        else φ.Km mx / φ.spaceK (mx - 1) + (φ.Km xm + φ.KD - 1) / φ.KD) + 1⟩,
    gm, tm, xm, ?_, rfl, rfl, rfl, hgmKm, hgm1, hgmle, htmKm, htmle,
    hmaxdiv, hxmdef, hmindiv, hxmle, hxmMg, hfac, hMgle, hdichot, rfl⟩⟩
  unfold SampleValueCollection.new_inclusive
  rw [if_neg (not_not_intro hl), if_neg (not_not_intro hh),
    if_neg (not_not_intro ((guard_iff φ hv low high).2 hle))]
  simp only [hmaxsh, hminsh, hulp, hmaxdiv, hmindiv, hcond, hsigeq, hcast1, hcast2, hcast3]
  by_cases hc : φ.Km low.mag < φ.Km high.mag
  · simp only [if_pos hc]
    rfl
  · simp only [if_neg hc]

end FloatSamplers

/-! ## Consequences: single-point lattices and signs of start/step -/

namespace FloatSamplers

open FpFormat

theorem Kz_eq_of_Km_mag_eq (φ : FpFormat) {low high : Fp}
    (hKz : φ.Kz low = φ.Kz high) : low.mag = high.mag := by
  have h2 := congrArg Int.natAbs hKz
  rw [φ.Kz_natAbs, φ.Kz_natAbs] at h2
  exact (φ.Km_eq_Km_iff).1 h2

theorem mxMag_eq_mnMag_iff (φ : FpFormat) (low high : Fp) :
    φ.Km (φ.mxMag low high) = φ.Km (φ.mnMag low high) ↔ low.mag = high.mag := by
  unfold FpFormat.mxMag FpFormat.mnMag
  constructor
  · intro h
    by_cases h1 : φ.Km low.mag < φ.Km high.mag
    · rw [if_pos h1, if_neg (by omega)] at h
      omega
    · rw [if_neg h1] at h
      by_cases h2 : φ.Km high.mag < φ.Km low.mag
      · rw [if_pos h2] at h
        omega
      · exact (φ.Km_eq_Km_iff).1 (by omega)
  · intro h
    rw [h]

theorem count_eq_one_iff (φ : FpFormat) (hv : φ.Valid) {low high : Fp}
    (lf : LatticeFacts φ low high) :
    lf.c.count = 1 ↔ φ.Kz low = φ.Kz high := by
  have hKD := φ.KD_pos
  have hMltKD := φ.valid_M_lt_KD hv
  have hSK := φ.spaceK_pos (φ.mxMag low high - 1)
  set mx := φ.mxMag low high with hmxd
  set mn := φ.mnMag low high with hmnd
  set Mg := φ.Km mx / φ.spaceK (mx - 1) with hMgd
  have hxmMg : φ.Km lf.xm ≤ Mg * φ.KD := by rw [hMgd, hmxd]; exact lf.hxmMg
  have hKmmx : φ.Km mx = Mg * φ.spaceK (mx - 1) := by rw [hMgd, hmxd]; exact lf.hKmmx
  have hdichot : φ.Km lf.xm * φ.spaceK (mx - 1) = φ.Km mn * φ.KD
      ∨ (φ.Km mn * φ.KD ≤ φ.M * φ.spaceK (mx - 1) ∧ lf.xm ≤ φ.M) := by
    rw [hmnd, hmxd]; exact lf.hdichot
  have hcount : lf.c.count = (if low.sign = high.sign
      then Mg - φ.Km lf.xm / φ.KD
      else Mg + (φ.Km lf.xm + φ.KD - 1) / φ.KD) + 1 := by
    rw [hMgd, hmxd]; exact lf.hcount
  have htm : φ.Km lf.tm = Mg * φ.KD := by rw [hMgd, hmxd]; exact lf.htm
  have hxm : lf.xm = φ.roundMagP (φ.Km mn) (φ.spaceK (mx - 1)) := by
    rw [hmnd, hmxd]; exact lf.hxm
  have hFle : φ.Km lf.xm / φ.KD ≤ Mg := by
    have h1 : φ.Km lf.xm / φ.KD ≤ Mg * φ.KD / φ.KD := Nat.div_le_div_right hxmMg
    rwa [Nat.mul_div_cancel _ hKD] at h1
  constructor
  · intro h1
    rw [hcount] at h1
    by_cases hs : low.sign = high.sign
    · rw [if_pos hs] at h1
      have hF : φ.Km lf.xm / φ.KD = Mg := by omega
      have hKmxm : φ.Km lf.xm = Mg * φ.KD := by
        have h2 : Mg * φ.KD ≤ φ.Km lf.xm := by
          rw [← hF]
          exact Nat.div_mul_le_self _ _
        omega
      have hKmn : φ.Km mn = φ.Km mx := by
        rcases hdichot with he | ⟨ht1, ht2⟩
        · rw [hKmxm] at he
          have h4 : φ.Km mn = Mg * φ.spaceK (mx - 1) :=
            (Nat.eq_of_mul_eq_mul_right hKD (by rw [← he]; ring)).symm
          rw [h4, ← hKmmx]
        · have h5 : φ.Km lf.xm ≤ φ.M :=
            le_of_le_of_eq ((φ.Km_le_Km_iff).2 ht2) φ.Km_M_self
          have h6 : Mg = 0 := by
            by_contra hc
            have h7 : φ.KD ≤ Mg * φ.KD := Nat.le_mul_of_pos_left _ (Nat.pos_of_ne_zero hc)
            omega
          have h8 : φ.Km mx = 0 := by rw [hKmmx, h6, Nat.zero_mul]
          have hmx0 : mx = 0 := (φ.Km_eq_Km_iff).1 (by rw [h8, φ.Km_zero])
          have hSK1 : φ.spaceK (mx - 1) = 1 := by
            rw [hmx0]
            simp [FpFormat.spaceK]
          have h9 : φ.Km mn = 0 := by
            by_contra hne
            have h11 : φ.KD ≤ φ.Km mn * φ.KD := Nat.le_mul_of_pos_left _ (Nat.pos_of_ne_zero hne)
            rw [hSK1] at ht1
            omega
          omega
      have hmag : low.mag = high.mag :=
        (mxMag_eq_mnMag_iff φ low high).1 (by rw [← hmxd, ← hmnd]; omega)
      unfold FpFormat.Kz
      rw [hs, hmag]
    · rw [if_neg hs] at h1
      have hMg0 : Mg = 0 := Nat.eq_zero_of_add_eq_zero_right (Nat.succ_injective h1)
      have hKmx : φ.Km mx = 0 := by rw [hKmmx, hMg0, Nat.zero_mul]
      have hlow0 : φ.Km low.mag = 0 ∧ φ.Km high.mag = 0 := by
        rw [hmxd] at hKmx
        unfold FpFormat.mxMag at hKmx
        split at hKmx <;> omega
      have h2 : φ.Kz low = 0 := by
        unfold FpFormat.Kz
        rw [hlow0.1]
        split <;> simp
      have h3 : φ.Kz high = 0 := by
        unfold FpFormat.Kz
        rw [hlow0.2]
        split <;> simp
      omega
  · intro hKz
    have hmag : low.mag = high.mag := Kz_eq_of_Km_mag_eq φ hKz
    have hKmeq : φ.Km mn = φ.Km mx := by
      rw [hmxd, hmnd]
      exact ((mxMag_eq_mnMag_iff φ low high).2 hmag).symm
    have hxmK : φ.Km lf.xm = Mg * φ.KD := by
      have hexact : lf.xm = lf.tm := by
        rw [hxm]
        apply φ.roundMagP_exact hSK
        · rw [htm, hKmeq, hKmmx]; ring
        · exact le_trans lf.htmle φ.maxFinMag_le_infMag
      rw [hexact, htm]
    have hF : φ.Km lf.xm / φ.KD = Mg := by
      rw [hxmK, Nat.mul_div_cancel _ hKD]
    have hC : (φ.Km lf.xm + φ.KD - 1) / φ.KD = Mg := by
      rw [hxmK]
      have h1 : Mg * φ.KD + φ.KD - 1 = φ.KD * Mg + (φ.KD - 1) := by ring_nf; omega
      rw [h1, Nat.mul_add_div hKD, Nat.div_eq_of_lt (by omega), Nat.add_zero]
    rw [hcount]
    by_cases hs : low.sign = high.sign
    · rw [if_pos hs, hF, Nat.sub_self]
    · rw [if_neg hs, hC]
      have h0 : φ.Km low.mag = 0 := by
        unfold FpFormat.Kz at hKz
        rw [hmag] at hKz ⊢
        cases hsl : low.sign <;> cases hsh : high.sign <;> rw [hsl, hsh] at hKz
        · exact absurd (by rw [hsl, hsh]) hs
        · simp at hKz
          omega
        · simp at hKz
          omega
        · exact absurd (by rw [hsl, hsh]) hs
      have hMg0 : Mg = 0 := by
        have hKmx0 : φ.Km mx = 0 := by
          have h0h : φ.Km high.mag = 0 := by rw [← hmag]; exact h0
          rw [hmxd]
          unfold FpFormat.mxMag
          split <;> omega
        rw [hMgd, hKmx0, Nat.zero_div]
      rw [hMg0]

end FloatSamplers

/-! ## Representability of signed lattice values, and exact casts -/

namespace FloatSamplers

namespace FpFormat

variable (φ : FpFormat)

theorem exists_pattern_of_Kz {W : ℤ} {s : ℕ}
    (hk : W.natAbs ≤ 2 * φ.M) (hb : W.natAbs * 2 ^ s ≤ φ.Km φ.maxFinMag) :
    ∃ v : Fp, φ.Kz v = W * 2 ^ s ∧ v.mag ≤ φ.maxFinMag ∧
      (v.mag = 0 → v.sign = false) ∧ φ.Km v.mag = W.natAbs * 2 ^ s := by
  obtain ⟨m, hmle, hKm⟩ := φ.exists_mag_of_K hk hb
  rcases le_or_lt 0 W with hW | hW
  · refine ⟨⟨false, m⟩, ?_, hmle, fun _ => rfl, hKm⟩
    rw [φ.Kz_mk_false, hKm]
    push_cast
    rw [abs_of_nonneg hW]
  · refine ⟨⟨true, m⟩, ?_, hmle, ?_, hKm⟩
    · rw [φ.Kz_mk_true, hKm]
      push_cast
      rw [abs_of_neg hW]
      ring
    · intro h0
      exfalso
      have h0m : m = 0 := h0
      rw [h0m, φ.Km_zero] at hKm
      have h2 : 0 < 2 ^ s := Nat.pos_pow_of_pos _ (by norm_num)
      have h3 : W.natAbs = 0 := by
        rcases Nat.mul_eq_zero.1 hKm.symm with h | h
        · exact h
        · omega
      omega

theorem castF_exact (hv : φ.Valid) {n : ℕ} (hn : n ≤ 2 * φ.M) :
    ∃ m, φ.castF n = ⟨false, m⟩ ∧ m ≤ φ.maxFinMag ∧ φ.Km m = n * φ.KD := by
  have hb : n * φ.KD ≤ φ.Km φ.maxFinMag :=
    le_trans (Nat.mul_le_mul_right _ hn) (φ.valid_KD_le_KmMax hv)
  obtain ⟨m, hmle, hKm⟩ := φ.exists_mag_of_K hn (show n * 2 ^ φ.D ≤ φ.Km φ.maxFinMag from hb)
  refine ⟨m, ?_, hmle, hKm⟩
  unfold FpFormat.castF
  apply φ.roundP_exact Nat.one_pos (le_trans hmle φ.maxFinMag_le_infMag) (fun _ => rfl)
  rw [φ.Kz_mk_false, hKm]
  unfold FpFormat.KD
  push_cast
  ring

theorem Km_le_KmMax_of_le {m : ℕ} (hm : m ≤ φ.maxFinMag) : φ.Km m ≤ φ.Km φ.maxFinMag :=
  (φ.Km_le_Km_iff).2 hm

end FpFormat

end FloatSamplers

/-! ## Exactness of the `get` index formula on the lattice -/

namespace FloatSamplers

open FpFormat

theorem Kz_of_sign_false (φ : FpFormat) {a : Fp} (h : a.sign = false) :
    φ.Kz a = (φ.Km a.mag : ℤ) := by
  have h1 : a = ⟨false, a.mag⟩ := by rw [← h]
  rw [h1, φ.Kz_mk_false]

theorem Kz_of_sign_true (φ : FpFormat) {a : Fp} (h : a.sign = true) :
    φ.Kz a = -(φ.Km a.mag : ℤ) := by
  have h1 : a = ⟨true, a.mag⟩ := by rw [← h]
  rw [h1, φ.Kz_mk_true]

theorem get_spec (φ : FpFormat) (hv : φ.Valid) {low high : Fp}
    (hl : φ.isFinite low) (hh : φ.isFinite high) (hle : φ.Kz low ≤ φ.Kz high)
    (lf : LatticeFacts φ low high) {i : ℕ} (hi : i < lf.c.count - 1) :
    ∃ v : Fp, lf.c.get φ i = some v ∧
      φ.Kz v = φ.Kz lf.c.start + (i : ℤ) * φ.Kz lf.c.step ∧
      v.mag ≤ φ.maxFinMag := by
  have hKD := φ.KD_pos
  have hM2 := φ.valid_two_le_M hv
  have hlmag : low.mag ≤ φ.maxFinMag := by
    unfold FpFormat.isFinite FpFormat.infMag at hl
    unfold FpFormat.maxFinMag
    omega
  have hhmag : high.mag ≤ φ.maxFinMag := by
    unfold FpFormat.isFinite FpFormat.infMag at hh
    unfold FpFormat.maxFinMag
    omega
  obtain ⟨mx, hmxd⟩ : ∃ x, x = φ.mxMag low high := ⟨_, rfl⟩
  obtain ⟨Mg, hMgd⟩ : ∃ g, g = φ.Km mx / φ.spaceK (mx - 1) := ⟨_, rfl⟩
  have hSK : 0 < φ.spaceK (mx - 1) := φ.spaceK_pos _
  have hSKpow : φ.spaceK (mx - 1) = 2 ^ ((mx - 1) / φ.M - 1) := rfl
  have hmxle : mx ≤ φ.maxFinMag := by
    rw [hmxd]
    unfold FpFormat.mxMag
    split
    · exact hhmag
    · exact hlmag
  have hxmMg : φ.Km lf.xm ≤ Mg * φ.KD := by rw [hMgd, hmxd]; exact lf.hxmMg
  have hKmmx : φ.Km mx = Mg * φ.spaceK (mx - 1) := by rw [hMgd, hmxd]; exact lf.hKmmx
  have hMgle : Mg ≤ 2 * φ.M := by rw [hMgd, hmxd]; exact lf.hMgle
  have hcount : lf.c.count = (if low.sign = high.sign
      then Mg - φ.Km lf.xm / φ.KD
      else Mg + (φ.Km lf.xm + φ.KD - 1) / φ.KD) + 1 := by
    rw [hMgd, hmxd]; exact lf.hcount
  have hgm : φ.Km lf.gm = φ.spaceK (mx - 1) := by rw [hmxd]; exact lf.hgm
  have hdivMg : (φ.KD * Mg + (φ.KD - 1)) / φ.KD = Mg := by
    rw [Nat.mul_add_div hKD, Nat.div_eq_of_lt (by omega), Nat.add_zero]
  have hCle : (φ.Km lf.xm + φ.KD - 1) / φ.KD ≤ Mg := by
    have h2 : Mg * φ.KD = φ.KD * Mg := Nat.mul_comm _ _
    have h1 : φ.Km lf.xm + φ.KD - 1 ≤ φ.KD * Mg + (φ.KD - 1) := by omega
    calc (φ.Km lf.xm + φ.KD - 1) / φ.KD ≤ (φ.KD * Mg + (φ.KD - 1)) / φ.KD :=
          Nat.div_le_div_right h1
      _ = Mg := hdivMg
  have hiMg : i ≤ 2 * Mg - 1 ∧ 1 ≤ Mg := by
    obtain ⟨F, hF⟩ : ∃ f, f = φ.Km lf.xm / φ.KD := ⟨_, rfl⟩
    obtain ⟨C, hC2⟩ : ∃ cc, cc = (φ.Km lf.xm + φ.KD - 1) / φ.KD := ⟨_, rfl⟩
    have hCle2 : C ≤ Mg := by rw [hC2]; exact hCle
    rw [hcount, ← hF, ← hC2] at hi
    by_cases hs : low.sign = high.sign
    · rw [if_pos hs] at hi
      constructor <;> omega
    · rw [if_neg hs] at hi
      constructor <;> omega
  -- sign and pattern of start and step
  obtain ⟨e, he1, hKzst, hKzsp⟩ : ∃ e : ℤ, (e = 1 ∨ e = -1) ∧
      φ.Kz lf.c.start = e * ((Mg : ℤ) * (φ.spaceK (mx - 1) : ℤ)) ∧
      φ.Kz lf.c.step = -(e * (φ.spaceK (mx - 1) : ℤ)) := by
    have hne : φ.Kz low ≠ φ.Kz high := by
      intro h
      have h1 := (count_eq_one_iff φ hv lf).2 h
      omega
    by_cases hc : φ.Km low.mag < φ.Km high.mag
    · have hsh : high.sign = false := by
        cases hsh : high.sign
        · rfl
        · exfalso
          cases hsl : low.sign
          · rw [Kz_of_sign_false φ hsl, Kz_of_sign_true φ hsh] at hle
            omega
          · rw [Kz_of_sign_true φ hsl, Kz_of_sign_true φ hsh] at hle
            omega
      refine ⟨1, Or.inl rfl, ?_, ?_⟩
      · have hstmx : lf.c.start = ⟨false, mx⟩ := by
          rw [lf.hstart, if_pos hc]
          have h1 : mx = high.mag := by
            rw [hmxd]
            unfold FpFormat.mxMag
            rw [if_pos hc]
          rw [h1, ← hsh]
        rw [hstmx, φ.Kz_mk_false, hKmmx]
        push_cast
        ring
      · have hspg : lf.c.step = ⟨true, lf.gm⟩ := by rw [lf.hstep, if_pos hc]
        rw [hspg, φ.Kz_mk_true, hgm]
        push_cast
        ring
    · have hsl : low.sign = true := by
        cases hsl : low.sign
        · exfalso
          cases hsh : high.sign
          · rw [Kz_of_sign_false φ hsl, Kz_of_sign_false φ hsh] at hle hne
            have h2 : ¬ φ.Km low.mag < φ.Km high.mag := hc
            omega
          · rw [Kz_of_sign_false φ hsl, Kz_of_sign_true φ hsh] at hle hne
            omega
        · rfl
      refine ⟨-1, Or.inr rfl, ?_, ?_⟩
      · have hstmx : lf.c.start = ⟨true, mx⟩ := by
          rw [lf.hstart, if_neg hc]
          have h1 : mx = low.mag := by
            rw [hmxd]
            unfold FpFormat.mxMag
            rw [if_neg hc]
          rw [h1, ← hsl]
        rw [hstmx, φ.Kz_mk_true, hKmmx]
        push_cast
        ring
      · have hspg : lf.c.step = ⟨false, lf.gm⟩ := by rw [lf.hstep, if_neg hc]
        rw [hspg, φ.Kz_mk_false, hgm]
        push_cast
        ring
  have hstepmag : lf.c.step.mag ≠ 0 := by
    intro h0
    have h1 := (φ.Kz_eq_zero_iff lf.c.step).1 ∘ id
    have h2 : φ.Kz lf.c.step = 0 := (φ.Kz_eq_zero_iff lf.c.step).2 h0
    rw [hKzsp] at h2
    rcases he1 with h | h <;> rw [h] at h2 <;> omega
  have hstepmagle : lf.c.step.mag ≤ φ.maxFinMag := by
    rw [lf.hstep]
    split
    · exact lf.hgmle
    · exact lf.hgmle
  -- the regular-index branch of `get`
  have hget : lf.c.get φ i = some (φ.fmulAdd (φ.castF (i / 2)) (φ.fmul φ.lit2 lf.c.step)
      (φ.fadd (φ.fmul (φ.castF (i % 2)) lf.c.step) lf.c.start)) := by
    unfold SampleValueCollection.get
    rw [if_neg (not_not_intro (show i < lf.c.count by omega)),
      if_neg (show ¬ i = lf.c.count - 1 by omega)]
  -- the cast of `i / 2` is exact
  have hA2 : i / 2 ≤ 2 * φ.M := by omega
  obtain ⟨ma, hA, hmale, hKma⟩ := φ.castF_exact hv hA2
  have hKzA : φ.Kz (φ.castF (i / 2)) = ((i / 2 : ℕ) : ℤ) * (φ.KD : ℤ) := by
    rw [hA, φ.Kz_mk_false, hKma]
    push_cast
    ring
  -- 2 * step is exact
  have hm2b : 2 * φ.spaceK (mx - 1) ≤ φ.Km φ.maxFinMag :=
    φ.two_spaceK_le_KmMax hv (le_trans (Nat.sub_le _ _) hmxle)
  have hWB : (-(e * 2) : ℤ).natAbs ≤ 2 * φ.M := by
    rcases he1 with h | h <;> rw [h] <;> simp <;> omega
  have hWBb : (-(e * 2) : ℤ).natAbs * 2 ^ ((mx - 1) / φ.M - 1) ≤ φ.Km φ.maxFinMag := by
    have h2 : (-(e * 2) : ℤ).natAbs = 2 := by
      rcases he1 with h | h <;> rw [h] <;> simp
    rw [h2, ← hSKpow]
    exact hm2b
  obtain ⟨vB, hKzvB, hvBle, hvB0, _⟩ := φ.exists_pattern_of_Kz hWB hWBb
  have hlit2mag : φ.lit2.mag ≠ 0 := by
    have hM := φ.M_pos
    show (φ.bias + 1) * φ.M ≠ 0
    exact Nat.mul_ne_zero (by omega) (by omega)
  have hKzlit2 : φ.Kz φ.lit2 = ((2 * φ.KD : ℕ) : ℤ) := by
    show φ.Kz ⟨false, (φ.bias + 1) * φ.M⟩ = _
    rw [φ.Kz_mk_false, φ.Km_lit2Mag hv]
  have hB : φ.fmul φ.lit2 lf.c.step = vB := by
    unfold FpFormat.fmul
    rw [if_neg (by push_neg; exact ⟨hlit2mag, hstepmag⟩)]
    apply φ.roundP_exact (Nat.mul_pos hKD hKD) (le_trans hvBle φ.maxFinMag_le_infMag) hvB0
    rw [hKzlit2, hKzsp, hKzvB, hSKpow]
    push_cast
    ring
  -- (i % 2) * step is exact
  obtain ⟨mr, hCf, hmrle, hKmr⟩ := φ.castF_exact hv (show i % 2 ≤ 2 * φ.M by omega)
  obtain ⟨vC, hCeq, hKzvC, hvCle⟩ : ∃ vc : Fp,
      φ.fmul (φ.castF (i % 2)) lf.c.step = vc ∧
      φ.Kz vc = -(e * ((i % 2 : ℕ) : ℤ) * (φ.spaceK (mx - 1) : ℤ)) ∧
      vc.mag ≤ φ.maxFinMag := by
    rcases Nat.mod_two_eq_zero_or_one i with hr | hr
    · refine ⟨⟨xor (φ.castF (i % 2)).sign lf.c.step.sign, 0⟩, ?_, ?_, Nat.zero_le _⟩
      · have hmr0 : mr = 0 := by
          have h1 : φ.Km mr = φ.Km 0 := by rw [hKmr, hr, Nat.zero_mul, φ.Km_zero]
          exact (φ.Km_eq_Km_iff).1 h1
        unfold FpFormat.fmul
        rw [if_pos (Or.inl (by rw [hCf, hmr0]))]
      · rw [(φ.Kz_eq_zero_iff _).2 rfl, hr]
        push_cast
        ring
    · refine ⟨lf.c.step, ?_, ?_, hstepmagle⟩
      · have hmr1 : (φ.castF (i % 2)).mag ≠ 0 := by
          rw [hCf]
          intro h0
          have h1 : φ.Km mr = 0 := by rw [show mr = 0 from h0, φ.Km_zero]
          rw [hKmr, hr, Nat.one_mul] at h1
          omega
        unfold FpFormat.fmul
        rw [if_neg (by push_neg; exact ⟨hmr1, hstepmag⟩)]
        apply φ.roundP_exact (Nat.mul_pos hKD hKD)
          (le_trans hstepmagle φ.maxFinMag_le_infMag) (fun h0 => absurd h0 hstepmag)
        rw [hCf, φ.Kz_mk_false, hKmr, hr]
        push_cast
        ring
      · rw [hKzsp, hr]
        push_cast
        ring
  -- (i % 2) * step + start is exact
  have hsum : φ.Kz vC + φ.Kz lf.c.start =
      e * ((Mg : ℤ) - ((i % 2 : ℕ) : ℤ)) * (φ.spaceK (mx - 1) : ℤ) := by
    rw [hKzvC, hKzst]
    ring
  obtain ⟨vE, hEeq, hKzvE, hvEle⟩ : ∃ ve : Fp,
      φ.fadd vC lf.c.start = ve ∧
      φ.Kz ve = e * ((Mg : ℤ) - ((i % 2 : ℕ) : ℤ)) * (φ.spaceK (mx - 1) : ℤ) ∧
      ve.mag ≤ φ.maxFinMag := by
    by_cases hz : φ.Kz vC + φ.Kz lf.c.start = 0
    · have hz2 : e * ((Mg : ℤ) - ((i % 2 : ℕ) : ℤ)) * (φ.spaceK (mx - 1) : ℤ) = 0 := by
        rw [← hsum]
        exact hz
      by_cases hin : vC.mag = 0 ∧ lf.c.start.mag = 0
      · refine ⟨⟨vC.sign && lf.c.start.sign, 0⟩, ?_, ?_, Nat.zero_le _⟩
        · unfold FpFormat.fadd
          rw [if_pos hz, if_pos hin]
        · rw [(φ.Kz_eq_zero_iff _).2 rfl, hz2]
      · refine ⟨⟨false, 0⟩, ?_, ?_, Nat.zero_le _⟩
        · unfold FpFormat.fadd
          rw [if_pos hz, if_neg hin]
        · rw [(φ.Kz_eq_zero_iff _).2 rfl, hz2]
    · have hW : (e * ((Mg : ℤ) - ((i % 2 : ℕ) : ℤ))).natAbs ≤ 2 * φ.M := by
        rcases he1 with h | h <;> rw [h] <;> omega
      have hWb : (e * ((Mg : ℤ) - ((i % 2 : ℕ) : ℤ))).natAbs * 2 ^ ((mx - 1) / φ.M - 1) ≤
          φ.Km φ.maxFinMag := by
        have h1 : (e * ((Mg : ℤ) - ((i % 2 : ℕ) : ℤ))).natAbs ≤ Mg := by
          rcases he1 with h | h <;> rw [h] <;> omega
        calc (e * ((Mg : ℤ) - ((i % 2 : ℕ) : ℤ))).natAbs * 2 ^ ((mx - 1) / φ.M - 1) ≤
            Mg * 2 ^ ((mx - 1) / φ.M - 1) := Nat.mul_le_mul_right _ h1
          _ = φ.Km mx := by rw [hKmmx, hSKpow]
          _ ≤ φ.Km φ.maxFinMag := φ.Km_le_KmMax_of_le hmxle
      obtain ⟨ve, hKzve, hvele, hve0, _⟩ := φ.exists_pattern_of_Kz hW hWb
      refine ⟨ve, ?_, ?_, hvele⟩
      · unfold FpFormat.fadd
        rw [if_neg hz]
        apply φ.roundP_exact hKD (le_trans hvele φ.maxFinMag_le_infMag) hve0
        rw [hsum, hKzve, hSKpow]
        push_cast
        ring
      · rw [hKzve, hSKpow]
        push_cast
        ring
  -- the fused multiply-add is exact
  have hzi : ((i : ℕ) : ℤ) = 2 * ((i / 2 : ℕ) : ℤ) + ((i % 2 : ℕ) : ℤ) := by
    exact_mod_cast (Nat.div_add_mod i 2).symm
  have hzval : φ.Kz (φ.castF (i / 2)) * φ.Kz vB + φ.Kz vE * (φ.KD : ℤ) =
      e * ((Mg : ℤ) - (i : ℤ)) * (φ.spaceK (mx - 1) : ℤ) * (φ.KD : ℤ) := by
    rw [hKzA, hKzvB, hKzvE, hSKpow, hzi]
    push_cast
    ring
  by_cases hz0 : φ.Kz (φ.castF (i / 2)) * φ.Kz vB + φ.Kz vE * (φ.KD : ℤ) = 0
  · -- the lattice point is zero
    have h1 : e * ((Mg : ℤ) - (i : ℤ)) * (φ.spaceK (mx - 1) : ℤ) * (φ.KD : ℤ) = 0 := by
      rw [← hzval]
      exact hz0
    have hSKne : ((φ.spaceK (mx - 1) : ℕ) : ℤ) ≠ 0 := by
      exact_mod_cast Nat.pos_iff_ne_zero.1 hSK
    have hKDne : ((φ.KD : ℕ) : ℤ) ≠ 0 := by
      exact_mod_cast Nat.pos_iff_ne_zero.1 hKD
    have h2 : e * ((Mg : ℤ) - (i : ℤ)) = 0 := by
      rcases mul_eq_zero.1 h1 with h | h
      · rcases mul_eq_zero.1 h with h' | h'
        · exact h'
        · exact absurd h' hSKne
      · exact absurd h hKDne
    have hRHS : φ.Kz lf.c.start + (i : ℤ) * φ.Kz lf.c.step = 0 := by
      rw [hKzst, hKzsp]
      linear_combination (φ.spaceK (mx - 1) : ℤ) * h2
    by_cases hin : (φ.castF (i / 2)).mag = 0 ∨ vB.mag = 0
    · refine ⟨⟨xor (φ.castF (i / 2)).sign vB.sign && vE.sign, 0⟩, ?_, ?_, Nat.zero_le _⟩
      · rw [hget, hB, hCeq, hEeq]
        unfold FpFormat.fmulAdd
        rw [if_pos hz0, if_pos hin]
      · rw [(φ.Kz_eq_zero_iff _).2 rfl, hRHS]
    · refine ⟨⟨false, 0⟩, ?_, ?_, Nat.zero_le _⟩
      · rw [hget, hB, hCeq, hEeq]
        unfold FpFormat.fmulAdd
        rw [if_pos hz0, if_neg hin]
      · rw [(φ.Kz_eq_zero_iff _).2 rfl, hRHS]
  · -- nonzero lattice point, exactly representable
    have hW : (e * ((Mg : ℤ) - (i : ℤ))).natAbs ≤ 2 * φ.M := by
      rcases he1 with h | h <;> rw [h] <;> omega
    have hWb : (e * ((Mg : ℤ) - (i : ℤ))).natAbs * 2 ^ ((mx - 1) / φ.M - 1) ≤
        φ.Km φ.maxFinMag := by
      have h1 : (e * ((Mg : ℤ) - (i : ℤ))).natAbs ≤ Mg := by
        rcases he1 with h | h <;> rw [h] <;> omega
      calc (e * ((Mg : ℤ) - (i : ℤ))).natAbs * 2 ^ ((mx - 1) / φ.M - 1) ≤
          Mg * 2 ^ ((mx - 1) / φ.M - 1) := Nat.mul_le_mul_right _ h1
        _ = φ.Km mx := by rw [hKmmx, hSKpow]
        _ ≤ φ.Km φ.maxFinMag := φ.Km_le_KmMax_of_le hmxle
    obtain ⟨vF, hKzvF, hvFle, hvF0, _⟩ := φ.exists_pattern_of_Kz hW hWb
    refine ⟨vF, ?_, ?_, hvFle⟩
    · rw [hget, hB, hCeq, hEeq]
      unfold FpFormat.fmulAdd
      rw [if_neg hz0]
      refine congrArg some ?_
      apply φ.roundP_exact (Nat.mul_pos hKD hKD) (le_trans hvFle φ.maxFinMag_le_infMag) hvF0
      rw [hzval, hKzvF, hSKpow]
      push_cast
      ring
    · rw [hKzvF, hKzst, hKzsp, hSKpow]
      push_cast
      ring

end FloatSamplers

/-! ## Range bounds for lattice values -/

namespace FloatSamplers

namespace FpFormat

variable (φ : FpFormat)

theorem lt_div_add_one_mul (a b : ℕ) (hb : 0 < b) : a < (a / b + 1) * b := by
  have h := Nat.div_add_mod a b
  have h2 := Nat.mod_lt a hb
  have h3 : (a / b + 1) * b = b * (a / b) + b := by ring
  omega

/-- The smaller bound lies strictly below the `(floor + 1)`-th lattice line. -/
theorem mn_lt_floor_succ {mnK xmK SK : ℕ} (hKD : 0 < φ.KD) (hSK : 0 < SK)
    (hM : φ.M < φ.KD)
    (hdich : xmK * SK = mnK * φ.KD ∨ (mnK * φ.KD ≤ φ.M * SK ∧ xmK ≤ φ.M)) :
    mnK < (xmK / φ.KD + 1) * SK := by
  rcases hdich with he | ⟨ht, _⟩
  · have h1 : xmK < (xmK / φ.KD + 1) * φ.KD := lt_div_add_one_mul xmK φ.KD hKD
    have h2 : mnK * φ.KD < (xmK / φ.KD + 1) * SK * φ.KD := by
      calc mnK * φ.KD = xmK * SK := he.symm
        _ < (xmK / φ.KD + 1) * φ.KD * SK := (Nat.mul_lt_mul_right hSK).2 h1
        _ = (xmK / φ.KD + 1) * SK * φ.KD := by ring
    exact Nat.lt_of_mul_lt_mul_right h2
  · have h1 : mnK * φ.KD < φ.KD * SK :=
      lt_of_le_of_lt ht ((Nat.mul_lt_mul_right hSK).2 hM)
    have h2 : mnK < SK := by
      by_contra h
      push_neg at h
      have h3 : SK * φ.KD ≤ mnK * φ.KD := Nat.mul_le_mul_right φ.KD h
      have h4 : SK * φ.KD = φ.KD * SK := Nat.mul_comm _ _
      omega
    calc mnK < SK := h2
      _ ≤ (xmK / φ.KD + 1) * SK := Nat.le_mul_of_pos_left SK (Nat.succ_pos _)

/-- The smaller bound lies at or above the `(ceil - 1)`-th lattice line. -/
theorem ceil_pred_le_mn {mnK xmK SK : ℕ} (hKD : 0 < φ.KD) (hSK : 0 < SK)
    (hM : φ.M < φ.KD)
    (hdich : xmK * SK = mnK * φ.KD ∨ (mnK * φ.KD ≤ φ.M * SK ∧ xmK ≤ φ.M)) :
    ((xmK + φ.KD - 1) / φ.KD - 1) * SK ≤ mnK := by
  rcases Nat.eq_zero_or_pos xmK with h0 | hpos
  · have h1 : (xmK + φ.KD - 1) / φ.KD = 0 := by
      rw [h0]
      exact Nat.div_eq_of_lt (by omega)
    rw [h1]
    simp
  · have hCeq : (xmK + φ.KD - 1) / φ.KD = (xmK - 1) / φ.KD + 1 := by
      rw [show xmK + φ.KD - 1 = xmK - 1 + φ.KD by omega, Nat.add_div_right _ hKD]
    have hC1 : ((xmK + φ.KD - 1) / φ.KD - 1) * φ.KD < xmK := by
      rw [hCeq, Nat.add_sub_cancel]
      have h2 : (xmK - 1) / φ.KD * φ.KD ≤ xmK - 1 := Nat.div_mul_le_self _ _
      omega
    rcases hdich with he | ⟨ht, hxm⟩
    · have h2 : ((xmK + φ.KD - 1) / φ.KD - 1) * SK * φ.KD < mnK * φ.KD := by
        calc ((xmK + φ.KD - 1) / φ.KD - 1) * SK * φ.KD
            = ((xmK + φ.KD - 1) / φ.KD - 1) * φ.KD * SK := by ring
          _ < xmK * SK := (Nat.mul_lt_mul_right hSK).2 hC1
          _ = mnK * φ.KD := he
      exact le_of_lt (Nat.lt_of_mul_lt_mul_right h2)
    · have hC2 : (xmK + φ.KD - 1) / φ.KD ≤ 1 := by
        have h3 : xmK + φ.KD - 1 < 2 * φ.KD := by omega
        by_contra h4
        push_neg at h4
        have h5 : 2 * φ.KD ≤ xmK + φ.KD - 1 := by
          calc 2 * φ.KD = 2 * φ.KD := rfl
            _ ≤ (xmK + φ.KD - 1) / φ.KD * φ.KD := Nat.mul_le_mul_right _ h4
            _ ≤ xmK + φ.KD - 1 := Nat.div_mul_le_self _ _
        omega
      have h6 : (xmK + φ.KD - 1) / φ.KD - 1 = 0 := by omega
      rw [h6]
      simp

end FpFormat

/-- Signs and values of start, step and end of a multi-point lattice. -/
theorem lattice_sign (φ : FpFormat) (hv : φ.Valid) {low high : Fp}
    (hle : φ.Kz low ≤ φ.Kz high) (lf : LatticeFacts φ low high)
    (hc2 : 1 < lf.c.count) :
    ∃ e : ℤ, ((e = 1 ∧ lf.c.start = high ∧ lf.c.end_ = low) ∨
        (e = -1 ∧ lf.c.start = low ∧ lf.c.end_ = high)) ∧
      φ.Kz lf.c.start = e * (φ.Km (φ.mxMag low high) : ℤ) ∧
      φ.Kz lf.c.step = -(e * (φ.spaceK (φ.mxMag low high - 1) : ℤ)) ∧
      φ.Kz lf.c.end_ =
        (if low.sign = high.sign then e else -e) * (φ.Km (φ.mnMag low high) : ℤ) := by
  have hne : φ.Kz low ≠ φ.Kz high := by
    intro h
    have h1 := (count_eq_one_iff φ hv lf).2 h
    omega
  by_cases hc : φ.Km low.mag < φ.Km high.mag
  · have hsh : high.sign = false := by
      cases hsh : high.sign
      · rfl
      · exfalso
        cases hsl : low.sign
        · rw [Kz_of_sign_false φ hsl, Kz_of_sign_true φ hsh] at hle
          omega
        · rw [Kz_of_sign_true φ hsl, Kz_of_sign_true φ hsh] at hle
          omega
    have hmx : φ.mxMag low high = high.mag := by
      unfold FpFormat.mxMag
      rw [if_pos hc]
    have hmn : φ.mnMag low high = low.mag := by
      unfold FpFormat.mnMag
      rw [if_neg (by omega)]
    have hstart : lf.c.start = high := by rw [lf.hstart, if_pos hc]
    have hend : lf.c.end_ = low := by rw [lf.hend, if_pos hc]
    refine ⟨1, Or.inl ⟨rfl, hstart, hend⟩, ?_, ?_, ?_⟩
    · rw [hstart, hmx, Kz_of_sign_false φ hsh]
      ring
    · have hspg : lf.c.step = ⟨true, lf.gm⟩ := by rw [lf.hstep, if_pos hc]
      rw [hspg, φ.Kz_mk_true, lf.hgm, hmx]
      ring
    · rw [hend, hmn]
      cases hsl : low.sign
      · rw [if_pos (show false = high.sign from hsh.symm), Kz_of_sign_false φ hsl]
        ring
      · rw [if_neg (show ¬ (true = high.sign) by rw [hsh]; simp),
          Kz_of_sign_true φ hsl]
        ring
  · have hsl : low.sign = true := by
      cases hsl : low.sign
      · exfalso
        cases hsh : high.sign
        · rw [Kz_of_sign_false φ hsl, Kz_of_sign_false φ hsh] at hle hne
          have h2 : ¬ φ.Km low.mag < φ.Km high.mag := hc
          omega
        · rw [Kz_of_sign_false φ hsl, Kz_of_sign_true φ hsh] at hle hne
          omega
      · rfl
    have hmx : φ.mxMag low high = low.mag := by
      unfold FpFormat.mxMag
      rw [if_neg hc]
    have hmnK : φ.Km (φ.mnMag low high) = φ.Km high.mag := by
      unfold FpFormat.mnMag
      split
      · rfl
      · have : φ.Km high.mag = φ.Km low.mag := by omega
        omega
    have hstart : lf.c.start = low := by rw [lf.hstart, if_neg hc]
    have hend : lf.c.end_ = high := by rw [lf.hend, if_neg hc]
    refine ⟨-1, Or.inr ⟨rfl, hstart, hend⟩, ?_, ?_, ?_⟩
    · rw [hstart, hmx, Kz_of_sign_true φ hsl]
      ring
    · have hspg : lf.c.step = ⟨false, lf.gm⟩ := by rw [lf.hstep, if_neg hc]
      rw [hspg, φ.Kz_mk_false, lf.hgm, hmx]
      ring
    · rw [hend, hmnK]
      cases hsh : high.sign
      · rw [if_neg (show ¬ (low.sign = false) by rw [hsl]; simp),
          Kz_of_sign_false φ hsh]
        ring
      · rw [if_pos (show low.sign = true from hsl), Kz_of_sign_true φ hsh]
        ring

end FloatSamplers

namespace FloatSamplers

/-- Every lattice index yields a value inside `[low, high]`. -/
theorem get_range (φ : FpFormat) (hv : φ.Valid) {low high : Fp}
    (hl : φ.isFinite low) (hh : φ.isFinite high) (hle : φ.Kz low ≤ φ.Kz high)
    (lf : LatticeFacts φ low high) {i : ℕ} (hi : i < lf.c.count) :
    ∃ v : Fp, lf.c.get φ i = some v ∧ φ.Kz low ≤ φ.Kz v ∧ φ.Kz v ≤ φ.Kz high := by
  by_cases hlast : i = lf.c.count - 1
  · refine ⟨lf.c.end_, ?_, ?_, ?_⟩
    · unfold SampleValueCollection.get
      rw [if_neg (not_not_intro hi), if_pos hlast]
    · rw [lf.hend]
      split
      · exact le_refl _
      · exact hle
    · rw [lf.hend]
      split
      · exact hle
      · exact le_refl _
  · have hi2 : i < lf.c.count - 1 := by omega
    have hc2 : 1 < lf.c.count := by omega
    obtain ⟨v, hg, hKzv, _⟩ := get_spec φ hv hl hh hle lf hi2
    obtain ⟨e, hcase, hKzst, hKzsp, hKzend⟩ := lattice_sign φ hv hle lf hc2
    have hKD := φ.KD_pos
    have hMKD := φ.valid_M_lt_KD hv
    obtain ⟨mx, hmxd⟩ : ∃ x, x = φ.mxMag low high := ⟨_, rfl⟩
    obtain ⟨Mg, hMgd⟩ : ∃ g, g = φ.Km mx / φ.spaceK (mx - 1) := ⟨_, rfl⟩
    obtain ⟨F, hFd⟩ : ∃ f, f = φ.Km lf.xm / φ.KD := ⟨_, rfl⟩
    obtain ⟨C, hCd⟩ : ∃ cc, cc = (φ.Km lf.xm + φ.KD - 1) / φ.KD := ⟨_, rfl⟩
    have hSK : 0 < φ.spaceK (mx - 1) := φ.spaceK_pos _
    have hKmmx : φ.Km mx = Mg * φ.spaceK (mx - 1) := by rw [hMgd, hmxd]; exact lf.hKmmx
    have hdich : φ.Km lf.xm * φ.spaceK (mx - 1) = φ.Km (φ.mnMag low high) * φ.KD ∨
        (φ.Km (φ.mnMag low high) * φ.KD ≤ φ.M * φ.spaceK (mx - 1) ∧ lf.xm ≤ φ.M) := by
      rw [hmxd]; exact lf.hdichot
    have hcount : lf.c.count = (if low.sign = high.sign
        then Mg - F else Mg + C) + 1 := by
      rw [hMgd, hmxd, hFd, hCd]; exact lf.hcount
    have hdichK : φ.Km lf.xm * φ.spaceK (mx - 1) = φ.Km (φ.mnMag low high) * φ.KD ∨
        (φ.Km (φ.mnMag low high) * φ.KD ≤ φ.M * φ.spaceK (mx - 1) ∧
          φ.Km lf.xm ≤ φ.M) := by
      rcases hdich with h | ⟨h1, h2⟩
      · exact Or.inl h
      · exact Or.inr ⟨h1, le_of_le_of_eq ((φ.Km_le_Km_iff).2 h2) φ.Km_M_self⟩
    have hL1 : (φ.Km (φ.mnMag low high) : ℤ) <
        ((F : ℤ) + 1) * (φ.spaceK (mx - 1) : ℤ) := by
      have h1 : φ.Km (φ.mnMag low high) < (F + 1) * φ.spaceK (mx - 1) := by
        rw [hFd]
        exact φ.mn_lt_floor_succ hKD hSK hMKD hdichK
      exact_mod_cast h1
    have hL2 : ((C : ℤ) - 1) * (φ.spaceK (mx - 1) : ℤ) ≤
        (φ.Km (φ.mnMag low high) : ℤ) := by
      have h1 : (C - 1) * φ.spaceK (mx - 1) ≤ φ.Km (φ.mnMag low high) := by
        rw [hCd]
        exact φ.ceil_pred_le_mn hKD hSK hMKD hdichK
      rcases Nat.eq_zero_or_pos C with h0 | h0
      · rw [h0]
        have h2 : (0 : ℤ) ≤ (φ.Km (φ.mnMag low high) : ℤ) := by positivity
        have h3 : (0 : ℤ) ≤ (φ.spaceK (mx - 1) : ℤ) := by positivity
        push_cast
        nlinarith
      · have h2 : ((C - 1 : ℕ) : ℤ) = (C : ℤ) - 1 := by
          exact_mod_cast Nat.cast_sub h0
        rw [← h2]
        exact_mod_cast h1
    have hKzv2 : φ.Kz v = e * ((Mg : ℤ) - (i : ℤ)) * (φ.spaceK (mx - 1) : ℤ) := by
      rw [hKzv, hKzst, hKzsp, ← hmxd, hKmmx]
      push_cast
      ring
    have hS0 : (0 : ℤ) ≤ (φ.spaceK (mx - 1) : ℤ) := by positivity
    have hnum : (low.sign = high.sign → (i : ℤ) + (F : ℤ) + 1 ≤ (Mg : ℤ)) ∧
        (¬ low.sign = high.sign → (i : ℤ) ≤ (Mg : ℤ) + (C : ℤ) - 1) := by
      rw [hcount] at hi2
      constructor
      · intro hs
        rw [if_pos hs] at hi2
        have h1 : i + F + 1 ≤ Mg := by omega
        exact_mod_cast h1
      · intro hs
        rw [if_neg hs] at hi2
        have h1 : i + 1 ≤ Mg + C := by omega
        omega
    have hKmn0 : (0 : ℤ) ≤ (φ.Km (φ.mnMag low high) : ℤ) := by positivity
    rcases hcase with ⟨he, hsh, heq⟩ | ⟨he, hsl, heq⟩
    · -- start = high (positive anchor)
      rw [hsh] at hKzst
      rw [heq] at hKzend
      have hKzhigh : φ.Kz high = (φ.Km mx : ℤ) := by
        rw [hKzst, he, ← hmxd]
        ring
      refine ⟨v, hg, ?_, ?_⟩
      · -- lower bound
        by_cases hs : low.sign = high.sign
        · have hKzlow : φ.Kz low = (φ.Km (φ.mnMag low high) : ℤ) := by
            rw [hKzend, if_pos hs, he]
            ring
          calc φ.Kz low = (φ.Km (φ.mnMag low high) : ℤ) := hKzlow
            _ ≤ ((F : ℤ) + 1) * (φ.spaceK (mx - 1) : ℤ) := le_of_lt hL1
            _ ≤ ((Mg : ℤ) - i) * (φ.spaceK (mx - 1) : ℤ) :=
                mul_le_mul_of_nonneg_right (by have := hnum.1 hs; omega) hS0
            _ = φ.Kz v := by rw [hKzv2, he]; ring
        · have hKzlow : φ.Kz low = -(φ.Km (φ.mnMag low high) : ℤ) := by
            rw [hKzend, if_neg hs, he]
            ring
          calc φ.Kz low = -(φ.Km (φ.mnMag low high) : ℤ) := hKzlow
            _ ≤ -(((C : ℤ) - 1) * (φ.spaceK (mx - 1) : ℤ)) := neg_le_neg hL2
            _ = (1 - (C : ℤ)) * (φ.spaceK (mx - 1) : ℤ) := by ring
            _ ≤ ((Mg : ℤ) - i) * (φ.spaceK (mx - 1) : ℤ) :=
                mul_le_mul_of_nonneg_right (by have := hnum.2 hs; omega) hS0
            _ = φ.Kz v := by rw [hKzv2, he]; ring
      · -- upper bound
        calc φ.Kz v = ((Mg : ℤ) - i) * (φ.spaceK (mx - 1) : ℤ) := by rw [hKzv2, he]; ring
          _ ≤ (Mg : ℤ) * (φ.spaceK (mx - 1) : ℤ) :=
              mul_le_mul_of_nonneg_right (by omega) hS0
          _ = (φ.Km mx : ℤ) := by rw [hKmmx]; push_cast; ring
          _ = φ.Kz high := hKzhigh.symm
    · -- start = low (negative anchor)
      rw [hsl] at hKzst
      rw [heq] at hKzend
      have hKzlow : φ.Kz low = -(φ.Km mx : ℤ) := by
        rw [hKzst, he, ← hmxd]
        ring
      refine ⟨v, hg, ?_, ?_⟩
      · calc φ.Kz low = -(φ.Km mx : ℤ) := hKzlow
          _ = -((Mg : ℤ) * (φ.spaceK (mx - 1) : ℤ)) := by rw [hKmmx]; push_cast; ring
          _ ≤ -(((Mg : ℤ) - i) * (φ.spaceK (mx - 1) : ℤ)) :=
              neg_le_neg (mul_le_mul_of_nonneg_right (by omega) hS0)
          _ = φ.Kz v := by rw [hKzv2, he]; ring
      · by_cases hs : low.sign = high.sign
        · have hKzhigh : φ.Kz high = -(φ.Km (φ.mnMag low high) : ℤ) := by
            rw [hKzend, if_pos hs, he]
            ring
          calc φ.Kz v = -(((Mg : ℤ) - i) * (φ.spaceK (mx - 1) : ℤ)) := by
                rw [hKzv2, he]; ring
            _ ≤ -(((F : ℤ) + 1) * (φ.spaceK (mx - 1) : ℤ)) :=
                neg_le_neg (mul_le_mul_of_nonneg_right (by have := hnum.1 hs; omega) hS0)
            _ ≤ -(φ.Km (φ.mnMag low high) : ℤ) := neg_le_neg (le_of_lt hL1)
            _ = φ.Kz high := hKzhigh.symm
        · have hKzhigh : φ.Kz high = (φ.Km (φ.mnMag low high) : ℤ) := by
            rw [hKzend, if_neg hs, he]
            ring
          calc φ.Kz v = -(((Mg : ℤ) - i) * (φ.spaceK (mx - 1) : ℤ)) := by
                rw [hKzv2, he]; ring
            _ ≤ -((1 - (C : ℤ)) * (φ.spaceK (mx - 1) : ℤ)) :=
                neg_le_neg (mul_le_mul_of_nonneg_right (by have := hnum.2 hs; omega) hS0)
            _ = ((C : ℤ) - 1) * (φ.spaceK (mx - 1) : ℤ) := by ring
            _ ≤ (φ.Km (φ.mnMag low high) : ℤ) := hL2
            _ = φ.Kz high := hKzhigh.symm

end FloatSamplers

/-! ## The final lattice gap -/

namespace FloatSamplers

namespace FpFormat

variable (φ : FpFormat)

/-- If a magnitude rounds to zero, the value was at most half a subnormal. -/
theorem roundMagP_eq_zero_le (hM : 2 ≤ φ.M) (hinf : 1 ≤ φ.infMag) {n d : ℕ}
    (h : φ.roundMagP n d = 0) : 2 * (n * φ.KD) ≤ d := by
  simp only [roundMagP] at h
  set g := φ.magOfK (n * φ.KD / d) with hgd
  rcases Nat.min_eq_zero_iff.1 h with hr | hr
  swap
  · omega
  split_ifs at hr with h1 h2 h3
  all_goals try exact absurd hr (by omega)
  all_goals rw [hr] at h1
  all_goals simp only [Nat.zero_add] at h1
  all_goals rw [φ.Km_zero, φ.Km_one hM] at h1
  all_goals try rw [hr] at h2
  all_goals try simp only [Nat.zero_add] at h2
  all_goals try rw [φ.Km_zero, φ.Km_one hM] at h2
  all_goals omega

/-- Relative spacing: a magnitude is worth less than `2M` of its own spaces. -/
theorem Km_lt_twoM_spaceK (m : ℕ) : φ.Km m < 2 * φ.M * φ.spaceK m := by
  have hM := φ.M_pos
  have hmod : m % φ.M < φ.M := Nat.mod_lt _ hM
  unfold Km spaceK
  split
  · rename_i h
    rw [h]
    norm_num
    omega
  · have hp : 0 < 2 ^ (m / φ.M - 1) := Nat.pos_pow_of_pos _ (by norm_num)
    calc (φ.M + m % φ.M) * 2 ^ (m / φ.M - 1) < 2 * φ.M * 2 ^ (m / φ.M - 1) :=
        (Nat.mul_lt_mul_right hp).2 (by omega)
      _ = 2 * φ.M * 2 ^ (m / φ.M - 1) := rfl

/-- `2M ≤ 2^D` for a valid format. -/
theorem valid_twoM_le_KD (hv : φ.Valid) : 2 * φ.M ≤ φ.KD := by
  have h1 : φ.mbits + 1 ≤ φ.D := by
    unfold FpFormat.D
    have := hv.1
    have := hv.2.2
    omega
  calc 2 * φ.M = 2 ^ (φ.mbits + 1) := by
        show 2 * 2 ^ φ.mbits = 2 ^ (φ.mbits + 1)
        rw [pow_succ]
        ring
    _ ≤ 2 ^ φ.D := Nat.pow_le_pow_right (by norm_num) h1
    _ = φ.KD := rfl

theorem roundP_mag (z : ℤ) (d : ℕ) : (φ.roundP z d).mag = φ.roundMagP z.natAbs d := by
  unfold FpFormat.roundP
  split_ifs with h
  · show φ.roundMagP (-z).toNat d = φ.roundMagP z.natAbs d
    congr 1
    omega
  · show φ.roundMagP z.toNat d = φ.roundMagP z.natAbs d
    congr 1
    omega

/-- Below the floor lattice line times the gap is at most the smaller bound. -/
theorem floor_mul_le_mn {mnK xmK SK : ℕ} (hKD : 0 < φ.KD) (hSK : 0 < SK)
    (hM : φ.M < φ.KD)
    (hdich : xmK * SK = mnK * φ.KD ∨ (mnK * φ.KD ≤ φ.M * SK ∧ xmK ≤ φ.M)) :
    xmK / φ.KD * SK ≤ mnK := by
  rcases hdich with he | ⟨ht, hxm⟩
  · have h1 : xmK / φ.KD * φ.KD ≤ xmK := Nat.div_mul_le_self _ _
    have h2 : xmK / φ.KD * SK * φ.KD ≤ mnK * φ.KD := by
      calc xmK / φ.KD * SK * φ.KD = xmK / φ.KD * φ.KD * SK := by ring
        _ ≤ xmK * SK := Nat.mul_le_mul_right _ h1
        _ = mnK * φ.KD := he
    exact Nat.le_of_mul_le_mul_right h2 hKD
  · have h1 : xmK / φ.KD = 0 := Nat.div_eq_of_lt (by omega)
    rw [h1, Nat.zero_mul]
    exact Nat.zero_le _

/-- The smaller bound is at most the ceil lattice line times the gap
(provided the ceil is at least one). -/
theorem mn_le_ceil_mul {mnK xmK SK : ℕ} (hKD : 0 < φ.KD) (hSK : 0 < SK)
    (hM : φ.M < φ.KD)
    (hdich : xmK * SK = mnK * φ.KD ∨ (mnK * φ.KD ≤ φ.M * SK ∧ xmK ≤ φ.M))
    (hC : 1 ≤ (xmK + φ.KD - 1) / φ.KD) :
    mnK ≤ (xmK + φ.KD - 1) / φ.KD * SK := by
  rcases hdich with he | ⟨ht, hxm⟩
  · have h1 : xmK + φ.KD - 1 < ((xmK + φ.KD - 1) / φ.KD + 1) * φ.KD :=
      lt_div_add_one_mul _ _ hKD
    have h2 : xmK ≤ (xmK + φ.KD - 1) / φ.KD * φ.KD := by
      have h3 : ((xmK + φ.KD - 1) / φ.KD + 1) * φ.KD =
          (xmK + φ.KD - 1) / φ.KD * φ.KD + φ.KD := by ring
      omega
    have h4 : mnK * φ.KD ≤ (xmK + φ.KD - 1) / φ.KD * SK * φ.KD := by
      calc mnK * φ.KD = xmK * SK := he.symm
        _ ≤ (xmK + φ.KD - 1) / φ.KD * φ.KD * SK := Nat.mul_le_mul_right _ h2
        _ = (xmK + φ.KD - 1) / φ.KD * SK * φ.KD := by ring
    exact Nat.le_of_mul_le_mul_right h4 hKD
  · have h1 : mnK * φ.KD < φ.KD * SK :=
      lt_of_le_of_lt ht ((Nat.mul_lt_mul_right hSK).2 hM)
    have h2 : mnK < SK := by
      by_contra h
      push_neg at h
      have h3 : SK * φ.KD ≤ mnK * φ.KD := Nat.mul_le_mul_right φ.KD h
      have h4 : SK * φ.KD = φ.KD * SK := Nat.mul_comm _ _
      omega
    calc mnK ≤ SK := le_of_lt h2
      _ ≤ (xmK + φ.KD - 1) / φ.KD * SK := Nat.le_mul_of_pos_left SK hC

/-- Strict version: the smaller bound lies strictly above the
`(ceil - 1)`-th lattice line when the ceil is at least one. -/
theorem ceil_pred_lt_mn {mnK xmK SK : ℕ} (hKD : 0 < φ.KD) (hSK : 0 < SK)
    (hM : φ.M < φ.KD)
    (hdich : xmK * SK = mnK * φ.KD ∨ (mnK * φ.KD ≤ φ.M * SK ∧ xmK ≤ φ.M))
    (h0 : mnK = 0 → xmK = 0)
    (hC : 1 ≤ (xmK + φ.KD - 1) / φ.KD) :
    ((xmK + φ.KD - 1) / φ.KD - 1) * SK < mnK := by
  have hx1 : 1 ≤ xmK := by
    by_contra h
    push_neg at h
    have h1 : xmK = 0 := by omega
    rw [h1] at hC
    have h2 : (0 + φ.KD - 1) / φ.KD = 0 := Nat.div_eq_of_lt (by omega)
    omega
  have hCeq : (xmK + φ.KD - 1) / φ.KD = (xmK - 1) / φ.KD + 1 := by
    rw [show xmK + φ.KD - 1 = xmK - 1 + φ.KD by omega, Nat.add_div_right _ hKD]
  rcases hdich with he | ⟨ht, hxm⟩
  · have h1 : ((xmK + φ.KD - 1) / φ.KD - 1) * φ.KD < xmK := by
      rw [hCeq, Nat.add_sub_cancel]
      have h2 : (xmK - 1) / φ.KD * φ.KD ≤ xmK - 1 := Nat.div_mul_le_self _ _
      omega
    have h3 : ((xmK + φ.KD - 1) / φ.KD - 1) * SK * φ.KD < mnK * φ.KD := by
      calc ((xmK + φ.KD - 1) / φ.KD - 1) * SK * φ.KD
          = ((xmK + φ.KD - 1) / φ.KD - 1) * φ.KD * SK := by ring
        _ < xmK * SK := (Nat.mul_lt_mul_right hSK).2 h1
        _ = mnK * φ.KD := he
    exact Nat.lt_of_mul_lt_mul_right h3
  · have hC2 : (xmK + φ.KD - 1) / φ.KD ≤ 1 := by
      have h3 : xmK + φ.KD - 1 < 2 * φ.KD := by omega
      by_contra h4
      push_neg at h4
      have h5 : 2 * φ.KD ≤ xmK + φ.KD - 1 := by
        calc 2 * φ.KD ≤ (xmK + φ.KD - 1) / φ.KD * φ.KD := Nat.mul_le_mul_right _ h4
          _ ≤ xmK + φ.KD - 1 := Nat.div_mul_le_self _ _
      omega
    have h6 : (xmK + φ.KD - 1) / φ.KD - 1 = 0 := by omega
    rw [h6, Nat.zero_mul]
    by_contra h7
    push_neg at h7
    have h8 : mnK = 0 := by omega
    have h9 := h0 h8
    omega

/-- Bounds for an exact float subtraction whose magnitude stays at or below
a representable magnitude `g`. -/
theorem fsub_bounds {a b : Fp} {g : ℕ} (hv : φ.Valid)
    (hgle : g ≤ φ.maxFinMag)
    (hne : φ.Kz a - φ.Kz b ≠ 0)
    (hDle : (φ.Kz a - φ.Kz b).natAbs ≤ φ.Km g) :
    1 ≤ (φ.fsub a b).mag ∧ φ.Km (φ.fsub a b).mag ≤ φ.Km g := by
  have hKD := φ.KD_pos
  have hM2 := φ.valid_two_le_M hv
  have hinf : 1 ≤ φ.infMag := infMag_pos φ hv
  rw [φ.fsub_of_ne hne]
  rw [φ.roundP_mag]
  have hD1 : 1 ≤ (φ.Kz a - φ.Kz b).natAbs := by omega
  constructor
  · apply φ.one_le_roundMagP hM2 hinf
    have h1 : φ.KD < 2 * φ.KD := by omega
    calc φ.KD < 2 * φ.KD := h1
      _ ≤ 2 * ((φ.Kz a - φ.Kz b).natAbs * φ.KD) := by
          have h2 : φ.KD ≤ (φ.Kz a - φ.Kz b).natAbs * φ.KD :=
            Nat.le_mul_of_pos_left φ.KD (by omega)
          omega
  · have h3 : φ.roundMagP (φ.Kz a - φ.Kz b).natAbs φ.KD ≤ g :=
      φ.roundMagP_le_exact hKD (Nat.mul_le_mul_right _ hDle)
    exact (φ.Km_le_Km_iff).2 h3

/-- An exact float subtraction that overshoots `g` by less than half a space
of `g` rounds to exactly `g`. -/
theorem fsub_eq_near {a b : Fp} {g extra : ℕ} (hv : φ.Valid)
    (hgle : g ≤ φ.maxFinMag)
    (habs : (φ.Kz a - φ.Kz b).natAbs = φ.Km g + extra)
    (hg1 : 1 ≤ φ.Km g)
    (hextra : 2 * extra < φ.spaceK g) :
    1 ≤ (φ.fsub a b).mag ∧ φ.Km (φ.fsub a b).mag ≤ φ.Km g := by
  have hKD := φ.KD_pos
  have hne : φ.Kz a - φ.Kz b ≠ 0 := by
    intro h
    rw [h] at habs
    simp at habs
    omega
  rw [φ.fsub_of_ne hne, φ.roundP_mag, habs]
  have hmag : φ.roundMagP (φ.Km g + extra) φ.KD = g := by
    apply φ.roundMagP_eq_of_lt_half_up hKD (le_trans hgle φ.maxFinMag_le_infMag)
    · exact Nat.mul_le_mul_right _ (by omega)
    · calc 2 * ((φ.Km g + extra) * φ.KD) = (2 * φ.Km g + 2 * extra) * φ.KD := by ring
        _ < (2 * φ.Km g + φ.spaceK g) * φ.KD :=
            (Nat.mul_lt_mul_right hKD).2 (by omega)
  rw [hmag]
  constructor
  · by_contra h
    push_neg at h
    have h1 : g = 0 := by omega
    rw [h1, φ.Km_zero] at hg1
    omega
  · exact le_refl _

end FpFormat

end FloatSamplers

namespace FloatSamplers

/-- Consecutive regular lattice values differ by exactly `step`. -/
theorem get_step (φ : FpFormat) (hv : φ.Valid) {low high : Fp}
    (hl : φ.isFinite low) (hh : φ.isFinite high) (hle : φ.Kz low ≤ φ.Kz high)
    (lf : LatticeFacts φ low high) {i : ℕ} (hi : i + 1 < lf.c.count - 1) :
    ∃ v w : Fp, lf.c.get φ i = some v ∧ lf.c.get φ (i + 1) = some w ∧
      φ.fsub w v = lf.c.step := by
  obtain ⟨v, hgv, hKzv, _⟩ :=
    get_spec φ hv hl hh hle lf (show i < lf.c.count - 1 by omega)
  obtain ⟨w, hgw, hKzw, _⟩ := get_spec φ hv hl hh hle lf hi
  refine ⟨v, w, hgv, hgw, ?_⟩
  have hdiff : φ.Kz w - φ.Kz v = φ.Kz lf.c.step := by
    rw [hKzw, hKzv]
    push_cast
    ring
  have hKmgm : 1 ≤ φ.Km lf.gm := by
    have h1 := (φ.Km_le_Km_iff).2 lf.hgm1
    rw [φ.Km_one (φ.valid_two_le_M hv)] at h1
    exact h1
  have hKzstep_ne : φ.Kz lf.c.step ≠ 0 := by
    rw [lf.hstep]
    split
    · rw [φ.Kz_mk_true]
      omega
    · rw [φ.Kz_mk_false]
      omega
  have hstepmagle : lf.c.step.mag ≤ φ.maxFinMag := by
    rw [lf.hstep]
    split
    · exact lf.hgmle
    · exact lf.hgmle
  rw [φ.fsub_of_ne (by omega)]
  apply φ.roundP_exact φ.KD_pos (le_trans hstepmagle φ.maxFinMag_le_infMag)
  · intro h0
    exact absurd ((φ.Kz_eq_zero_iff _).2 h0) hKzstep_ne
  · rw [hdiff]

/-- The final gap: the step from the second-to-last lattice value to the exact
endpoint is nonzero and no larger than the lattice gap. -/
theorem final_gap (φ : FpFormat) (hv : φ.Valid) {low high : Fp}
    (hl : φ.isFinite low) (hh : φ.isFinite high) (hle : φ.Kz low ≤ φ.Kz high)
    (lf : LatticeFacts φ low high) (hc2 : 1 < lf.c.count) :
    ∃ v : Fp, lf.c.get φ (lf.c.count - 2) = some v ∧
      lf.c.get φ (lf.c.count - 1) = some lf.c.end_ ∧
      1 ≤ (φ.fsub lf.c.end_ v).mag ∧
      φ.Km (φ.fsub lf.c.end_ v).mag ≤ φ.Km lf.c.step.mag := by
  have hKD := φ.KD_pos
  have hM2 := φ.valid_two_le_M hv
  have hMKD := φ.valid_M_lt_KD hv
  have h2MKD := φ.valid_twoM_le_KD hv
  obtain ⟨v, hgv, hKzv, _⟩ :=
    get_spec φ hv hl hh hle lf (show lf.c.count - 2 < lf.c.count - 1 by omega)
  have hglast : lf.c.get φ (lf.c.count - 1) = some lf.c.end_ := by
    unfold SampleValueCollection.get
    rw [if_neg (not_not_intro (show lf.c.count - 1 < lf.c.count by omega)), if_pos rfl]
  obtain ⟨e, hcase, hKzst, hKzsp, hKzend⟩ := lattice_sign φ hv hle lf hc2
  have he1 : e = 1 ∨ e = -1 := by
    rcases hcase with ⟨h, _, _⟩ | ⟨h, _, _⟩
    · exact Or.inl h
    · exact Or.inr h
  obtain ⟨mx, hmxd⟩ : ∃ x, x = φ.mxMag low high := ⟨_, rfl⟩
  obtain ⟨Mg, hMgd⟩ : ∃ g, g = φ.Km mx / φ.spaceK (mx - 1) := ⟨_, rfl⟩
  obtain ⟨F, hFd⟩ : ∃ f, f = φ.Km lf.xm / φ.KD := ⟨_, rfl⟩
  obtain ⟨C, hCd⟩ : ∃ cc, cc = (φ.Km lf.xm + φ.KD - 1) / φ.KD := ⟨_, rfl⟩
  obtain ⟨N, hNd⟩ : ∃ nn, nn = lf.c.count - 2 := ⟨_, rfl⟩
  have hSK : 0 < φ.spaceK (mx - 1) := φ.spaceK_pos _
  have hKmmx : φ.Km mx = Mg * φ.spaceK (mx - 1) := by rw [hMgd, hmxd]; exact lf.hKmmx
  have hdich : φ.Km lf.xm * φ.spaceK (mx - 1) = φ.Km (φ.mnMag low high) * φ.KD ∨
      (φ.Km (φ.mnMag low high) * φ.KD ≤ φ.M * φ.spaceK (mx - 1) ∧ lf.xm ≤ φ.M) := by
    rw [hmxd]; exact lf.hdichot
  have hdichK : φ.Km lf.xm * φ.spaceK (mx - 1) = φ.Km (φ.mnMag low high) * φ.KD ∨
      (φ.Km (φ.mnMag low high) * φ.KD ≤ φ.M * φ.spaceK (mx - 1) ∧
        φ.Km lf.xm ≤ φ.M) := by
    rcases hdich with h | ⟨h1, h2⟩
    · exact Or.inl h
    · exact Or.inr ⟨h1, le_of_le_of_eq ((φ.Km_le_Km_iff).2 h2) φ.Km_M_self⟩
  have hcount : lf.c.count = (if low.sign = high.sign
      then Mg - F else Mg + C) + 1 := by
    rw [hMgd, hmxd, hFd, hCd]; exact lf.hcount
  have hgmKm : φ.Km lf.gm = φ.spaceK (mx - 1) := by rw [hmxd]; exact lf.hgm
  have hstepmag : lf.c.step.mag = lf.gm := by
    rw [lf.hstep]
    split
    · rfl
    · rfl
  have hgm1K : 1 ≤ φ.Km lf.gm := by omega
  have hxmr : lf.xm = φ.roundMagP (φ.Km (φ.mnMag low high)) (φ.spaceK (mx - 1)) := by
    rw [hmxd]; exact lf.hxm
  rw [← hNd] at hKzv
  have hKzv2 : φ.Kz v = e * ((Mg : ℤ) - (N : ℤ)) * (φ.spaceK (mx - 1) : ℤ) := by
    rw [hKzv, hKzst, hKzsp, ← hmxd, hKmmx]
    push_cast
    ring
  by_cases hs : low.sign = high.sign
  · -- same sign
    have hNval : (Mg : ℤ) - (N : ℤ) = (F : ℤ) + 1 := by
      have h1 := hcount
      rw [if_pos hs] at h1
      omega
    have hL1 : φ.Km (φ.mnMag low high) < (F + 1) * φ.spaceK (mx - 1) := by
      rw [hFd]
      exact φ.mn_lt_floor_succ hKD hSK hMKD hdichK
    have hL3 : F * φ.spaceK (mx - 1) ≤ φ.Km (φ.mnMag low high) := by
      rw [hFd]
      exact φ.floor_mul_le_mn hKD hSK hMKD hdichK
    have hexp : (F + 1) * φ.spaceK (mx - 1) = F * φ.spaceK (mx - 1) + φ.spaceK (mx - 1) := by
      ring
    have hcast1 : (((F + 1) * φ.spaceK (mx - 1) : ℕ) : ℤ) =
        ((F : ℤ) + 1) * (φ.spaceK (mx - 1) : ℤ) := by
      push_cast
      ring
    have hdelta : φ.Kz lf.c.end_ - φ.Kz v =
        e * ((φ.Km (φ.mnMag low high) : ℤ) - ((F : ℤ) + 1) * (φ.spaceK (mx - 1) : ℤ)) := by
      rw [hKzend, if_pos hs, hKzv2, hNval]
      ring
    have habs : (φ.Kz lf.c.end_ - φ.Kz v).natAbs =
        (F + 1) * φ.spaceK (mx - 1) - φ.Km (φ.mnMag low high) := by
      rw [hdelta]
      rcases he1 with h | h <;> rw [h]
      · rw [one_mul]
        omega
      · rw [neg_one_mul, Int.natAbs_neg]
        omega
    have hbounds := φ.fsub_bounds hv lf.hgmle
      (show φ.Kz lf.c.end_ - φ.Kz v ≠ 0 by omega)
      (show (φ.Kz lf.c.end_ - φ.Kz v).natAbs ≤ φ.Km lf.gm by
        rw [habs, hgmKm]
        omega)
    exact ⟨v, hgv, hglast, hbounds.1, by rw [hstepmag]; exact hbounds.2⟩
  · -- straddling zero
    have hNval : (Mg : ℤ) - (N : ℤ) = 1 - (C : ℤ) := by
      have h1 := hcount
      rw [if_neg hs] at h1
      omega
    rcases Nat.eq_zero_or_pos C with hC0 | hC1
    · -- the near-zero quotient rounds to zero
      have hKmxm0 : φ.Km lf.xm = 0 := by
        rcases Nat.eq_zero_or_pos (φ.Km lf.xm) with h | h
        · exact h
        · exfalso
          have h2 : 1 ≤ C := by
            rw [hCd]
            calc 1 = φ.KD / φ.KD := (Nat.div_self hKD).symm
              _ ≤ (φ.Km lf.xm + φ.KD - 1) / φ.KD := Nat.div_le_div_right (by omega)
          omega
      have hround0 : φ.roundMagP (φ.Km (φ.mnMag low high)) (φ.spaceK (mx - 1)) = 0 := by
        have hxm0 : lf.xm = 0 := (φ.Km_eq_Km_iff).1 (by rw [hKmxm0, φ.Km_zero])
        rw [← hxmr, hxm0]
      have hhalf : 2 * (φ.Km (φ.mnMag low high) * φ.KD) ≤ φ.spaceK (mx - 1) :=
        φ.roundMagP_eq_zero_le hM2 (infMag_pos φ hv) hround0
      have hspgm : 2 * φ.Km (φ.mnMag low high) < φ.spaceK lf.gm := by
        have h1 : φ.Km lf.gm < 2 * φ.M * φ.spaceK lf.gm := φ.Km_lt_twoM_spaceK lf.gm
        have h2 : 2 * φ.M * φ.spaceK lf.gm ≤ φ.KD * φ.spaceK lf.gm :=
          Nat.mul_le_mul_right _ h2MKD
        have h4 : 2 * φ.Km (φ.mnMag low high) * φ.KD < φ.spaceK lf.gm * φ.KD := by
          calc 2 * φ.Km (φ.mnMag low high) * φ.KD
              = 2 * (φ.Km (φ.mnMag low high) * φ.KD) := by ring
            _ ≤ φ.spaceK (mx - 1) := hhalf
            _ = φ.Km lf.gm := hgmKm.symm
            _ < 2 * φ.M * φ.spaceK lf.gm := h1
            _ ≤ φ.KD * φ.spaceK lf.gm := h2
            _ = φ.spaceK lf.gm * φ.KD := Nat.mul_comm _ _
        exact Nat.lt_of_mul_lt_mul_right h4
      have hdelta : φ.Kz lf.c.end_ - φ.Kz v =
          -(e * ((φ.Km (φ.mnMag low high) : ℤ) + (φ.spaceK (mx - 1) : ℤ))) := by
        rw [hKzend, if_neg hs, hKzv2, hNval, hC0]
        push_cast
        ring
      have habs : (φ.Kz lf.c.end_ - φ.Kz v).natAbs =
          φ.Km lf.gm + φ.Km (φ.mnMag low high) := by
        rw [hdelta, hgmKm]
        rcases he1 with h | h <;> rw [h]
        · rw [one_mul, Int.natAbs_neg]
          omega
        · rw [neg_one_mul, neg_neg]
          omega
      have hbounds := φ.fsub_eq_near hv lf.hgmle habs hgm1K hspgm
      exact ⟨v, hgv, hglast, hbounds.1, by rw [hstepmag]; exact hbounds.2⟩
    · -- the near-zero ceil is at least one
      have hC1' : 1 ≤ (φ.Km lf.xm + φ.KD - 1) / φ.KD := by omega
      have h0xm : φ.Km (φ.mnMag low high) = 0 → φ.Km lf.xm = 0 := by
        intro h
        have hxm0 : lf.xm = 0 := by
          rw [hxmr, h]
          exact φ.roundMagP_zero hM2 hSK (by omega)
        rw [hxm0, φ.Km_zero]
      have hL5 : (C - 1) * φ.spaceK (mx - 1) < φ.Km (φ.mnMag low high) := by
        rw [hCd]
        exact φ.ceil_pred_lt_mn hKD hSK hMKD hdichK h0xm hC1'
      have hL4 : φ.Km (φ.mnMag low high) ≤ C * φ.spaceK (mx - 1) := by
        rw [hCd]
        exact φ.mn_le_ceil_mul hKD hSK hMKD hdichK hC1'
      have hexp : (C - 1) * φ.spaceK (mx - 1) + φ.spaceK (mx - 1) = C * φ.spaceK (mx - 1) := by
        have h1 : C - 1 + 1 = C := by omega
        calc (C - 1) * φ.spaceK (mx - 1) + φ.spaceK (mx - 1)
            = (C - 1 + 1) * φ.spaceK (mx - 1) := by ring
          _ = C * φ.spaceK (mx - 1) := by rw [h1]
      have hcast1 : (((C - 1) * φ.spaceK (mx - 1) : ℕ) : ℤ) =
          ((C : ℤ) - 1) * (φ.spaceK (mx - 1) : ℤ) := by
        have h2 : ((C - 1 : ℕ) : ℤ) = (C : ℤ) - 1 := by
          exact_mod_cast Nat.cast_sub hC1
        push_cast [← h2]
        ring
      have hdelta : φ.Kz lf.c.end_ - φ.Kz v =
          -(e * ((φ.Km (φ.mnMag low high) : ℤ) -
            ((C : ℤ) - 1) * (φ.spaceK (mx - 1) : ℤ))) := by
        rw [hKzend, if_neg hs, hKzv2, hNval]
        ring
      have habs : (φ.Kz lf.c.end_ - φ.Kz v).natAbs =
          φ.Km (φ.mnMag low high) - (C - 1) * φ.spaceK (mx - 1) := by
        rw [hdelta]
        rcases he1 with h | h <;> rw [h]
        · rw [one_mul, Int.natAbs_neg]
          omega
        · rw [neg_one_mul, neg_neg]
          omega
      have hbounds := φ.fsub_bounds hv lf.hgmle
        (show φ.Kz lf.c.end_ - φ.Kz v ≠ 0 by omega)
        (show (φ.Kz lf.c.end_ - φ.Kz v).natAbs ≤ φ.Km lf.gm by
          rw [habs, hgmKm]
          omega)
      exact ⟨v, hgv, hglast, hbounds.1, by rw [hstepmag]; exact hbounds.2⟩

end FloatSamplers

/-! ## `next_down` is the predecessor -/

namespace FloatSamplers

open FpFormat

theorem minFin_le_of_finite (φ : FpFormat) (hv : φ.Valid) {a : Fp}
    (ha : φ.isFinite a) : φ.Kz φ.minFin ≤ φ.Kz a := by
  have hmag : a.mag ≤ φ.maxFinMag := by
    unfold FpFormat.isFinite FpFormat.infMag at ha
    unfold FpFormat.maxFinMag
    omega
  have h1 : φ.Km a.mag ≤ φ.Km φ.maxFinMag := (φ.Km_le_Km_iff).2 hmag
  have h2 : (φ.Kz a).natAbs = φ.Km a.mag := φ.Kz_natAbs a
  have h3 : φ.Kz φ.minFin = -(φ.Km φ.maxFinMag : ℤ) := φ.Kz_mk_true _
  omega

theorem Km_one_pos (φ : FpFormat) : 0 < φ.Km 1 := by
  have h1 := (φ.Km_lt_Km_iff).2 (show 0 < 1 by omega)
  rw [φ.Km_zero] at h1
  exact h1

theorem next_down_lt (φ : FpFormat) {a : Fp} : φ.Kz (next_down φ a) < φ.Kz a := by
  have hK1 := Km_one_pos φ
  unfold next_down
  split_ifs with h0 hneg
  · rw [φ.Kz_mk_true]
    omega
  · cases hs : a.sign
    · rw [Kz_of_sign_false φ hs] at hneg
      omega
    · rw [Kz_of_sign_true φ hs] at h0 hneg ⊢
      rw [φ.Kz_mk_true]
      have h1 : φ.Km a.mag < φ.Km (a.mag + 1) := (φ.Km_lt_Km_iff).2 (by omega)
      omega
  · cases hs : a.sign
    · rw [Kz_of_sign_false φ hs] at h0 ⊢
      rw [φ.Kz_mk_false]
      have hm1 : 1 ≤ a.mag := by
        by_contra h
        push_neg at h
        have h2 : a.mag = 0 := by omega
        rw [h2, φ.Km_zero] at h0
        omega
      have h1 : φ.Km (a.mag - 1) < φ.Km a.mag := (φ.Km_lt_Km_iff).2 (by omega)
      omega
    · rw [Kz_of_sign_true φ hs] at h0 hneg
      omega

theorem le_next_down (φ : FpFormat) {a b : Fp} (hab : φ.Kz b < φ.Kz a) :
    φ.Kz b ≤ φ.Kz (next_down φ a) := by
  have hK1 := Km_one_pos φ
  unfold next_down
  split_ifs with h0 hneg
  · rw [φ.Kz_mk_true]
    cases hsb : b.sign
    · rw [Kz_of_sign_false φ hsb] at hab
      omega
    · rw [Kz_of_sign_true φ hsb] at hab ⊢
      have hb1 : 1 ≤ b.mag := by
        by_contra h
        push_neg at h
        have h2 : b.mag = 0 := by omega
        rw [h2, φ.Km_zero] at hab
        omega
      have h3 : φ.Km 1 ≤ φ.Km b.mag := (φ.Km_le_Km_iff).2 hb1
      omega
  · -- a is negative
    cases hs : a.sign
    · rw [Kz_of_sign_false φ hs] at hneg
      omega
    · rw [Kz_of_sign_true φ hs] at h0 hneg hab
      rw [φ.Kz_mk_true]
      cases hsb : b.sign
      · rw [Kz_of_sign_false φ hsb] at hab
        omega
      · rw [Kz_of_sign_true φ hsb] at hab ⊢
        have h1 : φ.Km a.mag < φ.Km b.mag := by omega
        have h2 : a.mag < b.mag := (φ.Km_lt_Km_iff).1 h1
        have h3 : φ.Km (a.mag + 1) ≤ φ.Km b.mag := (φ.Km_le_Km_iff).2 (by omega)
        omega
  · -- a is positive
    cases hs : a.sign
    · rw [Kz_of_sign_false φ hs] at h0 hab
      rw [φ.Kz_mk_false]
      have hm1 : 1 ≤ a.mag := by
        by_contra h
        push_neg at h
        have h2 : a.mag = 0 := by omega
        rw [h2, φ.Km_zero] at h0
        omega
      cases hsb : b.sign
      · rw [Kz_of_sign_false φ hsb] at hab ⊢
        have h1 : b.mag < a.mag := (φ.Km_lt_Km_iff).1 (by omega)
        have h2 : φ.Km b.mag ≤ φ.Km (a.mag - 1) := (φ.Km_le_Km_iff).2 (by omega)
        omega
      · rw [Kz_of_sign_true φ hsb] at hab ⊢
        have h2 : (0 : ℤ) ≤ (φ.Km (a.mag - 1) : ℤ) := by positivity
        have h3 : (0 : ℤ) ≤ (φ.Km b.mag : ℤ) := by positivity
        omega
    · rw [Kz_of_sign_true φ hs] at h0 hneg
      omega

theorem next_down_finite (φ : FpFormat) (hv : φ.Valid) {a : Fp}
    (ha : φ.isFinite a) (hmin : φ.Kz φ.minFin < φ.Kz a) :
    φ.isFinite (next_down φ a) := by
  have hinf : 1 ≤ φ.infMag := infMag_pos φ hv
  have hM2 := φ.valid_two_le_M hv
  have hemax : 1 ≤ φ.emaxf := by
    have h1 : 3 ≤ φ.ebits := hv.2.1
    unfold FpFormat.emaxf
    have h2 : 2 ^ 3 ≤ 2 ^ φ.ebits := Nat.pow_le_pow_right (by norm_num) h1
    omega
  have hinf2 : 2 ≤ φ.infMag := by
    unfold FpFormat.infMag
    calc 2 = 1 * 2 := by ring
      _ ≤ φ.emaxf * φ.M := Nat.mul_le_mul hemax hM2
  unfold next_down
  split_ifs with h0 hneg
  · unfold FpFormat.isFinite
    show 1 < φ.infMag
    omega
  · -- negative: the magnitude grows by one but stays below the max
    unfold FpFormat.isFinite
    show a.mag + 1 < φ.infMag
    cases hs : a.sign
    · rw [Kz_of_sign_false φ hs] at hneg
      omega
    · rw [Kz_of_sign_true φ hs] at hmin
      have h3 : φ.Kz φ.minFin = -(φ.Km φ.maxFinMag : ℤ) := φ.Kz_mk_true _
      have h1 : φ.Km a.mag < φ.Km φ.maxFinMag := by omega
      have h2 : a.mag < φ.maxFinMag := (φ.Km_lt_Km_iff).1 h1
      unfold FpFormat.isFinite at ha
      unfold FpFormat.infMag at ha ⊢
      unfold FpFormat.maxFinMag at h2
      omega
  · unfold FpFormat.isFinite at ha ⊢
    show a.mag - 1 < φ.infMag
    omega

end FloatSamplers

/-! ## Rational-value views -/

namespace FloatSamplers

namespace FpFormat

variable (φ : FpFormat)

theorem sc_pos : 0 < φ.sc := by
  unfold FpFormat.sc
  positivity

theorem val_le_val_iff (a b : Fp) : φ.val a ≤ φ.val b ↔ φ.Kz a ≤ φ.Kz b := by
  unfold FpFormat.val
  rw [div_le_div_iff_of_pos_right φ.sc_pos]
  exact_mod_cast Iff.rfl

theorem val_lt_val_iff (a b : Fp) : φ.val a < φ.val b ↔ φ.Kz a < φ.Kz b := by
  unfold FpFormat.val
  rw [div_lt_div_iff_of_pos_right φ.sc_pos]
  exact_mod_cast Iff.rfl

theorem val_fabs (a : Fp) : φ.val (Fp.fabs a) = (φ.Km a.mag : ℚ) / φ.sc := by
  unfold FpFormat.val
  rw [φ.Kz_fabs]
  push_cast
  ring

theorem val_fabs_pos_iff (a : Fp) : 0 < φ.val (Fp.fabs a) ↔ 1 ≤ φ.Km a.mag := by
  rw [φ.val_fabs]
  rw [lt_div_iff₀ φ.sc_pos, zero_mul]
  constructor
  · intro h
    exact_mod_cast h
  · intro h
    exact_mod_cast h

theorem val_fabs_le_iff (a b : Fp) :
    φ.val (Fp.fabs a) ≤ φ.val (Fp.fabs b) ↔ φ.Km a.mag ≤ φ.Km b.mag := by
  rw [φ.val_fabs, φ.val_fabs, div_le_div_iff_of_pos_right φ.sc_pos]
  exact_mod_cast Iff.rfl

end FpFormat

end FloatSamplers

/-! ## Lattice extraction from the constructors -/

namespace FloatSamplers

open FpFormat

theorem lattice_of_svc (φ : FpFormat) (hv : φ.Valid) {low high : Fp}
    {c : SampleValueCollection}
    (hl : φ.isFinite low) (hh : φ.isFinite high) (hle : φ.Kz low ≤ φ.Kz high)
    (hc : SampleValueCollection.new_inclusive φ low high = some c) :
    ∃ lf : LatticeFacts φ low high, c = lf.c := by
  obtain ⟨lf⟩ := latticeFacts φ hv hl hh hle
  rw [lf.hsome] at hc
  exact ⟨lf, (Option.some.inj hc).symm⟩

theorem lattice_of_new_inclusive (φ : FpFormat) (hv : φ.Valid) {low high : Fp}
    {u : FloatUniform}
    (hl : φ.isFinite low) (hh : φ.isFinite high) (hle : φ.Kz low ≤ φ.Kz high)
    (hu : FloatUniform.new_inclusive φ low high = some u) :
    ∃ lf : LatticeFacts φ low high, u.values = lf.c := by
  obtain ⟨lf⟩ := latticeFacts φ hv hl hh hle
  have hnew : FloatUniform.new_inclusive φ low high = some ⟨lf.c⟩ := by
    unfold FloatUniform.new_inclusive
    rw [lf.hsome]
    show (if 0 < lf.c.count then some (⟨lf.c⟩ : FloatUniform) else none) = some ⟨lf.c⟩
    rw [if_pos (by rw [lf.hcount]; exact Nat.succ_pos _)]
  rw [hnew] at hu
  refine ⟨lf, ?_⟩
  have h1 := Option.some.inj hu
  rw [← h1]

theorem lattice_of_new (φ : FpFormat) (hv : φ.Valid) {low high : Fp}
    {u : FloatUniform}
    (hl : φ.isFinite low) (hh : φ.isFinite high)
    (hle : φ.Kz low ≤ φ.Kz (next_down φ high)) (hhf : φ.isFinite (next_down φ high))
    (hu : FloatUniform.new φ low high = some u) :
    ∃ lf : LatticeFacts φ low (next_down φ high), u.values = lf.c := by
  obtain ⟨lf⟩ := latticeFacts φ hv hl hhf hle
  have hnew : FloatUniform.new φ low high = some ⟨lf.c⟩ := by
    unfold FloatUniform.new
    rw [lf.hsome]
    show (if 0 < lf.c.count then some (⟨lf.c⟩ : FloatUniform) else none) = some ⟨lf.c⟩
    rw [if_pos (by rw [lf.hcount]; exact Nat.succ_pos _)]
  rw [hnew] at hu
  refine ⟨lf, ?_⟩
  have h1 := Option.some.inj hu
  rw [← h1]

end FloatSamplers

/-! ## The claims -/

namespace FloatSamplers

open FpFormat

set_option maxRecDepth 100000

/-- C1: for every pair of finite floats with `low < high`, every value the
half-open sampler built by `construct(low, high)` can return — `get i` of its
lattice for every `i < count` — satisfies `low ≤ v < high`. -/
theorem C1_half_open_range (φ : FpFormat) (hv : φ.Valid) {low high : Fp}
    (hl : φ.isFinite low) (hh : φ.isFinite high) (hlt : φ.Kz low < φ.Kz high)
    {u : FloatUniform} (hu : FloatUniform.new φ low high = some u)
    {i : ℕ} (hi : i < u.values.count) :
    ∃ v : Fp, FloatUniform.sample φ u i = some v ∧
      φ.val low ≤ φ.val v ∧ φ.val v < φ.val high := by
  have hndlt : φ.Kz (next_down φ high) < φ.Kz high := next_down_lt φ
  have hle2 : φ.Kz low ≤ φ.Kz (next_down φ high) := le_next_down φ hlt
  have hndfin : φ.isFinite (next_down φ high) := by
    apply next_down_finite φ hv hh
    calc φ.Kz φ.minFin ≤ φ.Kz low := minFin_le_of_finite φ hv hl
      _ < φ.Kz high := hlt
  obtain ⟨lf, hveq⟩ := lattice_of_new φ hv hl hh hle2 hndfin hu
  rw [hveq] at hi
  obtain ⟨v, hg, h1, h2⟩ := get_range φ hv hl hndfin hle2 lf hi
  refine ⟨v, ?_, (φ.val_le_val_iff _ _).2 h1,
    (φ.val_lt_val_iff _ _).2 (lt_of_le_of_lt h2 hndlt)⟩
  unfold FloatUniform.sample
  rw [hveq]
  exact hg

theorem C1_witness :
    fmt64.Valid ∧ fmt64.isFinite ⟨true, 0⟩ ∧ fmt64.isFinite ⟨false, 1⟩ ∧
    fmt64.Kz ⟨true, 0⟩ < fmt64.Kz ⟨false, 1⟩ ∧
    FloatUniform.new fmt64 ⟨true, 0⟩ ⟨false, 1⟩ =
      some ⟨⟨⟨true, 0⟩, ⟨false, 0⟩, ⟨false, 1⟩, 1⟩⟩ ∧
    (0 : ℕ) < (⟨⟨⟨true, 0⟩, ⟨false, 0⟩, ⟨false, 1⟩, 1⟩⟩ : FloatUniform).values.count ∧
    (∃ v : Fp, FloatUniform.sample fmt64 ⟨⟨⟨true, 0⟩, ⟨false, 0⟩, ⟨false, 1⟩, 1⟩⟩ 0 = some v ∧
      fmt64.val ⟨true, 0⟩ ≤ fmt64.val v ∧ fmt64.val v < fmt64.val ⟨false, 1⟩) :=
  ⟨by decide, by decide, by decide, by decide, by decide, by decide,
    C1_half_open_range fmt64 (by decide) (by decide) (by decide) (by decide)
      (by decide) (by decide)⟩

/-- C2: for every pair of finite floats with `low ≤ high`, every value the
inclusive sampler built by `construct_inclusive(low, high)` can return
satisfies `low ≤ v ≤ high`. -/
theorem C2_inclusive_range (φ : FpFormat) (hv : φ.Valid) {low high : Fp}
    (hl : φ.isFinite low) (hh : φ.isFinite high) (hle : φ.Kz low ≤ φ.Kz high)
    {u : FloatUniform} (hu : FloatUniform.new_inclusive φ low high = some u)
    {i : ℕ} (hi : i < u.values.count) :
    ∃ v : Fp, FloatUniform.sample φ u i = some v ∧
      φ.val low ≤ φ.val v ∧ φ.val v ≤ φ.val high := by
  obtain ⟨lf, hveq⟩ := lattice_of_new_inclusive φ hv hl hh hle hu
  rw [hveq] at hi
  obtain ⟨v, hg, h1, h2⟩ := get_range φ hv hl hh hle lf hi
  refine ⟨v, ?_, (φ.val_le_val_iff _ _).2 h1, (φ.val_le_val_iff _ _).2 h2⟩
  unfold FloatUniform.sample
  rw [hveq]
  exact hg

theorem C2_witness :
    fmt64.Valid ∧ fmt64.isFinite ⟨true, 0⟩ ∧ fmt64.isFinite ⟨false, 0⟩ ∧
    fmt64.Kz ⟨true, 0⟩ ≤ fmt64.Kz ⟨false, 0⟩ ∧
    FloatUniform.new_inclusive fmt64 ⟨true, 0⟩ ⟨false, 0⟩ =
      some ⟨⟨⟨true, 0⟩, ⟨false, 0⟩, ⟨false, 1⟩, 1⟩⟩ ∧
    (0 : ℕ) < (⟨⟨⟨true, 0⟩, ⟨false, 0⟩, ⟨false, 1⟩, 1⟩⟩ : FloatUniform).values.count ∧
    (∃ v : Fp, FloatUniform.sample fmt64 ⟨⟨⟨true, 0⟩, ⟨false, 0⟩, ⟨false, 1⟩, 1⟩⟩ 0 = some v ∧
      fmt64.val ⟨true, 0⟩ ≤ fmt64.val v ∧ fmt64.val v ≤ fmt64.val ⟨false, 0⟩) :=
  ⟨by decide, by decide, by decide, by decide, by decide, by decide,
    C2_inclusive_range fmt64 (by decide) (by decide) (by decide) (by decide)
      (by decide) (by decide)⟩

/-- C10: the lattice built by `new_inclusive(-0.0, 0.0)` has `count = 1` and
`get 0` is bit-identical to positive zero (the two signed zeros collapse to a
single lattice point of magnitude 0). -/
theorem C10_signed_zero_collapse :
    SampleValueCollection.new_inclusive fmt64 ⟨true, 0⟩ ⟨false, 0⟩ =
      some ⟨⟨true, 0⟩, ⟨false, 0⟩, ⟨false, 1⟩, 1⟩ ∧
    (⟨⟨true, 0⟩, ⟨false, 0⟩, ⟨false, 1⟩, 1⟩ : SampleValueCollection).count = 1 ∧
    SampleValueCollection.get fmt64 ⟨⟨true, 0⟩, ⟨false, 0⟩, ⟨false, 1⟩, 1⟩ 0 =
      some ⟨false, 0⟩ :=
  ⟨by decide, rfl, by decide⟩

end FloatSamplers

namespace FloatSamplers

open FpFormat

set_option maxRecDepth 100000

theorem Kz_roundP_neg (φ : FpFormat) (hv : φ.Valid) {z : ℤ} (hz : z < 0) :
    φ.Kz (φ.roundP z φ.KD) < 0 := by
  rw [φ.roundP_neg_shape hz, φ.Kz_mk_true]
  have h1 : 1 ≤ φ.roundMagP (-z).toNat φ.KD := by
    apply φ.one_le_roundMagP (φ.valid_two_le_M hv) (infMag_pos φ hv)
    have h2 : 1 ≤ (-z).toNat := by omega
    have h3 : φ.KD ≤ (-z).toNat * φ.KD := Nat.le_mul_of_pos_left φ.KD (by omega)
    have h4 := φ.KD_pos
    omega
  have h2 := (φ.Km_le_Km_iff).2 h1
  rw [φ.Km_one (φ.valid_two_le_M hv)] at h2
  omega

/-- C6 (corrected): `low = high = v` is legal for the inclusive constructor
`construct_inclusive` — the lattice has `count = 1` and every sample returns
exactly `v` — but the half-open constructor `construct` aborts on its
`high - low ≥ 0` assertion for every finite `v`, because it first replaces
`high` by `next_down high < low`. -/
theorem C6_degenerate_range (φ : FpFormat) (hv : φ.Valid) {v : Fp}
    (hfin : φ.isFinite v) :
    (∃ u : FloatUniform, FloatUniform.new_inclusive φ v v = some u ∧
      u.values.count = 1 ∧
      ∀ i, i < u.values.count → FloatUniform.sample φ u i = some v) ∧
    FloatUniform.new φ v v = none := by
  constructor
  · obtain ⟨lf⟩ := latticeFacts φ hv hfin hfin (le_refl _)
    have hc1 : lf.c.count = 1 := (count_eq_one_iff φ hv lf).2 rfl
    have hnew : FloatUniform.new_inclusive φ v v = some ⟨lf.c⟩ := by
      unfold FloatUniform.new_inclusive
      rw [lf.hsome]
      show (if 0 < lf.c.count then some (⟨lf.c⟩ : FloatUniform) else none) = some ⟨lf.c⟩
      rw [if_pos (by omega)]
    refine ⟨⟨lf.c⟩, hnew, hc1, ?_⟩
    intro i hi
    have hi1 : i < lf.c.count := hi
    unfold FloatUniform.sample
    show lf.c.get φ i = some v
    unfold SampleValueCollection.get
    rw [if_neg (not_not_intro hi1), if_pos (show i = lf.c.count - 1 by omega)]
    have hend : lf.c.end_ = v := by
      rw [lf.hend, if_neg (lt_irrefl _)]
    rw [hend]
  · have hndlt : φ.Kz (next_down φ v) < φ.Kz v := next_down_lt φ
    have hnone : SampleValueCollection.new_inclusive φ v (next_down φ v) = none := by
      unfold SampleValueCollection.new_inclusive
      by_cases hnd : φ.isFinite (next_down φ v)
      · rw [if_neg (not_not_intro hfin), if_neg (not_not_intro hnd)]
        have hsub : φ.Kz (φ.fsub (next_down φ v) v) < 0 := by
          rw [φ.fsub_of_ne (by omega)]
          exact Kz_roundP_neg φ hv (by omega)
        rw [if_pos (not_le.2 hsub)]
      · rw [if_neg (not_not_intro hfin), if_pos hnd]
    unfold FloatUniform.new
    rw [hnone]

theorem C6_witness :
    fmt64.Valid ∧ fmt64.isFinite ⟨false, 0⟩ ∧
    ((∃ u : FloatUniform, FloatUniform.new_inclusive fmt64 ⟨false, 0⟩ ⟨false, 0⟩ = some u ∧
        u.values.count = 1 ∧
        ∀ i, i < u.values.count →
          FloatUniform.sample fmt64 u i = some ⟨false, 0⟩) ∧
      FloatUniform.new fmt64 ⟨false, 0⟩ ⟨false, 0⟩ = none) :=
  ⟨by decide, by decide, C6_degenerate_range fmt64 (by decide) (by decide)⟩

theorem C6_counterexample :
    fmt64.isFinite ⟨false, fmt64.oneMag⟩ ∧
    FloatUniform.new fmt64 ⟨false, fmt64.oneMag⟩ ⟨false, fmt64.oneMag⟩ = none :=
  ⟨by decide, by decide⟩

/-- C7: for every finite float `a` strictly greater than the most negative
finite value, `next_down a` is finite, strictly less than `a`, no value lies
strictly between `next_down a` and `a`, and both zeros map to the negated
smallest positive subnormal. -/
theorem C7_next_down_predecessor (φ : FpFormat) (hv : φ.Valid) {a : Fp}
    (ha : φ.isFinite a) (hmin : φ.Kz φ.minFin < φ.Kz a) :
    φ.isFinite (next_down φ a) ∧
    φ.val (next_down φ a) < φ.val a ∧
    (∀ b : Fp, φ.val b < φ.val a → φ.val b ≤ φ.val (next_down φ a)) ∧
    (a.mag = 0 → next_down φ a = ⟨true, 1⟩) := by
  refine ⟨next_down_finite φ hv ha hmin, (φ.val_lt_val_iff _ _).2 (next_down_lt φ),
    ?_, next_down_of_zero φ⟩
  intro b hb
  exact (φ.val_le_val_iff _ _).2 (le_next_down φ ((φ.val_lt_val_iff _ _).1 hb))

theorem C7_witness :
    fmt64.Valid ∧ fmt64.isFinite ⟨false, 1⟩ ∧
    fmt64.Kz fmt64.minFin < fmt64.Kz ⟨false, 1⟩ ∧
    (fmt64.isFinite (next_down fmt64 ⟨false, 1⟩) ∧
      fmt64.val (next_down fmt64 ⟨false, 1⟩) < fmt64.val ⟨false, 1⟩ ∧
      (∀ b : Fp, fmt64.val b < fmt64.val ⟨false, 1⟩ →
        fmt64.val b ≤ fmt64.val (next_down fmt64 ⟨false, 1⟩)) ∧
      ((⟨false, 1⟩ : Fp).mag = 0 → next_down fmt64 ⟨false, 1⟩ = ⟨true, 1⟩)) :=
  ⟨by decide, by decide, by decide,
    C7_next_down_predecessor fmt64 (by decide) (by decide) (by decide)⟩

end FloatSamplers

namespace FloatSamplers

open FpFormat

set_option maxRecDepth 100000

/-- C3 (corrected): for finite bounds passing the `high - low ≥ 0` guard that
are not two zeros of opposite sign, the order-normalized pair
`(get 0, get (count-1))` is bit-identical to the order-normalized `(low, high)`
pair.  (For `low = -0.0, high = 0.0` both lattice endpoints are `+0.0`, which
is not bit-identical to `-0.0`.) -/
theorem C3_endpoints (φ : FpFormat) (hv : φ.Valid) {low high : Fp}
    (hl : φ.isFinite low) (hh : φ.isFinite high)
    (hge : 0 ≤ φ.Kz (φ.fsub high low))
    (hmix : low.sign = high.sign ∨ φ.Kz low ≠ φ.Kz high)
    {c : SampleValueCollection}
    (hc : SampleValueCollection.new_inclusive φ low high = some c) :
    ∃ v0 vN : Fp, c.get φ 0 = some v0 ∧ c.get φ (c.count - 1) = some vN ∧
      normPair φ (v0, vN) = normPair φ (low, high) := by
  have hle : φ.Kz low ≤ φ.Kz high := (guard_iff φ hv low high).1 hge
  obtain ⟨lf, hceq⟩ := lattice_of_svc φ hv hl hh hle hc
  subst hceq
  have hcpos : 1 ≤ lf.c.count := by
    rw [lf.hcount]
    exact Nat.le_add_left 1 _
  by_cases hone : lf.c.count = 1
  · have hKzeq : φ.Kz low = φ.Kz high := (count_eq_one_iff φ hv lf).1 hone
    have hmag : low.mag = high.mag := Kz_eq_of_Km_mag_eq φ hKzeq
    have hsign : low.sign = high.sign := by
      rcases hmix with h | h
      · exact h
      · exact absurd hKzeq h
    have hlh : low = high := by
      calc low = ⟨low.sign, low.mag⟩ := rfl
        _ = ⟨high.sign, high.mag⟩ := by rw [hsign, hmag]
        _ = high := rfl
    have hend : lf.c.end_ = high := by
      rw [lf.hend, if_neg (show ¬ φ.Km low.mag < φ.Km high.mag by rw [hmag]; omega)]
    have hget0 : lf.c.get φ 0 = some lf.c.end_ := by
      unfold SampleValueCollection.get
      rw [if_neg (not_not_intro (show 0 < lf.c.count by omega)),
        if_pos (show 0 = lf.c.count - 1 by omega)]
    refine ⟨lf.c.end_, lf.c.end_, hget0, ?_, ?_⟩
    · rw [show lf.c.count - 1 = 0 by omega]
      exact hget0
    · rw [hend, hlh]
  · have hc2 : 1 < lf.c.count := by omega
    obtain ⟨e, hpair, hKzst, _, _⟩ := lattice_sign φ hv hle lf hc2
    have hne2 : φ.Kz low ≠ φ.Kz high := fun h => hone ((count_eq_one_iff φ hv lf).2 h)
    have hKzstart_ne : φ.Kz lf.c.start ≠ 0 := by
      intro h0
      have he1 : e = 1 ∨ e = -1 := by
        rcases hpair with ⟨h, _, _⟩ | ⟨h, _, _⟩
        · exact Or.inl h
        · exact Or.inr h
      have hmx0 : φ.Km (φ.mxMag low high) = 0 := by
        rw [hKzst] at h0
        rcases he1 with h | h <;> rw [h] at h0 <;> omega
      have hboth : φ.Km low.mag = 0 ∧ φ.Km high.mag = 0 := by
        unfold FpFormat.mxMag at hmx0
        split at hmx0 <;> omega
      have hl0 : low.mag = 0 := (φ.Km_eq_Km_iff).1 (by rw [hboth.1, φ.Km_zero])
      have hh0 : high.mag = 0 := (φ.Km_eq_Km_iff).1 (by rw [hboth.2, φ.Km_zero])
      exact hne2 (by
        rw [(φ.Kz_eq_zero_iff low).2 hl0, (φ.Kz_eq_zero_iff high).2 hh0])
    obtain ⟨v0, hg0, hKzv0, _⟩ :=
      get_spec φ hv hl hh hle lf (show 0 < lf.c.count - 1 by omega)
    have hKzv0' : φ.Kz v0 = φ.Kz lf.c.start := by
      rw [hKzv0]
      push_cast
      ring
    have hv0 : v0 = lf.c.start :=
      Fp_eq_of_Kz φ hKzv0' (by rw [hKzv0']; exact hKzstart_ne)
    have hgN : lf.c.get φ (lf.c.count - 1) = some lf.c.end_ := by
      unfold SampleValueCollection.get
      rw [if_neg (not_not_intro (show lf.c.count - 1 < lf.c.count by omega)), if_pos rfl]
    refine ⟨v0, lf.c.end_, hg0, hgN, ?_⟩
    rw [hv0]
    rcases hpair with ⟨he, hsh, heq⟩ | ⟨he, hsl, heq⟩
    · rw [hsh, heq]
      show (if φ.Kz high ≤ φ.Kz low then ((high, low) : Fp × Fp) else (low, high)) =
        if φ.Kz low ≤ φ.Kz high then ((low, high) : Fp × Fp) else (high, low)
      rw [if_neg (by omega), if_pos hle]
    · rw [hsl, heq]

theorem C3_counterexample :
    fmt64.isFinite ⟨true, 0⟩ ∧ fmt64.isFinite ⟨false, 0⟩ ∧
    0 ≤ fmt64.Kz (fmt64.fsub ⟨false, 0⟩ ⟨true, 0⟩) ∧
    SampleValueCollection.new_inclusive fmt64 ⟨true, 0⟩ ⟨false, 0⟩ =
      some ⟨⟨true, 0⟩, ⟨false, 0⟩, ⟨false, 1⟩, 1⟩ ∧
    SampleValueCollection.get fmt64 ⟨⟨true, 0⟩, ⟨false, 0⟩, ⟨false, 1⟩, 1⟩ 0 =
      some ⟨false, 0⟩ ∧
    SampleValueCollection.get fmt64 ⟨⟨true, 0⟩, ⟨false, 0⟩, ⟨false, 1⟩, 1⟩
      ((⟨⟨true, 0⟩, ⟨false, 0⟩, ⟨false, 1⟩, 1⟩ : SampleValueCollection).count - 1) =
      some ⟨false, 0⟩ ∧
    normPair fmt64 (⟨false, 0⟩, ⟨false, 0⟩) ≠ normPair fmt64 (⟨true, 0⟩, ⟨false, 0⟩) :=
  ⟨by decide, by decide, by decide, by decide, by decide, by decide, by decide⟩

theorem C3_witness :
    fmt64.Valid ∧ fmt64.isFinite ⟨false, 0⟩ ∧
    0 ≤ fmt64.Kz (fmt64.fsub ⟨false, 0⟩ ⟨false, 0⟩) ∧
    ((⟨false, 0⟩ : Fp).sign = (⟨false, 0⟩ : Fp).sign ∨
      fmt64.Kz ⟨false, 0⟩ ≠ fmt64.Kz ⟨false, 0⟩) ∧
    SampleValueCollection.new_inclusive fmt64 ⟨false, 0⟩ ⟨false, 0⟩ =
      some ⟨⟨false, 0⟩, ⟨false, 0⟩, ⟨false, 1⟩, 1⟩ ∧
    (∃ v0 vN : Fp,
      SampleValueCollection.get fmt64 ⟨⟨false, 0⟩, ⟨false, 0⟩, ⟨false, 1⟩, 1⟩ 0 = some v0 ∧
      SampleValueCollection.get fmt64 ⟨⟨false, 0⟩, ⟨false, 0⟩, ⟨false, 1⟩, 1⟩
        ((⟨⟨false, 0⟩, ⟨false, 0⟩, ⟨false, 1⟩, 1⟩ : SampleValueCollection).count - 1) =
        some vN ∧
      normPair fmt64 (v0, vN) = normPair fmt64 (⟨false, 0⟩, ⟨false, 0⟩)) :=
  ⟨by decide, by decide, by decide, Or.inl rfl, by decide,
    C3_endpoints fmt64 (by decide) (by decide) (by decide) (by decide)
      (Or.inl rfl) (by decide)⟩

end FloatSamplers

namespace FloatSamplers

open FpFormat

set_option maxRecDepth 100000

/-- C4: for finite bounds passing the `high - low ≥ 0` guard, consecutive
regular lattice values differ by exactly `step` (`get (i+1) - get i = step`
for `i < count - 2`), and for `count ≥ 2` the final float gap
`|get (count-1) - get (count-2)|` satisfies `0 < gap ≤ |step|`. -/
theorem C4_uniform_spacing (φ : FpFormat) (hv : φ.Valid) {low high : Fp}
    (hl : φ.isFinite low) (hh : φ.isFinite high)
    (hge : 0 ≤ φ.Kz (φ.fsub high low))
    {c : SampleValueCollection}
    (hc : SampleValueCollection.new_inclusive φ low high = some c) :
    (∀ i, i + 1 < c.count - 1 →
      ∃ v w : Fp, c.get φ i = some v ∧ c.get φ (i + 1) = some w ∧
        φ.fsub w v = c.step) ∧
    (1 < c.count →
      ∃ v : Fp, c.get φ (c.count - 2) = some v ∧
        c.get φ (c.count - 1) = some c.end_ ∧
        0 < φ.val (Fp.fabs (φ.fsub c.end_ v)) ∧
        φ.val (Fp.fabs (φ.fsub c.end_ v)) ≤ φ.val (Fp.fabs c.step)) := by
  have hle : φ.Kz low ≤ φ.Kz high := (guard_iff φ hv low high).1 hge
  obtain ⟨lf, hceq⟩ := lattice_of_svc φ hv hl hh hle hc
  subst hceq
  constructor
  · intro i hi
    exact get_step φ hv hl hh hle lf hi
  · intro hc2
    obtain ⟨v, h1, h2, h3, h4⟩ := final_gap φ hv hl hh hle lf hc2
    refine ⟨v, h1, h2, ?_, (φ.val_fabs_le_iff _ _).2 h4⟩
    rw [φ.val_fabs_pos_iff]
    have h5 := (φ.Km_le_Km_iff).2 h3
    rw [φ.Km_one (φ.valid_two_le_M hv)] at h5
    exact h5

theorem C4_witness :
    fmt64.Valid ∧ fmt64.isFinite ⟨true, 0⟩ ∧ fmt64.isFinite ⟨false, 1⟩ ∧
    0 ≤ fmt64.Kz (fmt64.fsub ⟨false, 1⟩ ⟨true, 0⟩) ∧
    SampleValueCollection.new_inclusive fmt64 ⟨true, 0⟩ ⟨false, 1⟩ =
      some ⟨⟨false, 1⟩, ⟨true, 0⟩, ⟨true, 1⟩, 2⟩ ∧
    ((∀ i, i + 1 < (⟨⟨false, 1⟩, ⟨true, 0⟩, ⟨true, 1⟩, 2⟩ : SampleValueCollection).count - 1 →
      ∃ v w : Fp,
        SampleValueCollection.get fmt64 ⟨⟨false, 1⟩, ⟨true, 0⟩, ⟨true, 1⟩, 2⟩ i = some v ∧
        SampleValueCollection.get fmt64 ⟨⟨false, 1⟩, ⟨true, 0⟩, ⟨true, 1⟩, 2⟩ (i + 1) = some w ∧
        fmt64.fsub w v = (⟨⟨false, 1⟩, ⟨true, 0⟩, ⟨true, 1⟩, 2⟩ : SampleValueCollection).step) ∧
    (1 < (⟨⟨false, 1⟩, ⟨true, 0⟩, ⟨true, 1⟩, 2⟩ : SampleValueCollection).count →
      ∃ v : Fp,
        SampleValueCollection.get fmt64 ⟨⟨false, 1⟩, ⟨true, 0⟩, ⟨true, 1⟩, 2⟩
          ((⟨⟨false, 1⟩, ⟨true, 0⟩, ⟨true, 1⟩, 2⟩ : SampleValueCollection).count - 2) = some v ∧
        SampleValueCollection.get fmt64 ⟨⟨false, 1⟩, ⟨true, 0⟩, ⟨true, 1⟩, 2⟩
          ((⟨⟨false, 1⟩, ⟨true, 0⟩, ⟨true, 1⟩, 2⟩ : SampleValueCollection).count - 1) =
          some (⟨⟨false, 1⟩, ⟨true, 0⟩, ⟨true, 1⟩, 2⟩ : SampleValueCollection).end_ ∧
        0 < fmt64.val (Fp.fabs (fmt64.fsub
          (⟨⟨false, 1⟩, ⟨true, 0⟩, ⟨true, 1⟩, 2⟩ : SampleValueCollection).end_ v)) ∧
        fmt64.val (Fp.fabs (fmt64.fsub
          (⟨⟨false, 1⟩, ⟨true, 0⟩, ⟨true, 1⟩, 2⟩ : SampleValueCollection).end_ v)) ≤
          fmt64.val (Fp.fabs (⟨⟨false, 1⟩, ⟨true, 0⟩, ⟨true, 1⟩, 2⟩ : SampleValueCollection).step))) :=
  ⟨by decide, by decide, by decide, by decide, by decide,
    @C4_uniform_spacing fmt64 (by decide) ⟨true, 0⟩ ⟨false, 1⟩ (by decide) (by decide)
      (by decide) ⟨⟨false, 1⟩, ⟨true, 0⟩, ⟨true, 1⟩, 2⟩ (by decide)⟩

end FloatSamplers

namespace FloatSamplers

open FpFormat

set_option maxRecDepth 100000

/-- C8: for finite bounds passing the guard, the stored count satisfies
`count - 1 ≤ 2 * MAX_PRECISE_INT`, and every regular index is free of
rounding: `get i` is exactly `start + i * step` in real arithmetic, itself a
representable (finite) value. -/
theorem C8_split_mul_add_exact (φ : FpFormat) (hv : φ.Valid) {low high : Fp}
    (hl : φ.isFinite low) (hh : φ.isFinite high)
    (hge : 0 ≤ φ.Kz (φ.fsub high low))
    {c : SampleValueCollection}
    (hc : SampleValueCollection.new_inclusive φ low high = some c) :
    c.count - 1 ≤ 2 * MAX_PRECISE_INT φ ∧
    ∀ i, i < c.count - 1 → ∃ v : Fp, c.get φ i = some v ∧
      φ.val v = φ.val c.start + (i : ℚ) * φ.val c.step ∧ v.mag ≤ φ.maxFinMag := by
  have hle : φ.Kz low ≤ φ.Kz high := (guard_iff φ hv low high).1 hge
  obtain ⟨lf, hceq⟩ := lattice_of_svc φ hv hl hh hle hc
  subst hceq
  constructor
  · have hKD := φ.KD_pos
    have hMAX : MAX_PRECISE_INT φ = 2 * φ.M := by
      unfold MAX_PRECISE_INT FpFormat.prec
      show 2 ^ (φ.mbits + 1) = 2 * 2 ^ φ.mbits
      rw [pow_succ]
      ring
    obtain ⟨mx, hmxd⟩ : ∃ x, x = φ.mxMag low high := ⟨_, rfl⟩
    obtain ⟨Mg, hMgd⟩ : ∃ g, g = φ.Km mx / φ.spaceK (mx - 1) := ⟨_, rfl⟩
    obtain ⟨F, hFd⟩ : ∃ f, f = φ.Km lf.xm / φ.KD := ⟨_, rfl⟩
    obtain ⟨C, hCd⟩ : ∃ cc, cc = (φ.Km lf.xm + φ.KD - 1) / φ.KD := ⟨_, rfl⟩
    have hxmMg : φ.Km lf.xm ≤ Mg * φ.KD := by rw [hMgd, hmxd]; exact lf.hxmMg
    have hMgle : Mg ≤ 2 * φ.M := by rw [hMgd, hmxd]; exact lf.hMgle
    have hcount : lf.c.count = (if low.sign = high.sign
        then Mg - F else Mg + C) + 1 := by
      rw [hMgd, hmxd, hFd, hCd]; exact lf.hcount
    have hdivMg : (φ.KD * Mg + (φ.KD - 1)) / φ.KD = Mg := by
      rw [Nat.mul_add_div hKD, Nat.div_eq_of_lt (by omega), Nat.add_zero]
    have hCle : C ≤ Mg := by
      have h2 : Mg * φ.KD = φ.KD * Mg := Nat.mul_comm _ _
      have h1 : φ.Km lf.xm + φ.KD - 1 ≤ φ.KD * Mg + (φ.KD - 1) := by omega
      rw [hCd]
      calc (φ.Km lf.xm + φ.KD - 1) / φ.KD ≤ (φ.KD * Mg + (φ.KD - 1)) / φ.KD :=
            Nat.div_le_div_right h1
        _ = Mg := hdivMg
    rw [hcount, hMAX]
    by_cases hs : low.sign = high.sign
    · rw [if_pos hs]
      omega
    · rw [if_neg hs]
      omega
  · intro i hi
    obtain ⟨v, hg, hKz, hm⟩ := get_spec φ hv hl hh hle lf hi
    refine ⟨v, hg, ?_, hm⟩
    unfold FpFormat.val
    rw [hKz]
    push_cast
    ring

theorem C8_witness :
    fmt64.Valid ∧ fmt64.isFinite ⟨true, 0⟩ ∧ fmt64.isFinite ⟨false, 1⟩ ∧
    0 ≤ fmt64.Kz (fmt64.fsub ⟨false, 1⟩ ⟨true, 0⟩) ∧
    SampleValueCollection.new_inclusive fmt64 ⟨true, 0⟩ ⟨false, 1⟩ =
      some ⟨⟨false, 1⟩, ⟨true, 0⟩, ⟨true, 1⟩, 2⟩ ∧
    ((⟨⟨false, 1⟩, ⟨true, 0⟩, ⟨true, 1⟩, 2⟩ : SampleValueCollection).count - 1 ≤
        2 * MAX_PRECISE_INT fmt64 ∧
      ∀ i, i < (⟨⟨false, 1⟩, ⟨true, 0⟩, ⟨true, 1⟩, 2⟩ : SampleValueCollection).count - 1 →
        ∃ v : Fp,
          SampleValueCollection.get fmt64 ⟨⟨false, 1⟩, ⟨true, 0⟩, ⟨true, 1⟩, 2⟩ i = some v ∧
          fmt64.val v =
            fmt64.val (⟨⟨false, 1⟩, ⟨true, 0⟩, ⟨true, 1⟩, 2⟩ : SampleValueCollection).start +
              (i : ℚ) *
                fmt64.val (⟨⟨false, 1⟩, ⟨true, 0⟩, ⟨true, 1⟩, 2⟩ : SampleValueCollection).step ∧
          v.mag ≤ fmt64.maxFinMag) :=
  ⟨by decide, by decide, by decide, by decide, by decide,
    @C8_split_mul_add_exact fmt64 (by decide) ⟨true, 0⟩ ⟨false, 1⟩ (by decide) (by decide)
      (by decide) ⟨⟨false, 1⟩, ⟨true, 0⟩, ⟨true, 1⟩, 2⟩ (by decide)⟩

end FloatSamplers

namespace FloatSamplers

open FpFormat

set_option maxRecDepth 100000

theorem fmaxF_fabs_shape (φ : FpFormat) (low high : Fp) :
    φ.fmaxF (Fp.fabs low) (Fp.fabs high) = ⟨false, φ.mxMag low high⟩ := by
  unfold FpFormat.fmaxF FpFormat.mxMag
  rw [φ.Kz_fabs, φ.Kz_fabs]
  by_cases hcc : φ.Km low.mag < φ.Km high.mag
  · rw [if_pos (by exact_mod_cast hcc), if_pos hcc]
    rfl
  · rw [if_neg (by exact_mod_cast hcc), if_neg hcc]
    rfl

theorem fminF_fabs_shape (φ : FpFormat) (low high : Fp) :
    φ.fminF (Fp.fabs low) (Fp.fabs high) = ⟨false, φ.mnMag low high⟩ := by
  unfold FpFormat.fminF FpFormat.mnMag
  rw [φ.Kz_fabs, φ.Kz_fabs]
  by_cases hcc : φ.Km high.mag < φ.Km low.mag
  · rw [if_pos (by exact_mod_cast hcc), if_pos hcc]
    rfl
  · rw [if_neg (by exact_mod_cast hcc), if_neg hcc]
    rfl

/-- C9: `max_gaps = max_abs / gap` is an exact integer: the float division
incurs no rounding (`max_gaps * gap = max_abs` in exact arithmetic) and its
float floor equals itself bitwise, so the `debug_assert` on `max_gaps` never
fails for valid inputs. -/
theorem C9_max_gaps_exact (φ : FpFormat) (hv : φ.Valid) {low high : Fp}
    (hl : φ.isFinite low) (hh : φ.isFinite high)
    (hge : 0 ≤ φ.Kz (φ.fsub high low)) :
    φ.ffloor (φ.fdiv (φ.fmaxF (Fp.fabs low) (Fp.fabs high))
        (ulp φ (φ.fmaxF (Fp.fabs low) (Fp.fabs high)))) =
      φ.fdiv (φ.fmaxF (Fp.fabs low) (Fp.fabs high))
        (ulp φ (φ.fmaxF (Fp.fabs low) (Fp.fabs high))) ∧
    φ.val (φ.fdiv (φ.fmaxF (Fp.fabs low) (Fp.fabs high))
        (ulp φ (φ.fmaxF (Fp.fabs low) (Fp.fabs high)))) *
      φ.val (ulp φ (φ.fmaxF (Fp.fabs low) (Fp.fabs high))) =
      φ.val (φ.fmaxF (Fp.fabs low) (Fp.fabs high)) := by
  have hKD := φ.KD_pos
  have hlmag : low.mag ≤ φ.maxFinMag := by
    unfold FpFormat.isFinite FpFormat.infMag at hl
    unfold FpFormat.maxFinMag
    omega
  have hhmag : high.mag ≤ φ.maxFinMag := by
    unfold FpFormat.isFinite FpFormat.infMag at hh
    unfold FpFormat.maxFinMag
    omega
  obtain ⟨mx, hmxd⟩ : ∃ x, x = φ.mxMag low high := ⟨_, rfl⟩
  have hmxle : mx ≤ φ.maxFinMag := by
    rw [hmxd]
    unfold FpFormat.mxMag
    split
    · exact hhmag
    · exact hlmag
  rw [fmaxF_fabs_shape φ low high, ← hmxd]
  obtain ⟨gm, hulp, hKmgm, hgm1, hgmle⟩ := ulp_spec2 φ hv ⟨false, mx⟩ hmxle
  rw [hulp]
  have hsc : φ.sc = ((φ.KD : ℕ) : ℚ) := rfl
  have hscne : ((φ.KD : ℕ) : ℚ) ≠ 0 := by
    exact_mod_cast Nat.pos_iff_ne_zero.1 hKD
  rcases Nat.eq_zero_or_pos mx with hmx0 | hmx1
  · -- both bounds are zeros
    subst hmx0
    have hdiv0 : φ.fdiv ⟨false, 0⟩ ⟨false, gm⟩ = ⟨false, 0⟩ := by
      unfold FpFormat.fdiv
      rw [if_pos (Or.inl rfl)]
      rfl
    rw [hdiv0]
    constructor
    · unfold FpFormat.ffloor
      rw [if_pos (by rw [φ.ifloor_mk_false, φ.Km_zero]; simp)]
    · unfold FpFormat.val
      rw [φ.Kz_mk_false, φ.Km_zero]
      push_cast
      ring
  · -- nonzero anchor: the quotient is the exact integer Mg
    obtain ⟨Mg, hMg1, hMgle, hKmmx⟩ := φ.Km_factor hmx1
    obtain ⟨tm, htmle, htmKm0⟩ := φ.exists_mag_of_K2 Mg φ.D hMgle
      (le_trans (Nat.mul_le_mul_right _ hMgle) (φ.valid_KD_le_KmMax hv))
    have htmKm : φ.Km tm = Mg * φ.KD := htmKm0
    have hgmne : gm ≠ 0 := by omega
    have hdiv : φ.fdiv ⟨false, mx⟩ ⟨false, gm⟩ = ⟨false, tm⟩ := by
      unfold FpFormat.fdiv
      rw [if_neg (by push_neg; exact ⟨show mx ≠ 0 by omega, show gm ≠ 0 by omega⟩)]
      have hround : φ.roundMagP (φ.Km mx) (φ.Km gm) = tm := by
        apply φ.roundMagP_exact (by rw [hKmgm]; exact φ.spaceK_pos _)
        · rw [htmKm, hKmgm, hKmmx]
          ring
        · exact le_trans htmle φ.maxFinMag_le_infMag
      rw [hround]
      rfl
    rw [hdiv]
    have hMgpos : 0 < Mg := by omega
    have hifl : φ.ifloor ⟨false, tm⟩ = ((Mg : ℕ) : ℤ) := by
      rw [φ.ifloor_mk_false, htmKm, Nat.mul_div_cancel _ hKD]
    constructor
    · unfold FpFormat.ffloor
      rw [hifl]
      rw [if_neg (by exact_mod_cast Nat.pos_iff_ne_zero.1 hMgpos)]
      apply φ.roundP_exact hKD (le_trans htmle φ.maxFinMag_le_infMag) (fun _ => rfl)
      rw [φ.Kz_mk_false, htmKm]
      push_cast
      ring
    · unfold FpFormat.val
      rw [φ.Kz_mk_false, φ.Kz_mk_false, φ.Kz_mk_false, htmKm, hKmgm, hKmmx, hsc]
      rw [div_mul_div_comm]
      rw [div_eq_div_iff (by positivity) (by positivity)]
      push_cast
      ring

theorem C9_witness :
    fmt64.Valid ∧ fmt64.isFinite ⟨true, 0⟩ ∧ fmt64.isFinite ⟨false, 0⟩ ∧
    0 ≤ fmt64.Kz (fmt64.fsub ⟨false, 0⟩ ⟨true, 0⟩) ∧
    (fmt64.ffloor (fmt64.fdiv (fmt64.fmaxF (Fp.fabs ⟨true, 0⟩) (Fp.fabs ⟨false, 0⟩))
        (ulp fmt64 (fmt64.fmaxF (Fp.fabs ⟨true, 0⟩) (Fp.fabs ⟨false, 0⟩)))) =
      fmt64.fdiv (fmt64.fmaxF (Fp.fabs ⟨true, 0⟩) (Fp.fabs ⟨false, 0⟩))
        (ulp fmt64 (fmt64.fmaxF (Fp.fabs ⟨true, 0⟩) (Fp.fabs ⟨false, 0⟩))) ∧
    fmt64.val (fmt64.fdiv (fmt64.fmaxF (Fp.fabs ⟨true, 0⟩) (Fp.fabs ⟨false, 0⟩))
        (ulp fmt64 (fmt64.fmaxF (Fp.fabs ⟨true, 0⟩) (Fp.fabs ⟨false, 0⟩)))) *
      fmt64.val (ulp fmt64 (fmt64.fmaxF (Fp.fabs ⟨true, 0⟩) (Fp.fabs ⟨false, 0⟩))) =
      fmt64.val (fmt64.fmaxF (Fp.fabs ⟨true, 0⟩) (Fp.fabs ⟨false, 0⟩))) :=
  ⟨by decide, by decide, by decide, by decide,
    C9_max_gaps_exact fmt64 (by decide) (by decide) (by decide) (by decide)⟩

end FloatSamplers

namespace FloatSamplers

open FpFormat

set_option maxRecDepth 100000

/-- C5: the stored count matches the floor/ceil formula over the float
quotients `min_gaps = min_abs / gap` and `max_gaps = max_abs / gap`:
`floor(max_gaps) - floor(min_gaps) + 1` when the bounds have the same sign
(zero treated as non-negative), and `floor(max_gaps) + ceil(min_gaps) + 1`
when they straddle zero. -/
theorem C5_count_formula (φ : FpFormat) (hv : φ.Valid) {low high : Fp}
    (hl : φ.isFinite low) (hh : φ.isFinite high)
    (hge : 0 ≤ φ.Kz (φ.fsub high low))
    {c : SampleValueCollection}
    (hc : SampleValueCollection.new_inclusive φ low high = some c) :
    (c.count : ℤ) =
      if ((low.sign = true ∧ low.mag ≠ 0) ↔ (high.sign = true ∧ high.mag ≠ 0)) then
        φ.ifloor (φ.fdiv (φ.fmaxF (Fp.fabs low) (Fp.fabs high))
            (ulp φ (φ.fmaxF (Fp.fabs low) (Fp.fabs high)))) -
          φ.ifloor (φ.fdiv (φ.fminF (Fp.fabs low) (Fp.fabs high))
            (ulp φ (φ.fmaxF (Fp.fabs low) (Fp.fabs high)))) + 1
      else
        φ.ifloor (φ.fdiv (φ.fmaxF (Fp.fabs low) (Fp.fabs high))
            (ulp φ (φ.fmaxF (Fp.fabs low) (Fp.fabs high)))) +
          φ.iceil (φ.fdiv (φ.fminF (Fp.fabs low) (Fp.fabs high))
            (ulp φ (φ.fmaxF (Fp.fabs low) (Fp.fabs high)))) + 1 := by
  have hKD := φ.KD_pos
  have hle : φ.Kz low ≤ φ.Kz high := (guard_iff φ hv low high).1 hge
  obtain ⟨lf, hceq⟩ := lattice_of_svc φ hv hl hh hle hc
  subst hceq
  have hlmag : low.mag ≤ φ.maxFinMag := by
    unfold FpFormat.isFinite FpFormat.infMag at hl
    unfold FpFormat.maxFinMag
    omega
  have hhmag : high.mag ≤ φ.maxFinMag := by
    unfold FpFormat.isFinite FpFormat.infMag at hh
    unfold FpFormat.maxFinMag
    omega
  have hmxle : φ.mxMag low high ≤ φ.maxFinMag := by
    unfold FpFormat.mxMag
    split
    · exact hhmag
    · exact hlmag
  obtain ⟨gm2, hulp2, hKmgm2, _, _⟩ := ulp_spec2 φ hv ⟨false, φ.mxMag low high⟩ hmxle
  have hgm2eq : gm2 = lf.gm := (φ.Km_eq_Km_iff).1 (by rw [hKmgm2, lf.hgm])
  rw [hgm2eq] at hulp2
  obtain ⟨Mg, hMgd⟩ : ∃ g,
      g = φ.Km (φ.mxMag low high) / φ.spaceK (φ.mxMag low high - 1) := ⟨_, rfl⟩
  obtain ⟨F, hFd⟩ : ∃ f, f = φ.Km lf.xm / φ.KD := ⟨_, rfl⟩
  obtain ⟨C, hCd⟩ : ∃ cc, cc = (φ.Km lf.xm + φ.KD - 1) / φ.KD := ⟨_, rfl⟩
  have hxmMg : φ.Km lf.xm ≤ Mg * φ.KD := by rw [hMgd]; exact lf.hxmMg
  have hFle : F ≤ Mg := by
    rw [hFd]
    have h1 : φ.Km lf.xm / φ.KD ≤ Mg * φ.KD / φ.KD := Nat.div_le_div_right hxmMg
    rwa [Nat.mul_div_cancel _ hKD] at h1
  have hcount : lf.c.count = (if low.sign = high.sign then Mg - F else Mg + C) + 1 := by
    rw [hMgd, hFd, hCd]
    exact lf.hcount
  have hiflmax : φ.ifloor ⟨false, lf.tm⟩ = (Mg : ℤ) := by
    rw [φ.ifloor_mk_false, lf.htm, Nat.mul_div_cancel _ hKD, ← hMgd]
  have hiflmin : φ.ifloor ⟨false, lf.xm⟩ = (F : ℤ) := by
    rw [φ.ifloor_mk_false, ← hFd]
  have hiclmin : φ.iceil ⟨false, lf.xm⟩ = (C : ℤ) := by
    rw [φ.iceil_mk_false, ← hCd]
  rw [fmaxF_fabs_shape φ low high, fminF_fabs_shape φ low high, hulp2,
    lf.hmaxdiv, lf.hmindiv, hiflmax, hiflmin, hiclmin, hcount]
  have hKm_pos_iff : ∀ m : ℕ, 0 < φ.Km m ↔ 0 < m := by
    intro m
    have h := @FpFormat.Km_lt_Km_iff φ 0 m
    rw [φ.Km_zero] at h
    exact h
  have hzero_case : φ.Km (φ.mnMag low high) = 0 → F = 0 ∧ C = 0 := by
    intro h
    have hxm0 : lf.xm = 0 := by
      rw [lf.hxm, h]
      exact φ.roundMagP_zero (φ.valid_two_le_M hv) (φ.spaceK_pos _) (by simp)
    constructor
    · rw [hFd, hxm0, φ.Km_zero, Nat.zero_div]
    · rw [hCd, hxm0, φ.Km_zero, Nat.div_eq_of_lt (by omega)]
  by_cases hcs : low.sign = high.sign <;>
    by_cases hpq : ((low.sign = true ∧ low.mag ≠ 0) ↔ (high.sign = true ∧ high.mag ≠ 0))
  · rw [if_pos hcs, if_pos hpq]
    omega
  · -- same sign bits, adjusted signs differ: one bound is a negative zero
    have hsl : low.sign = true := by
      cases h1 : low.sign
      · exfalso
        apply hpq
        constructor
        · rintro ⟨h2, _⟩
          rw [h1] at h2
          exact absurd h2 (by simp)
        · rintro ⟨h2, _⟩
          rw [← hcs, h1] at h2
          exact absurd h2 (by simp)
      · rfl
    have hsh : high.sign = true := by rw [← hcs, hsl]
    have hone : (low.mag = 0 ∧ high.mag ≠ 0) ∨ (low.mag ≠ 0 ∧ high.mag = 0) := by
      by_cases h1 : low.mag = 0 <;> by_cases h2 : high.mag = 0
      · exfalso
        apply hpq
        constructor
        · rintro ⟨_, h3⟩
          exact absurd h1 h3
        · rintro ⟨_, h3⟩
          exact absurd h2 h3
      · exact Or.inl ⟨h1, h2⟩
      · exact Or.inr ⟨h1, h2⟩
      · exfalso
        apply hpq
        constructor
        · intro _
          exact ⟨hsh, h2⟩
        · intro _
          exact ⟨hsl, h1⟩
    have hmn0 : φ.Km (φ.mnMag low high) = 0 := by
      unfold FpFormat.mnMag
      rcases hone with ⟨h1, h2⟩ | ⟨h1, h2⟩
      · have hKl : φ.Km low.mag = 0 := by rw [h1, φ.Km_zero]
        have hKh : 0 < φ.Km high.mag := (hKm_pos_iff high.mag).2 (by omega)
        rw [if_neg (by omega), hKl]
      · have hKh : φ.Km high.mag = 0 := by rw [h2, φ.Km_zero]
        have hKl : 0 < φ.Km low.mag := (hKm_pos_iff low.mag).2 (by omega)
        rw [if_pos (by omega), hKh]
    obtain ⟨hF0, hC0⟩ := hzero_case hmn0
    rw [if_pos hcs, if_neg hpq, hF0, hC0]
    omega
  · -- sign bits differ, adjusted signs agree: the negative bound is a zero
    have hmn0 : φ.Km (φ.mnMag low high) = 0 := by
      cases h1 : low.sign <;> cases h2 : high.sign
      · exact absurd (by rw [h1, h2]) hcs
      · have hq : ¬(high.sign = true ∧ high.mag ≠ 0) := by
          rintro hq'
          have h3 := hpq.2 hq'
          rw [h1] at h3
          exact absurd h3.1 (by simp)
        have hh0 : high.mag = 0 := by
          by_contra h3
          exact hq ⟨h2, h3⟩
        have hKh : φ.Km high.mag = 0 := by rw [hh0, φ.Km_zero]
        unfold FpFormat.mnMag
        by_cases h4 : φ.Km high.mag < φ.Km low.mag
        · rw [if_pos h4, hKh]
        · rw [if_neg h4]
          omega
      · have hp : ¬(low.sign = true ∧ low.mag ≠ 0) := by
          rintro hp'
          have h3 := hpq.1 hp'
          rw [h2] at h3
          exact absurd h3.1 (by simp)
        have hl0 : low.mag = 0 := by
          by_contra h3
          exact hp ⟨h1, h3⟩
        have hKl : φ.Km low.mag = 0 := by rw [hl0, φ.Km_zero]
        unfold FpFormat.mnMag
        by_cases h4 : φ.Km high.mag < φ.Km low.mag
        · rw [if_pos h4]
          omega
        · rw [if_neg h4, hKl]
      · exact absurd (by rw [h1, h2]) hcs
    obtain ⟨hF0, hC0⟩ := hzero_case hmn0
    rw [if_neg hcs, if_pos hpq, hF0, hC0]
    omega
  · rw [if_neg hcs, if_neg hpq]
    omega

theorem C5_witness :
    fmt64.Valid ∧ fmt64.isFinite ⟨true, 0⟩ ∧ fmt64.isFinite ⟨false, 0⟩ ∧
    0 ≤ fmt64.Kz (fmt64.fsub ⟨false, 0⟩ ⟨true, 0⟩) ∧
    SampleValueCollection.new_inclusive fmt64 ⟨true, 0⟩ ⟨false, 0⟩ =
      some ⟨⟨true, 0⟩, ⟨false, 0⟩, ⟨false, 1⟩, 1⟩ ∧
    ((⟨⟨true, 0⟩, ⟨false, 0⟩, ⟨false, 1⟩, 1⟩ : SampleValueCollection).count : ℤ) =
      (if (((⟨true, 0⟩ : Fp).sign = true ∧ (⟨true, 0⟩ : Fp).mag ≠ 0) ↔
          ((⟨false, 0⟩ : Fp).sign = true ∧ (⟨false, 0⟩ : Fp).mag ≠ 0)) then
        fmt64.ifloor (fmt64.fdiv (fmt64.fmaxF (Fp.fabs ⟨true, 0⟩) (Fp.fabs ⟨false, 0⟩))
            (ulp fmt64 (fmt64.fmaxF (Fp.fabs ⟨true, 0⟩) (Fp.fabs ⟨false, 0⟩)))) -
          fmt64.ifloor (fmt64.fdiv (fmt64.fminF (Fp.fabs ⟨true, 0⟩) (Fp.fabs ⟨false, 0⟩))
            (ulp fmt64 (fmt64.fmaxF (Fp.fabs ⟨true, 0⟩) (Fp.fabs ⟨false, 0⟩)))) + 1
      else
        fmt64.ifloor (fmt64.fdiv (fmt64.fmaxF (Fp.fabs ⟨true, 0⟩) (Fp.fabs ⟨false, 0⟩))
            (ulp fmt64 (fmt64.fmaxF (Fp.fabs ⟨true, 0⟩) (Fp.fabs ⟨false, 0⟩)))) +
          fmt64.iceil (fmt64.fdiv (fmt64.fminF (Fp.fabs ⟨true, 0⟩) (Fp.fabs ⟨false, 0⟩))
            (ulp fmt64 (fmt64.fmaxF (Fp.fabs ⟨true, 0⟩) (Fp.fabs ⟨false, 0⟩)))) + 1) :=
  ⟨by decide, by decide, by decide, by decide, by decide,
    @C5_count_formula fmt64 (by decide) ⟨true, 0⟩ ⟨false, 0⟩ (by decide) (by decide)
      (by decide) ⟨⟨true, 0⟩, ⟨false, 0⟩, ⟨false, 1⟩, 1⟩ (by decide)⟩

end FloatSamplers
